import Mathlib

/-!
# scripts/sync-wasm-bindings.js

A shallow embedding of the transformation pipeline of `scripts/sync-wasm-bindings.js`:
the base64 encoder applied to the wasm binary, the three `String.prototype.replace`
rewrites of the glue text, the two `RegExp.prototype.exec` scans, and the template
strings `header`, `initCode`, `exportStatements`, `finalCode`.

Texts are lists of characters and bytes are `Fin 256`.  A JavaScript string is a
sequence of UTF-16 code units; a character outside the basic plane is two code units,
neither of which is a line terminator, white space or a word character, so the regular
expressions of the script (none has the `u` flag) treat it like any other character
that `.` matches.  The glue file is read twice by the script (lines 15 and 37); both
reads are the same text here.
-/

set_option maxRecDepth 100000

namespace SyncWasm

/-! ## Encoder: `wasmBinary.toString('base64')` -/

/-- A byte of the wasm binary (an element of a Node `Buffer`). -/
abbrev Byte := Fin 256

/-- The 64 digits of base64 (RFC 4648, table 1), in value order. -/
def alphabet : List Char :=
  "ABCDEFGHIJKLMNOPQRSTUVWXYZabcdefghijklmnopqrstuvwxyz0123456789+/".toList

/-- The digit for a 6-bit value. -/
def encChar (n : Nat) : Char := alphabet.getD n 'A'

/-- The runtime primitive `Buffer.prototype.toString('base64')` called on line 17:
RFC 4648 base64 with `=` padding, three bytes to four digits, no line breaks. -/
def toBase64 : List Byte → List Char
  | [] => []
  | [a] => [encChar (a.val / 4), encChar (a.val % 4 * 16), '=', '=']
  | [a, b] =>
    [encChar (a.val / 4), encChar (a.val % 4 * 16 + b.val / 16), encChar (b.val % 16 * 4), '=']
  | a :: b :: c :: rest =>
    encChar (a.val / 4) :: encChar (a.val % 4 * 16 + b.val / 16) ::
      encChar (b.val % 16 * 4 + c.val / 64) :: encChar (c.val % 64) :: toBase64 rest

/-- The 6-bit value of a base64 digit, `none` for any other character. -/
def decChar (c : Char) : Option Nat :=
  let i := alphabet.indexOf c
  if i < 64 then some i else none

/-- The low eight bits of a number, as a byte. -/
def toByte (n : Nat) : Byte := ⟨n % 256, Nat.mod_lt _ (by decide)⟩

/-- The last group of a padded base64 text that ends in `==`: one byte. -/
def decodeTail1 (a b : Char) : Option (List Byte) :=
  match decChar a, decChar b with
  | some x, some y => some [toByte (x * 4 + y / 16)]
  | _, _ => none

/-- The last group of a padded base64 text that ends in a single `=`: two bytes. -/
def decodeTail2 (a b c : Char) : Option (List Byte) :=
  match decChar a, decChar b, decChar c with
  | some x, some y, some z => some [toByte (x * 4 + y / 16), toByte (y % 16 * 16 + z / 4)]
  | _, _, _ => none

/-- A standard (RFC 4648) base64 decoder: groups of four digits give three bytes, the
last group may be padded with one or two `=`, anything else is rejected. -/
def fromBase64 : List Char → Option (List Byte)
  | [] => some []
  | a :: b :: c :: d :: rest =>
    if rest = [] ∧ d = '=' then
      if c = '=' then decodeTail1 a b else decodeTail2 a b c
    else
      match decChar a, decChar b, decChar c, decChar d, fromBase64 rest with
      | some x, some y, some z, some w, some tl =>
        some (toByte (x * 4 + y / 16) :: toByte (y % 16 * 16 + z / 4) ::
          toByte (z % 4 * 64 + w) :: tl)
      | _, _, _, _, _ => none
  | _ => none

/-! ## Regular expressions

The fragment of ECMAScript regular expressions used by the script, with the
backtracking semantics of the language specification (a matcher takes a continuation
and a state; a quantifier tries its alternatives in priority order).  None of the
script's regular expressions carries the `u`, `i` or `s` flag; all carry `g` and `m`. -/

/-- ECMAScript *LineTerminator*: LF, CR, LS, PS. -/
def isLineTerminator (c : Char) : Bool :=
  c.toNat = 0x0A || c.toNat = 0x0D || c.toNat = 0x2028 || c.toNat = 0x2029

/-- The class `\s`: ECMAScript *WhiteSpace* and *LineTerminator*. -/
def isSpace (c : Char) : Bool :=
  c.toNat = 0x09 || c.toNat = 0x0B || c.toNat = 0x0C || c.toNat = 0x20 || c.toNat = 0xA0 ||
  c.toNat = 0x1680 || (0x2000 ≤ c.toNat && c.toNat ≤ 0x200A) || c.toNat = 0x202F ||
  c.toNat = 0x205F || c.toNat = 0x3000 || c.toNat = 0xFEFF || isLineTerminator c

/-- The class `\w`: ASCII letters, digits and the underscore. -/
def isWord (c : Char) : Bool :=
  (0x61 ≤ c.toNat && c.toNat ≤ 0x7A) || (0x41 ≤ c.toNat && c.toNat ≤ 0x5A) ||
  (0x30 ≤ c.toNat && c.toNat ≤ 0x39) || c.toNat = 0x5F

/-- The character classes that occur under a quantifier in the script. -/
inductive CharClass
  | dot
  | space
  | word
  deriving DecidableEq, Repr

/-- Membership in a character class; `.` is every character but a line terminator. -/
def CharClass.test : CharClass → Char → Bool
  | .dot, c => !isLineTerminator c
  | .space, c => isSpace c
  | .word, c => isWord c

/-- Syntax of the regular expressions of the script. -/
inductive Re
  | bol
  | eol
  | lit (cs : List Char)
  | star (c : CharClass)
  | starLazy (c : CharClass)
  | plus (c : CharClass)
  | opt (r : Re)
  | seq (a b : Re)
  | alt (a b : Re)
  | group (r : Re)
  deriving Repr

/-- State of a match attempt: the character before the current position (`none` at the
start of the input), the input from the current position on, the number of characters
matched so far, and the text of capture group 1. -/
structure MatchState where
  prev : Option Char
  rest : List Char
  len : Nat
  cap : Option (List Char)
  deriving Repr, DecidableEq

/-- A matcher continuation. -/
abbrev Cont := MatchState → Option MatchState

/-- The assertion `^` under the `m` flag: at the start of the input or just after a line
terminator. -/
def atLineStart : Option Char → Bool
  | none => true
  | some c => isLineTerminator c

/-- The assertion `$` under the `m` flag: at the end of the input or just before a line
terminator. -/
def atLineEnd : List Char → Bool
  | [] => true
  | c :: _ => isLineTerminator c

/-- A literal run of characters, then the continuation. -/
def matchLit (k : Cont) : List Char → Option Char → List Char → Nat → Option (List Char) →
    Option MatchState
  | [], prev, rest, n, cap => k ⟨prev, rest, n, cap⟩
  | _ :: _, _, [], _, _ => none
  | c :: cs, _, d :: rest, n, cap =>
    if d = c then matchLit k cs (some d) rest (n + 1) cap else none

/-- Greedy `C*`: take one more character of the class if possible and recurse, and fall
back to the continuation at the current position when that fails. -/
def starGreedy (p : Char → Bool) (k : Cont) : Option Char → List Char → Nat →
    Option (List Char) → Option MatchState
  | prev, [], n, cap => k ⟨prev, [], n, cap⟩
  | prev, c :: cs, n, cap =>
    if p c then
      match starGreedy p k (some c) cs (n + 1) cap with
      | some r => some r
      | none => k ⟨prev, c :: cs, n, cap⟩
    else k ⟨prev, c :: cs, n, cap⟩

/-- Lazy `C*?`: try the continuation at the current position first, and take one more
character of the class only when that fails. -/
def starLazyAux (p : Char → Bool) (k : Cont) : Option Char → List Char → Nat →
    Option (List Char) → Option MatchState
  | prev, [], n, cap => k ⟨prev, [], n, cap⟩
  | prev, c :: cs, n, cap =>
    match k ⟨prev, c :: cs, n, cap⟩ with
    | some r => some r
    | none => if p c then starLazyAux p k (some c) cs (n + 1) cap else none

/-- The matcher of a regular expression. -/
def Re.run : Re → Cont → Cont
  | .bol, k => fun s => if atLineStart s.prev then k s else none
  | .eol, k => fun s => if atLineEnd s.rest then k s else none
  | .lit cs, k => fun s => matchLit k cs s.prev s.rest s.len s.cap
  | .star c, k => fun s => starGreedy c.test k s.prev s.rest s.len s.cap
  | .starLazy c, k => fun s => starLazyAux c.test k s.prev s.rest s.len s.cap
  | .plus c, k => fun s =>
    match s.rest with
    | [] => none
    | d :: t => if c.test d then starGreedy c.test k (some d) t (s.len + 1) s.cap else none
  | .opt r, k => fun s =>
    match r.run k s with
    | some x => some x
    | none => k s
  | .seq a b, k => a.run (b.run k)
  | .alt a b, k => fun s =>
    match a.run k s with
    | some x => some x
    | none => b.run k s
  | .group r, k => fun s =>
    r.run (fun e => k { e with cap := some (s.rest.take (e.len - s.len)) }) s

/-- One match attempt at a position: the character before it and the text from it on.
On success the state holds the length of the match and capture group 1. -/
def Re.exec (re : Re) (prev : Option Char) (text : List Char) : Option MatchState :=
  re.run some ⟨prev, text, 0, none⟩

/-- The walk of `String.prototype.replace` with a global regular expression: a counter
of characters still inside the last match (they are dropped), the character before the
current position, the text from the current position on.  A match attempt is made at
every position outside a match; an empty match inserts the replacement and moves on by
one character. -/
def replaceFrom (re : Re) (rep : List Char) : Nat → Option Char → List Char → List Char
  | 0, prev, [] =>
    match re.exec prev [] with
    | some _ => rep
    | none => []
  | _ + 1, _, [] => []
  | 0, prev, c :: cs =>
    match re.exec prev (c :: cs) with
    | some st =>
      match st.len with
      | 0 => rep ++ c :: replaceFrom re rep 0 (some c) cs
      | n + 1 => rep ++ replaceFrom re rep n (some c) cs
    | none => c :: replaceFrom re rep 0 (some c) cs
  | k + 1, _, c :: cs => replaceFrom re rep k (some c) cs

/-- The call `text.replace(re, rep)` for a regular expression with the `g` flag. -/
def replaceAll (re : Re) (rep : List Char) (text : List Char) : List Char :=
  replaceFrom re rep 0 none text

/-- The walk of the loop `for (m = re.exec(text); m !== null; m = re.exec(text))
names.push(m[1])` for a regular expression with the `g` flag: the search resumes at the
end of the last match.  The regular expressions of the script start with a literal, so
a match is never empty (`functionRegex_exec_len_pos`, `bindingRegex_exec_len_pos`); the
walk moves on by one character after an empty match, where the loop would not end. -/
def scanFrom (re : Re) : Nat → Option Char → List Char → List (List Char)
  | _, _, [] => []
  | 0, prev, c :: cs =>
    match re.exec prev (c :: cs) with
    | some st => st.cap.getD [] :: scanFrom re (st.len - 1) (some c) cs
    | none => scanFrom re 0 (some c) cs
  | k + 1, _, c :: cs => scanFrom re k (some c) cs

/-- The names pushed by the `exec` loop over a text. -/
def scanAll (re : Re) (text : List Char) : List (List Char) :=
  scanFrom re 0 none text

/-- The character before the position reached after reading `w`. -/
def prevAfter : Option Char → List Char → Option Char
  | prev, [] => prev
  | _, c :: w => prevAfter (some c) w

/-- What a regular expression matches, stated without reference to the order of the
search: the character before the match, the matched text, the text after it. -/
def Re.Matches : Re → Option Char → List Char → List Char → Prop
  | .bol, prev, w, _ => w = [] ∧ atLineStart prev = true
  | .eol, _, w, rest => w = [] ∧ atLineEnd rest = true
  | .lit cs, _, w, _ => w = cs
  | .star c, _, w, _ => ∀ x ∈ w, c.test x = true
  | .starLazy c, _, w, _ => ∀ x ∈ w, c.test x = true
  | .plus c, _, w, _ => w ≠ [] ∧ ∀ x ∈ w, c.test x = true
  | .opt r, prev, w, rest => w = [] ∨ r.Matches prev w rest
  | .seq a b, prev, w, rest =>
    ∃ u v, w = u ++ v ∧ a.Matches prev u (v ++ rest) ∧ b.Matches (prevAfter prev u) v rest
  | .alt a b, prev, w, rest => a.Matches prev w rest ∨ b.Matches prev w rest
  | .group r, prev, w, rest => r.Matches prev w rest

/-- Whether a regular expression has no capture group. -/
def Re.groupFree : Re → Bool
  | .opt r => r.groupFree
  | .seq a b => a.groupFree && b.groupFree
  | .alt a b => a.groupFree && b.groupFree
  | .group _ => false
  | _ => true

/-- The lines of a text: the maximal runs without a line terminator, in order.  A text
with `n` line terminators has `n + 1` lines. -/
def lines : List Char → List (List Char)
  | [] => [[]]
  | c :: cs =>
    if isLineTerminator c then [] :: lines cs
    else
      match lines cs with
      | [] => [[c]]
      | l :: ls => (c :: l) :: ls

/-- A text without a line terminator: a single line. -/
def NoLT (l : List Char) : Prop := ∀ c ∈ l, isLineTerminator c = false

/-- A text is empty or starts with a line terminator: the position is the end of a
line. -/
def AtEol (y : List Char) : Prop := y = [] ∨ ∃ t r, y = t :: r ∧ isLineTerminator t = true

/-- A regular expression that matches only at the start of a line and whose matches
begin with a character that is not a line terminator. -/
def LineAnchored (re : Re) : Prop :=
  (∀ prev x, atLineStart prev = false → re.exec prev x = none) ∧
  (∀ prev w rest, re.Matches prev w rest → ∃ c u, w = c :: u ∧ isLineTerminator c = false)

/-- Apply `f` to every line of a text and keep the line terminators: the first
argument holds the current line, reversed. -/
def mapLinesAux (f : List Char → List Char) : List Char → List Char → List Char
  | acc, [] => f acc.reverse
  | acc, c :: cs =>
    if isLineTerminator c then f acc.reverse ++ c :: mapLinesAux f [] cs
    else mapLinesAux f (c :: acc) cs

/-- Apply `f` to every line of a text and keep the line terminators. -/
def mapLines (f : List Char → List Char) (x : List Char) : List Char :=
  mapLinesAux f [] x

/-! ## The script -/

/-- Line 19: `/^import .* from .*?;?\s*$/gm`. -/
def importRegex : Re :=
  .seq .bol (.seq (.lit "import ".toList) (.seq (.star .dot) (.seq (.lit " from ".toList)
    (.seq (.starLazy .dot) (.seq (.opt (.lit ";".toList)) (.seq (.star .space) .eol))))))

/-- Line 21: `/^export function /gm`. -/
def exportFunctionRegex : Re :=
  .seq .bol (.lit "export function ".toList)

/-- Line 22: `/^export const /gm`. -/
def exportConstRegex : Re :=
  .seq .bol (.lit "export const ".toList)

/-- Line 27: `/^function (\w+)\s*\(/gm`. -/
def functionRegex : Re :=
  .seq .bol (.seq (.lit "function ".toList) (.seq (.group (.plus .word))
    (.seq (.star .space) (.lit "(".toList))))

/-- Line 36: `/^(?:export )?function (__wbg?_\w+|__wbindgen_\w+)\s*\(/gm`. -/
def bindingRegex : Re :=
  .seq .bol (.seq (.opt (.lit "export ".toList)) (.seq (.lit "function ".toList)
    (.seq (.group (.alt
        (.seq (.lit "__wb".toList) (.seq (.opt (.lit "g".toList))
          (.seq (.lit "_".toList) (.plus .word))))
        (.seq (.lit "__wbindgen_".toList) (.plus .word))))
      (.seq (.star .space) (.lit "(".toList)))))

/-- Line 19: the glue text without its import lines. -/
def stripImports (src : List Char) : List Char :=
  replaceAll importRegex [] src

/-- Lines 21-22: `export function ` and `export const ` at the start of a line lose
the `export `. -/
def demoteExports (text : List Char) : List Char :=
  replaceAll exportConstRegex "const ".toList
    (replaceAll exportFunctionRegex "function ".toList text)

/-- The value of `wasmBgJs` after lines 19-22. -/
def rewrittenGlue (src : List Char) : List Char :=
  demoteExports (stripImports src)

/-- What `replace(/^L/gm, R)` does to one line: a line that starts with `L` gets `R`
in place of that `L`, any other line is kept. -/
def replaceLineStart (L R l : List Char) : List Char :=
  if L <+: l then R ++ l.drop L.length else l

/-- What lines 21-22 do to one line. -/
def demoteLine (l : List Char) : List Char :=
  replaceLineStart "export const ".toList "const ".toList
    (replaceLineStart "export function ".toList "function ".toList l)

/-- Whether a line matches the import-statement pattern of line 19. -/
def isImportLine (l : List Char) : Bool :=
  (importRegex.exec none l).isSome

/-- The lines of a text that outlive line 19: an import line goes, and so does every
whitespace-only line that directly follows an import line (the flag says that the
lines just before were removed in this way). -/
def survivingLines : Bool → List (List Char) → List (List Char)
  | _, [] => []
  | after, l :: ls =>
    if isImportLine l then survivingLines true ls
    else if after && l.all isSpace then survivingLines true ls
    else l :: survivingLines false ls

/-- Lines 24-34: `exportedFunctions`, scanned from the rewritten text. -/
def exportedFunctions (src : List Char) : List (List Char) :=
  scanAll functionRegex (rewrittenGlue src)

/-- Lines 36-44: `bindingFunctions`, scanned from the original text. -/
def bindingFunctions (src : List Char) : List (List Char) :=
  scanAll bindingRegex src

/-- `Array.prototype.join` on an array of strings. -/
def join (sep : List Char) (xs : List (List Char)) : List Char :=
  List.intercalate sep xs

/-- Lines 46-53: the template string `header`. -/
def header (wasmBase64 : List Char) : List Char :=
  ("// @ts-nocheck\n" ++
   "// Auto-generated from lib/rumina_bg.js and lib/rumina_bg.wasm\n" ++
   "// Do not edit manually\n" ++
   "\n" ++
   "// Inlined WASM binary (base64 encoded)\n" ++
   "const wasmBase64 = '").toList ++ wasmBase64 ++ "'\n\n".toList

/-- Line 56: `importsObj`. -/
def importsObj (names : List (List Char)) : List Char :=
  join ",\n".toList (names.map (fun fn => "    ".toList ++ fn))

/-- The part of `initCode` before `${importsObj}`. -/
def initPrefix : List Char :=
  ("\n" ++
   "// Decode and instantiate WASM module\n" ++
   "const wasmBytes = Uint8Array.from(atob(wasmBase64), c => c.charCodeAt(0))\n" ++
   "const wasmModule = new WebAssembly.Module(wasmBytes)\n" ++
   "\n" ++
   "// Build imports object\n" ++
   "const imports = \x7b\n" ++
   "  './rumina_bg.js': \x7b\n").toList

/-- The part of `initCode` after `${importsObj}`. -/
def initSuffix : List Char :=
  ("\n" ++
   "  \x7d\n" ++
   "\x7d\n" ++
   "\n" ++
   "const wasmInstance = new WebAssembly.Instance(wasmModule, imports)\n" ++
   "wasm = wasmInstance.exports\n" ++
   "\n" ++
   "// Start WASM\n" ++
   "if (wasm.__wbindgen_start) \x7b\n" ++
   "  wasm.__wbindgen_start()\n" ++
   "\x7d\n").toList

/-- Lines 58-77: the template string `initCode`. -/
def initCode (names : List (List Char)) : List Char :=
  initPrefix ++ importsObj names ++ initSuffix

/-- Lines 79-82: `exportStatements`. -/
def exportStatements (names : List (List Char)) : List Char :=
  if names.length > 0 then "\nexport \x7b ".toList ++ join ", ".toList names ++ " \x7d".toList
  else []

/-- Line 84: `finalCode`, for the glue text and the bytes of the wasm binary. -/
def finalCode (src : List Char) (wasmBinary : List Byte) : List Char :=
  header (toBase64 wasmBinary) ++ rewrittenGlue src ++ initCode (bindingFunctions src) ++
    exportStatements (exportedFunctions src)

/-- An identifier: a non-empty run of word characters. -/
def IsName (n : List Char) : Prop := n ≠ [] ∧ ∀ c ∈ n, isWord c = true

/-- A name the pattern of line 36 accepts: `__wb`, an optional `g`, `_` and an
identifier, or `__wbindgen_` and an identifier. -/
def IsBindingName (u : List Char) : Prop :=
  (∃ g w, u = "__wb".toList ++ g ++ "_".toList ++ w ∧ (g = [] ∨ g = "g".toList) ∧ IsName w) ∨
  (∃ w, u = "__wbindgen_".toList ++ w ∧ IsName w)

/-- A glue text that declares the given names in order, one declaration
`function name() {}` per line. -/
def declarations : List (List Char) → List Char
  | [] => []
  | n :: ns => "function ".toList ++ n ++ "() \x7b\x7d".toList ++ '\n' :: declarations ns

/-! ## Example inputs -/

/-- A glue text of four lines with the line-initial declarations `export function f1(`,
`function __wbg_foo(`, `export function f2(`, `function __wbindgen_bar(`, each followed
by the rest of its line. -/
def orderingText (b1 b2 b3 b4 : List Char) : List Char :=
  "export function f1(".toList ++ b1 ++ '\n' ::
    ("function __wbg_foo(".toList ++ b2 ++ '\n' ::
      ("export function f2(".toList ++ b3 ++ '\n' ::
        ("function __wbindgen_bar(".toList ++ b4 ++ ['\n'])))

/-- The glue text `orderingText` with the empty body `) {}` on every line. -/
def orderingGlue : List Char :=
  orderingText ") \x7b\x7d".toList ") \x7b\x7d".toList ") \x7b\x7d".toList ") \x7b\x7d".toList

/-- A glue text with an import line followed by two blank lines. -/
def blankAfterImportGlue : List Char :=
  "import * as wasm from './rumina_bg.wasm';\n\n\nlet x = 1;\n".toList

/-- A glue text without a line that begins with `function ` or `export function `. -/
def noFunctionGlue : List Char :=
  "import * as wasm from './rumina_bg.wasm';\nexport const answer = 42;\nlet x = 1;\n".toList

/-- A glue text with one exported function and one host binding. -/
def smallGlue : List Char :=
  "export function add(a, b) \x7b return a + b; \x7d\nexport function __wbg_log(x) \x7b\x7d\n".toList

/-- The glue text of the scenario of the specification. -/
def scenarioGlue : List Char :=
  ("export function add(a, b) \x7b return a + b; \x7d\n" ++
   "function __wbg_log(x) \x7b console.log(x); \x7d").toList

/-- The bytes of the scenario of the specification: `\0asm`. -/
def scenarioBytes : List Byte := [0x00, 0x61, 0x73, 0x6d]

/-- The opening of the imports object in `initCode`: the declaration and the one
namespace key. -/
def importsOpen : List Char :=
  "const imports = \x7b\n  './rumina_bg.js': \x7b\n".toList

/-- The closing of the namespace object and of the imports object in `initCode`. -/
def importsClose : List Char :=
  "\n  \x7d\n\x7d\n".toList

/-- The part of `initCode` before the imports object. -/
def initHead : List Char :=
  ("\n" ++
   "// Decode and instantiate WASM module\n" ++
   "const wasmBytes = Uint8Array.from(atob(wasmBase64), c => c.charCodeAt(0))\n" ++
   "const wasmModule = new WebAssembly.Module(wasmBytes)\n" ++
   "\n" ++
   "// Build imports object\n").toList

/-- The part of `initCode` after the imports object. -/
def initTail : List Char :=
  ("\n" ++
   "const wasmInstance = new WebAssembly.Instance(wasmModule, imports)\n" ++
   "wasm = wasmInstance.exports\n" ++
   "\n" ++
   "// Start WASM\n" ++
   "if (wasm.__wbindgen_start) \x7b\n" ++
   "  wasm.__wbindgen_start()\n" ++
   "\x7d\n").toList

/-- The members of the namespace object, one line per name: four spaces, the name,
and a comma after every name but the last. -/
def memberLines : List (List Char) → List (List Char)
  | [] => []
  | [n] => ["    ".toList ++ n]
  | n :: m :: ns => ("    ".toList ++ n ++ ",".toList) :: memberLines (m :: ns)

/-- The comment lines at the top of `header`, without the line feed after the last. -/
def headerComment : List Char :=
  ("// @ts-nocheck\n" ++
   "// Auto-generated from lib/rumina_bg.js and lib/rumina_bg.wasm\n" ++
   "// Do not edit manually\n" ++
   "\n" ++
   "// Inlined WASM binary (base64 encoded)").toList

/-- The line of `header` that binds `wasmBase64`. -/
def payloadLine (wasmBase64 : List Char) : List Char :=
  "const wasmBase64 = '".toList ++ wasmBase64 ++ "'".toList

/-- No line of the text matches the import-statement pattern of line 19. -/
def NoImportLine (x : List Char) : Prop := ∀ l ∈ lines x, isImportLine l = false

/-- A glue text that declares the host binding `__wbg_f` twice. -/
def duplicateGlue : List Char :=
  "export function __wbg_f() \x7b\x7d\nexport function __wbg_f() \x7b\x7d\n".toList

/-- A glue text with a line-initial function whose name begins with `__wb_`. -/
def shortPrefixGlue : List Char :=
  "function __wb_x() \x7b\x7d\n".toList

/-- A text with the kinds of line that lines 21-22 must leave alone, followed by one
line of each kind that they rewrite. -/
def demotionSample : List Char :=
  ("  export function a() \x7b\x7d\n" ++
   "x; export const y = 1\n" ++
   "export class C \x7b\x7d\n" ++
   "export let z\n" ++
   "export default f\n" ++
   "export \x7b a \x7d\n" ++
   "export function b() \x7b\x7d\n" ++
   "export const c = 2").toList

/-- The text `demotionSample` after lines 21-22. -/
def demotionSampleResult : List Char :=
  ("  export function a() \x7b\x7d\n" ++
   "x; export const y = 1\n" ++
   "export class C \x7b\x7d\n" ++
   "export let z\n" ++
   "export default f\n" ++
   "export \x7b a \x7d\n" ++
   "function b() \x7b\x7d\n" ++
   "const c = 2").toList

/-- The single quote, which delimits the string literal of `header`. -/
def quoteChar : Char := Char.ofNat 39

/-- The backslash, which starts an escape in a string literal. -/
def backslashChar : Char := Char.ofNat 92

/-! ## Column-0 declarations, as the specification words them

The definitions of this section do not come from the script: they say in plain terms
what a column-0 declaration `function N(` or `export function N(` is, and the scans of
lines 27 and 36 are compared with them. -/

/-- Whether a text reads optional white space and then `(`. -/
def opensParen (z : List Char) : Bool :=
  (z.dropWhile isSpace).head? == some '('

/-- The name at the start of a text when the text reads a name, optional white space
and `(`. -/
def declNameAfterKeyword (x : List Char) : Option (List Char) :=
  if x.takeWhile isWord ≠ [] ∧ opensParen (x.dropWhile isWord) = true then
    some (x.takeWhile isWord)
  else none

/-- The name declared at the start of a text: the text reads `function N` followed by
optional white space and `(`, or, when `exportOk` is set, the same after `export `. -/
def declNameAt (exportOk : Bool) (x : List Char) : Option (List Char) :=
  if "function ".toList <+: x then declNameAfterKeyword (x.drop 9)
  else if exportOk = true ∧ "export function ".toList <+: x then
    declNameAfterKeyword (x.drop 16)
  else none

/-- Whether a name matches `__wbg?_\w+` or `__wbindgen_\w+` as a whole. -/
def isBindingName (u : List Char) : Bool :=
  u.all isWord &&
    ((decide ("__wb_".toList <+: u) && decide (5 < u.length)) ||
     (decide ("__wbg_".toList <+: u) && decide (6 < u.length)) ||
     (decide ("__wbindgen_".toList <+: u) && decide (11 < u.length)))

/-- The binding name declared at the start of a text, exported or not. -/
def bindingNameAt (x : List Char) : Option (List Char) :=
  (declNameAt true x).filter isBindingName

/-- The names that `nameAt` finds at the column-0 positions of a text, in text order:
the walk keeps the character before the current position. -/
def namesAtLineStarts (nameAt : List Char → Option (List Char)) :
    Option Char → List Char → List (List Char)
  | _, [] => []
  | prev, c :: cs =>
    (if atLineStart prev then (nameAt (c :: cs)).toList else []) ++
      namesAtLineStarts nameAt (some c) cs

/-- The names of the column-0 declarations `function N(` of a text and, when
`exportOk` is set, of its column-0 declarations `export function N(` as well. -/
def columnZeroDeclarations (exportOk : Bool) (text : List Char) : List (List Char) :=
  namesAtLineStarts (declNameAt exportOk) none text

/-- Capture group 1 of a match, as the loops of the script read it. -/
def capOf (st : MatchState) : List Char := st.cap.getD []

/-- A glue text whose comment holds `function __wbg_f`, an import line and `(` on three
lines: no declaration before line 19, one after it. -/
def mergeGlue : List Char :=
  "/*\nfunction __wbg_f\nimport a from 'b'\n(\n*/\n".toList

/-! ## Import statements, as the specification words them

The definitions of this section do not come from the script: `isImportStatement` says
in plain terms when a line begins an import statement that names a module path, and
the lines of `finalCode` are compared with it. -/

/-- The double quote. -/
def doubleQuoteChar : Char := Char.ofNat 34

/-- The opening brace. -/
def openBraceChar : Char := Char.ofNat 123

/-- Whether a character opens a quoted module path. -/
def isQuote (c : Char) : Bool := c == quoteChar || c == doubleQuoteChar

/-- Whether a line begins an import statement that names a module path: the line
begins with the keyword `import`; what follows, after optional white space, is the
quoted module path itself, `*`, an opening brace, or (after at least one white space)
the name of a default binding; and the line holds a quote. A call `import(...)` and
`import.meta` do not qualify, nor does a word that only begins with `import`. -/
def isImportStatement (l : List Char) : Bool :=
  decide ("import".toList <+: l) && l.any isQuote &&
    match (l.drop 6).dropWhile isSpace with
    | [] => false
    | c :: _ =>
      isQuote c || c == '*' || c == openBraceChar ||
        (isWord c && !c.isDigit &&
          match l.drop 6 with
          | [] => false
          | s :: _ => isSpace s)

/-- A glue text with two import statements that the pattern of line 19 does not match:
one without `from`, one without a space after `import`. -/
def sideEffectImportGlue : List Char :=
  ("import './side.js';\nimport\x7bhelper\x7d from './helper.js';\n" ++
   "export function run() \x7b helper(); \x7d\n").toList

/-- The glue text `orderingGlue` followed by `mergeGlue`: the four declarations of
`orderingGlue` and, in the comment, a fifth one that only line 19 puts together. -/
def orderingMergeGlue : List Char := orderingGlue ++ mergeGlue

/-- A glue text without an import line and without a function declaration. -/
def constantsGlue : List Char :=
  "export const answer = 42;\nlet x = 1;\n".toList

/-! ### Facts about the digits -/

theorem decChar_encChar : ∀ n, n < 64 → decChar (encChar n) = some n := by
  decide

theorem encChar_ne_pad : ∀ n, n < 64 → encChar n ≠ '=' := by
  decide

theorem toByte_val (a : Byte) : toByte a.val = a := by
  apply Fin.ext
  simp only [toByte]
  exact Nat.mod_eq_of_lt a.isLt

/-- Claim C1 (round trip): decoding the base64 text of any byte sequence, the empty
one included, with the standard decoder gives back exactly that byte sequence. -/
theorem toBase64_roundtrip (bs : List Byte) : fromBase64 (toBase64 bs) = some bs := by
  induction bs using toBase64.induct with
  | case1 => rfl
  | case2 a =>
    have ha := a.isLt
    have h1 := decChar_encChar (a.val / 4) (by omega)
    have h2 := decChar_encChar (a.val % 4 * 16) (by omega)
    simp only [toBase64, fromBase64, decodeTail1, h1, h2, and_self, if_true]
    have : (a.val / 4 * 4 + a.val % 4 * 16 / 16) = a.val := by omega
    rw [this, toByte_val]
  | case3 a b =>
    have ha := a.isLt
    have hb := b.isLt
    have h1 := decChar_encChar (a.val / 4) (by omega)
    have h2 := decChar_encChar (a.val % 4 * 16 + b.val / 16) (by omega)
    have h3 := decChar_encChar (b.val % 16 * 4) (by omega)
    have n3 := encChar_ne_pad (b.val % 16 * 4) (by omega)
    simp only [toBase64, fromBase64, decodeTail2, h1, h2, h3, n3, and_self, if_true, if_false]
    have e1 : (a.val / 4 * 4 + (a.val % 4 * 16 + b.val / 16) / 16) = a.val := by omega
    have e2 : ((a.val % 4 * 16 + b.val / 16) % 16 * 16 + b.val % 16 * 4 / 4) = b.val := by omega
    rw [e1, e2, toByte_val, toByte_val]
  | case4 a b c rest ih =>
    have ha := a.isLt
    have hb := b.isLt
    have hc := c.isLt
    have h1 := decChar_encChar (a.val / 4) (by omega)
    have h2 := decChar_encChar (a.val % 4 * 16 + b.val / 16) (by omega)
    have h3 := decChar_encChar (b.val % 16 * 4 + c.val / 64) (by omega)
    have h4 := decChar_encChar (c.val % 64) (by omega)
    have n4 := encChar_ne_pad (c.val % 64) (by omega)
    simp only [toBase64, fromBase64, h1, h2, h3, h4, n4, ih, and_false, if_false]
    have e1 : (a.val / 4 * 4 + (a.val % 4 * 16 + b.val / 16) / 16) = a.val := by omega
    have e2 : ((a.val % 4 * 16 + b.val / 16) % 16 * 16 + (b.val % 16 * 4 + c.val / 64) / 4)
        = b.val := by omega
    have e3 : ((b.val % 16 * 4 + c.val / 64) % 4 * 64 + c.val % 64) = c.val := by omega
    rw [e1, e2, e3, toByte_val, toByte_val, toByte_val]


/-! ## The matcher against the declarative semantics -/

theorem prevAfter_append (prev : Option Char) (u v : List Char) :
    prevAfter prev (u ++ v) = prevAfter (prevAfter prev u) v := by
  induction u generalizing prev with
  | nil => rfl
  | cons c u ih => exact ih (some c)

theorem matchLit_sound (k : Cont) (cs : List Char) :
    ∀ prev rest n cap r, matchLit k cs prev rest n cap = some r →
      ∃ rest1, rest = cs ++ rest1 ∧ k ⟨prevAfter prev cs, rest1, n + cs.length, cap⟩ = some r := by
  induction cs with
  | nil =>
    intro prev rest n cap r h
    exact ⟨rest, rfl, by simpa [matchLit, prevAfter] using h⟩
  | cons c cs ih =>
    intro prev rest n cap r h
    cases rest with
    | nil => simp [matchLit] at h
    | cons d rest =>
      simp only [matchLit] at h
      split at h
      · next hd =>
        obtain ⟨rest1, h1, h2⟩ := ih (some d) rest (n + 1) cap r h
        refine ⟨rest1, by rw [h1, hd]; rfl, ?_⟩
        rw [← h2, hd]
        simp only [prevAfter, List.length_cons]
        congr 2
        omega
      · exact absurd h (by simp)

theorem matchLit_append (k : Cont) (cs : List Char) :
    ∀ prev rest n cap, matchLit k cs prev (cs ++ rest) n cap
      = k ⟨prevAfter prev cs, rest, n + cs.length, cap⟩ := by
  induction cs with
  | nil => intro prev rest n cap; rfl
  | cons c cs ih =>
    intro prev rest n cap
    show matchLit k (c :: cs) prev (c :: (cs ++ rest)) n cap = _
    rw [matchLit, if_pos rfl, ih]
    simp only [prevAfter, List.length_cons]
    rw [Nat.add_assoc, Nat.add_comm 1]

theorem starGreedy_sound (p : Char → Bool) (k : Cont) :
    ∀ rest prev n cap r, starGreedy p k prev rest n cap = some r →
      ∃ w rest1, rest = w ++ rest1 ∧ (∀ x ∈ w, p x = true) ∧
        k ⟨prevAfter prev w, rest1, n + w.length, cap⟩ = some r := by
  intro rest
  induction rest with
  | nil =>
    intro prev n cap r h
    exact ⟨[], [], rfl, by simp, by simpa [starGreedy, prevAfter] using h⟩
  | cons c cs ih =>
    intro prev n cap r h
    have stop : k ⟨prev, c :: cs, n, cap⟩ = some r →
        ∃ w rest1, c :: cs = w ++ rest1 ∧ (∀ x ∈ w, p x = true) ∧
          k ⟨prevAfter prev w, rest1, n + w.length, cap⟩ = some r :=
      fun hk => ⟨[], c :: cs, rfl, by simp, by simpa [prevAfter] using hk⟩
    simp only [starGreedy] at h
    split at h
    · next hp =>
      split at h
      · next r1 hr =>
        obtain ⟨w, rest1, h1, h2, h3⟩ := ih (some c) (n + 1) cap r1 hr
        refine ⟨c :: w, rest1, by rw [h1]; rfl, ?_, ?_⟩
        · intro x hx
          rcases List.mem_cons.1 hx with rfl | hx
          · exact hp
          · exact h2 x hx
        · rw [← h, ← h3]
          simp only [prevAfter, List.length_cons]
          congr 2
          omega
      · exact stop h
    · exact stop h

theorem starLazyAux_sound (p : Char → Bool) (k : Cont) :
    ∀ rest prev n cap r, starLazyAux p k prev rest n cap = some r →
      ∃ w rest1, rest = w ++ rest1 ∧ (∀ x ∈ w, p x = true) ∧
        k ⟨prevAfter prev w, rest1, n + w.length, cap⟩ = some r := by
  intro rest
  induction rest with
  | nil =>
    intro prev n cap r h
    exact ⟨[], [], rfl, by simp, by simpa [starLazyAux, prevAfter] using h⟩
  | cons c cs ih =>
    intro prev n cap r h
    simp only [starLazyAux] at h
    split at h
    · next r1 hr =>
      refine ⟨[], c :: cs, rfl, by simp, ?_⟩
      rw [← h]
      simpa [prevAfter] using hr
    · split at h
      · next hp =>
        obtain ⟨w, rest1, h1, h2, h3⟩ := ih (some c) (n + 1) cap r h
        refine ⟨c :: w, rest1, by rw [h1]; rfl, ?_, ?_⟩
        · intro x hx
          rcases List.mem_cons.1 hx with rfl | hx
          · exact hp
          · exact h2 x hx
        · rw [← h3]
          simp only [prevAfter, List.length_cons]
          congr 2
          omega
      · exact absurd h (by simp)

/-- Soundness of the matcher: a successful run of `re` with continuation `k` has read
some text that `re` matches and then succeeded in `k`; the capture passed on is the
one received unless `re` has a group. -/
theorem Re.run_sound (re : Re) :
    ∀ (k : Cont) (s r : MatchState), re.run k s = some r →
      ∃ w rest cap, s.rest = w ++ rest ∧ re.Matches s.prev w rest ∧
        (re.groupFree = true → cap = s.cap) ∧
        k ⟨prevAfter s.prev w, rest, s.len + w.length, cap⟩ = some r := by
  induction re with
  | bol =>
    intro k s r h
    simp only [Re.run] at h
    split at h
    · next hb => exact ⟨[], s.rest, s.cap, rfl, ⟨rfl, hb⟩, fun _ => rfl, by simpa [prevAfter] using h⟩
    · exact absurd h (by simp)
  | eol =>
    intro k s r h
    simp only [Re.run] at h
    split at h
    · next hb => exact ⟨[], s.rest, s.cap, rfl, ⟨rfl, hb⟩, fun _ => rfl, by simpa [prevAfter] using h⟩
    · exact absurd h (by simp)
  | lit cs =>
    intro k s r h
    obtain ⟨rest1, h1, h2⟩ := matchLit_sound k cs _ _ _ _ r h
    exact ⟨cs, rest1, s.cap, h1, rfl, fun _ => rfl, h2⟩
  | star c =>
    intro k s r h
    obtain ⟨w, rest1, h1, h2, h3⟩ := starGreedy_sound c.test k _ _ _ _ r h
    exact ⟨w, rest1, s.cap, h1, h2, fun _ => rfl, h3⟩
  | starLazy c =>
    intro k s r h
    obtain ⟨w, rest1, h1, h2, h3⟩ := starLazyAux_sound c.test k _ _ _ _ r h
    exact ⟨w, rest1, s.cap, h1, h2, fun _ => rfl, h3⟩
  | plus c =>
    intro k s r h
    simp only [Re.run] at h
    split at h
    · exact absurd h (by simp)
    · next d t hrest =>
      split at h
      · next hp =>
        obtain ⟨w, rest1, h1, h2, h3⟩ := starGreedy_sound c.test k _ _ _ _ r h
        refine ⟨d :: w, rest1, s.cap, by rw [hrest, h1]; rfl, ⟨by simp, ?_⟩, fun _ => rfl, ?_⟩
        · intro x hx
          rcases List.mem_cons.1 hx with rfl | hx
          · exact hp
          · exact h2 x hx
        · rw [← h3]
          simp only [prevAfter, List.length_cons]
          congr 2
          omega
      · exact absurd h (by simp)
  | opt q ih =>
    intro k s r h
    simp only [Re.run] at h
    split at h
    · next x hx =>
      obtain ⟨w, rest, cap, h1, h2, h3, h4⟩ := ih k s x hx
      exact ⟨w, rest, cap, h1, Or.inr h2, h3, by rw [h4, h]⟩
    · exact ⟨[], s.rest, s.cap, rfl, Or.inl rfl, fun _ => rfl, by simpa [prevAfter] using h⟩
  | seq a b iha ihb =>
    intro k s r h
    simp only [Re.run] at h
    obtain ⟨u, rest1, cap1, h1, h2, h3, h4⟩ := iha (b.run k) s r h
    obtain ⟨v, rest2, cap2, g1, g2, g3, g4⟩ := ihb k _ r h4
    simp only at g1 g2 g3 g4
    refine ⟨u ++ v, rest2, cap2, by rw [h1, g1, List.append_assoc], ⟨u, v, rfl, ?_, g2⟩, ?_, ?_⟩
    · rw [← g1]; exact h2
    · intro hg
      simp only [Re.groupFree, Bool.and_eq_true] at hg
      rw [g3 hg.2, h3 hg.1]
    · rw [← g4, prevAfter_append, List.length_append, Nat.add_assoc]
  | alt a b iha ihb =>
    intro k s r h
    simp only [Re.run] at h
    split at h
    · next x hx =>
      obtain ⟨w, rest, cap, h1, h2, h3, h4⟩ := iha k s x hx
      refine ⟨w, rest, cap, h1, Or.inl h2, ?_, by rw [h4, h]⟩
      intro hg
      simp only [Re.groupFree, Bool.and_eq_true] at hg
      exact h3 hg.1
    · obtain ⟨w, rest, cap, h1, h2, h3, h4⟩ := ihb k s r h
      refine ⟨w, rest, cap, h1, Or.inr h2, ?_, h4⟩
      intro hg
      simp only [Re.groupFree, Bool.and_eq_true] at hg
      exact h3 hg.2
  | group q ih =>
    intro k s r h
    simp only [Re.run] at h
    obtain ⟨w, rest, cap, h1, h2, _, h4⟩ := ih _ s r h
    exact ⟨w, rest, _, h1, h2, fun hg => by simp [Re.groupFree] at hg, h4⟩


theorem starGreedy_of_cont (p : Char → Bool) (k : Cont) (prev : Option Char)
    (rest : List Char) (n : Nat) (cap : Option (List Char))
    (h : (k ⟨prev, rest, n, cap⟩).isSome = true) :
    (starGreedy p k prev rest n cap).isSome = true := by
  cases rest with
  | nil => simpa [starGreedy] using h
  | cons c cs =>
    simp only [starGreedy]
    split
    · split
      · rfl
      · exact h
    · exact h

theorem starGreedy_complete (p : Char → Bool) (k : Cont) :
    ∀ w prev rest n cap, (∀ x ∈ w, p x = true) →
      (k ⟨prevAfter prev w, rest, n + w.length, cap⟩).isSome = true →
      (starGreedy p k prev (w ++ rest) n cap).isSome = true := by
  intro w
  induction w with
  | nil =>
    intro prev rest n cap _ h
    exact starGreedy_of_cont p k prev rest n cap (by simpa [prevAfter] using h)
  | cons c w ih =>
    intro prev rest n cap hw h
    have hc : p c = true := hw c (List.mem_cons_self _ _)
    have hrec := ih (some c) rest (n + 1) cap (fun x hx => hw x (List.mem_cons_of_mem _ hx))
      (by simpa [prevAfter, Nat.add_assoc, Nat.add_comm 1] using h)
    show (starGreedy p k prev (c :: (w ++ rest)) n cap).isSome = true
    rw [starGreedy, if_pos hc]
    split
    · rfl
    · next hnone => rw [hnone] at hrec; exact absurd hrec (by simp)

theorem starLazyAux_of_cont (p : Char → Bool) (k : Cont) (prev : Option Char)
    (rest : List Char) (n : Nat) (cap : Option (List Char))
    (h : (k ⟨prev, rest, n, cap⟩).isSome = true) :
    (starLazyAux p k prev rest n cap).isSome = true := by
  cases rest with
  | nil => simpa [starLazyAux] using h
  | cons c cs =>
    simp only [starLazyAux]
    split
    · rfl
    · next hnone => rw [hnone] at h; exact absurd h (by simp)

theorem starLazyAux_complete (p : Char → Bool) (k : Cont) :
    ∀ w prev rest n cap, (∀ x ∈ w, p x = true) →
      (k ⟨prevAfter prev w, rest, n + w.length, cap⟩).isSome = true →
      (starLazyAux p k prev (w ++ rest) n cap).isSome = true := by
  intro w
  induction w with
  | nil =>
    intro prev rest n cap _ h
    exact starLazyAux_of_cont p k prev rest n cap (by simpa [prevAfter] using h)
  | cons c w ih =>
    intro prev rest n cap hw h
    have hc : p c = true := hw c (List.mem_cons_self _ _)
    have hrec := ih (some c) rest (n + 1) cap (fun x hx => hw x (List.mem_cons_of_mem _ hx))
      (by simpa [prevAfter, Nat.add_assoc, Nat.add_comm 1] using h)
    show (starLazyAux p k prev (c :: (w ++ rest)) n cap).isSome = true
    rw [starLazyAux]
    split
    · rfl
    · rw [if_pos hc]; exact hrec

/-- Completeness of the matcher: when `re` matches a prefix `w` of the input and the
continuation succeeds after `w` whatever the capture, the run succeeds (the search
backtracks over every way to match). -/
theorem Re.run_complete (re : Re) :
    ∀ (k : Cont) (s : MatchState) (w rest : List Char), s.rest = w ++ rest →
      re.Matches s.prev w rest →
      (∀ cap, (k ⟨prevAfter s.prev w, rest, s.len + w.length, cap⟩).isSome = true) →
      (re.run k s).isSome = true := by
  induction re with
  | bol =>
    intro k s w rest h1 h2 h3
    obtain ⟨rfl, hb⟩ := h2
    simp only [Re.run, hb, if_true]
    have := h3 s.cap
    simp only [prevAfter, List.length_nil, Nat.add_zero] at this
    rw [List.nil_append] at h1
    rw [← h1] at this
    exact this
  | eol =>
    intro k s w rest h1 h2 h3
    obtain ⟨rfl, hb⟩ := h2
    rw [List.nil_append] at h1
    simp only [Re.run, h1, hb, if_true]
    have := h3 s.cap
    simp only [prevAfter, List.length_nil, Nat.add_zero] at this
    rw [← h1] at this
    exact this
  | lit cs =>
    intro k s w rest h1 h2 h3
    have hw : w = cs := h2
    subst hw
    simp only [Re.run, h1, matchLit_append]
    exact h3 s.cap
  | star c =>
    intro k s w rest h1 h2 h3
    simp only [Re.run, h1]
    exact starGreedy_complete c.test k w s.prev rest s.len s.cap h2 (h3 s.cap)
  | starLazy c =>
    intro k s w rest h1 h2 h3
    simp only [Re.run, h1]
    exact starLazyAux_complete c.test k w s.prev rest s.len s.cap h2 (h3 s.cap)
  | plus c =>
    intro k s w rest h1 h2 h3
    obtain ⟨hne, hall⟩ := h2
    cases w with
    | nil => exact absurd rfl hne
    | cons d w =>
      have hd : c.test d = true := hall d (List.mem_cons_self _ _)
      have h1a : s.rest = d :: (w ++ rest) := h1
      simp only [Re.run, h1a, hd, if_true]
      exact starGreedy_complete c.test k w (some d) rest (s.len + 1) s.cap
        (fun x hx => hall x (List.mem_cons_of_mem _ hx))
        (by simpa [prevAfter, Nat.add_assoc, Nat.add_comm 1] using h3 s.cap)
  | opt q ih =>
    intro k s w rest h1 h2 h3
    simp only [Re.run]
    split
    · rfl
    · next hnone =>
      rcases h2 with rfl | h2
      · have := h3 s.cap
        simp only [prevAfter, List.length_nil, Nat.add_zero] at this
        rw [List.nil_append] at h1
        rw [← h1] at this
        exact this
      · have := ih k s w rest h1 h2 h3
        rw [hnone] at this
        exact absurd this (by simp)
  | seq a b iha ihb =>
    intro k s w rest h1 h2 h3
    obtain ⟨u, v, rfl, ha, hb⟩ := h2
    simp only [Re.run]
    refine iha (b.run k) s u (v ++ rest) (by rw [h1, List.append_assoc]) ha ?_
    intro cap
    refine ihb k ⟨prevAfter s.prev u, v ++ rest, s.len + u.length, cap⟩ v rest rfl hb ?_
    intro cap2
    have := h3 cap2
    rw [prevAfter_append, List.length_append, ← Nat.add_assoc] at this
    exact this
  | alt a b iha ihb =>
    intro k s w rest h1 h2 h3
    simp only [Re.run]
    split
    · rfl
    · next hnone =>
      rcases h2 with h2 | h2
      · have := iha k s w rest h1 h2 h3
        rw [hnone] at this
        exact absurd this (by simp)
      · exact ihb k s w rest h1 h2 h3
  | group q ih =>
    intro k s w rest h1 h2 h3
    simp only [Re.run]
    exact ih _ s w rest h1 h2 (fun cap => h3 _)

/-- A match attempt succeeds exactly when the regular expression matches a prefix of
the text. -/
theorem Re.exec_isSome_iff (re : Re) (prev : Option Char) (text : List Char) :
    (re.exec prev text).isSome = true ↔
      ∃ w rest, text = w ++ rest ∧ re.Matches prev w rest := by
  constructor
  · intro h
    obtain ⟨r, hr⟩ := Option.isSome_iff_exists.1 h
    obtain ⟨w, rest, _, h1, h2, _, _⟩ := re.run_sound some ⟨prev, text, 0, none⟩ r hr
    exact ⟨w, rest, h1, h2⟩
  · rintro ⟨w, rest, h1, h2⟩
    exact re.run_complete some ⟨prev, text, 0, none⟩ w rest h1 h2 (fun _ => rfl)

/-- The state returned by a match attempt: the text splits into the match and the
rest, and the state records the length of the match. -/
theorem Re.exec_sound (re : Re) (prev : Option Char) (text : List Char) (r : MatchState)
    (h : re.exec prev text = some r) :
    ∃ w, text = w ++ r.rest ∧ re.Matches prev w r.rest ∧ r.len = w.length ∧
      r.prev = prevAfter prev w := by
  obtain ⟨w, rest, cap, h1, h2, _, h4⟩ := re.run_sound some ⟨prev, text, 0, none⟩ r h
  simp only [Option.some.injEq] at h4
  subst h4
  exact ⟨w, h1, h2, by simp, rfl⟩

/-! ## Lines -/

theorem lines_ne_nil (x : List Char) : lines x ≠ [] := by
  cases x with
  | nil => simp [lines]
  | cons c cs =>
    simp only [lines]
    split
    · simp
    · split <;> simp

theorem lines_of_noLT (l : List Char) (h : NoLT l) : lines l = [l] := by
  induction l with
  | nil => rfl
  | cons c l ih =>
    have hc : isLineTerminator c = false := h c (List.mem_cons_self _ _)
    have hl : NoLT l := fun x hx => h x (List.mem_cons_of_mem _ hx)
    simp [lines, hc, ih hl]

theorem lines_cons_of_eq {c : Char} {cs l : List Char} {ls : List (List Char)}
    (hc : isLineTerminator c = false) (h : lines cs = l :: ls) :
    lines (c :: cs) = (c :: l) :: ls := by
  simp [lines, hc, h]

theorem lines_cons_lt (t : Char) (r : List Char) (ht : isLineTerminator t = true) :
    lines (t :: r) = [] :: lines r := by
  simp [lines, ht]

theorem lines_append_lt (a : List Char) (t : Char) (b : List Char)
    (ht : isLineTerminator t = true) : lines (a ++ t :: b) = lines a ++ lines b := by
  induction a with
  | nil => simp [lines, ht]
  | cons c a ih =>
    by_cases hc : isLineTerminator c = true
    · simp [lines, hc, ih]
    · have hc2 : isLineTerminator c = false := by simpa using hc
      cases h : lines a with
      | nil => exact absurd h (lines_ne_nil a)
      | cons l ls =>
        rw [h] at ih
        show lines (c :: (a ++ t :: b)) = lines (c :: a) ++ lines b
        rw [lines_cons_of_eq hc2 h, lines_cons_of_eq hc2 ih]
        rfl

theorem lines_line_append (l : List Char) (t : Char) (r : List Char) (hl : NoLT l)
    (ht : isLineTerminator t = true) : lines (l ++ t :: r) = l :: lines r := by
  rw [lines_append_lt l t r ht, lines_of_noLT l hl]
  rfl

/-- Every text is a first line followed by nothing or by a line terminator and the
rest of the text. -/
theorem exists_first_line (x : List Char) :
    ∃ l y, x = l ++ y ∧ NoLT l ∧ AtEol y := by
  induction x with
  | nil => exact ⟨[], [], rfl, by simp [NoLT], Or.inl rfl⟩
  | cons c cs ih =>
    by_cases hc : isLineTerminator c = true
    · exact ⟨[], c :: cs, rfl, by simp [NoLT], Or.inr ⟨c, cs, rfl, hc⟩⟩
    · obtain ⟨l, y, h1, h2, h3⟩ := ih
      refine ⟨c :: l, y, by rw [h1]; rfl, ?_, h3⟩
      intro x hx
      rcases List.mem_cons.1 hx with rfl | hx
      · simpa using hc
      · exact h2 x hx

theorem NoLT_append {a b : List Char} (ha : NoLT a) (hb : NoLT b) : NoLT (a ++ b) := by
  intro c hc
  rcases List.mem_append.1 hc with h | h
  · exact ha c h
  · exact hb c h

theorem NoLT_of_append_left {a b : List Char} (h : NoLT (a ++ b)) : NoLT a :=
  fun c hc => h c (List.mem_append_left _ hc)

theorem NoLT_of_append_right {a b : List Char} (h : NoLT (a ++ b)) : NoLT b :=
  fun c hc => h c (List.mem_append_right _ hc)

/-- A single-line text that is a prefix of `l ++ y`, with `l` a line and `y` at the end
of a line, is a prefix of `l`. -/
theorem prefix_of_line {u l y r : List Char} (hu : NoLT u) (hy : AtEol y)
    (h : l ++ y = u ++ r) : ∃ v, l = u ++ v := by
  induction u generalizing l with
  | nil => exact ⟨l, rfl⟩
  | cons c u ih =>
    cases l with
    | nil =>
      rcases hy with rfl | ⟨t, r, rfl, ht⟩
      · simp at h
      · simp only [List.nil_append, List.cons_append, List.cons.injEq] at h
        have := hu c (List.mem_cons_self _ _)
        rw [← h.1, ht] at this
        exact absurd this (by simp)
    | cons d l =>
      simp only [List.cons_append, List.cons.injEq] at h
      obtain ⟨v, hv⟩ := ih (fun x hx => hu x (List.mem_cons_of_mem _ hx)) h.2
      exact ⟨v, by rw [h.1, hv]; rfl⟩

theorem prevAfter_not_lineStart {p : Option Char} {l : List Char}
    (hp : atLineStart p = false) (hl : NoLT l) : atLineStart (prevAfter p l) = false := by
  induction l generalizing p with
  | nil => exact hp
  | cons c l ih =>
    exact ih (p := some c) (hl c (List.mem_cons_self _ _))
      (fun x hx => hl x (List.mem_cons_of_mem _ hx))

theorem prevAfter_cons_not_lineStart (p : Option Char) (c : Char) (l : List Char)
    (hl : NoLT (c :: l)) : atLineStart (prevAfter p (c :: l)) = false :=
  prevAfter_not_lineStart (p := some c) (hl c (List.mem_cons_self _ _))
    (fun x hx => hl x (List.mem_cons_of_mem _ hx))

theorem prevAfter_ne_nil_not_lineStart (p : Option Char) (l : List Char) (hne : l ≠ [])
    (hl : NoLT l) : atLineStart (prevAfter p l) = false := by
  cases l with
  | nil => exact absurd rfl hne
  | cons c l => exact prevAfter_cons_not_lineStart p c l hl

/-! ## The walk of `replace` -/

theorem LineAnchored.exec_nil {re : Re} (h : LineAnchored re) (p : Option Char) :
    re.exec p [] = none := by
  cases hx : re.exec p [] with
  | none => rfl
  | some r =>
    obtain ⟨w, h1, h2, _, _⟩ := re.exec_sound p [] r hx
    obtain ⟨c, u, rfl, _⟩ := h.2 p w r.rest h2
    simp at h1

theorem LineAnchored.exec_lt {re : Re} (h : LineAnchored re) (p : Option Char) (t : Char)
    (r : List Char) (ht : isLineTerminator t = true) : re.exec p (t :: r) = none := by
  cases hx : re.exec p (t :: r) with
  | none => rfl
  | some st =>
    obtain ⟨w, h1, h2, _, _⟩ := re.exec_sound p (t :: r) st hx
    obtain ⟨c, u, rfl, hc⟩ := h.2 p w st.rest h2
    simp only [List.cons_append, List.cons.injEq] at h1
    rw [← h1.1, ht] at hc
    exact absurd hc (by simp)

theorem replaceFrom_nil {re : Re} (h : LineAnchored re) (rep : List Char) (p : Option Char) :
    replaceFrom re rep 0 p [] = [] := by
  simp [replaceFrom, h.exec_nil p]

theorem replaceFrom_none {re : Re} (rep : List Char) (p : Option Char) (c : Char)
    (cs : List Char) (h : re.exec p (c :: cs) = none) :
    replaceFrom re rep 0 p (c :: cs) = c :: replaceFrom re rep 0 (some c) cs := by
  simp [replaceFrom, h]

theorem replaceFrom_lt {re : Re} (h : LineAnchored re) (rep : List Char) (p : Option Char)
    (t : Char) (r : List Char) (ht : isLineTerminator t = true) :
    replaceFrom re rep 0 p (t :: r) = t :: replaceFrom re rep 0 (some t) r :=
  replaceFrom_none rep p t r (h.exec_lt p t r ht)

theorem replaceFrom_skip (re : Re) (rep : List Char) (w : List Char) :
    ∀ (p : Option Char) (y : List Char),
      replaceFrom re rep w.length p (w ++ y) = replaceFrom re rep 0 (prevAfter p w) y := by
  induction w with
  | nil => intro p y; rfl
  | cons c w ih =>
    intro p y
    show replaceFrom re rep (w.length + 1) p (c :: (w ++ y)) = _
    rw [replaceFrom, ih]
    rfl

theorem replaceFrom_copy {re : Re} (h : LineAnchored re) (rep : List Char) (l : List Char) :
    ∀ (p : Option Char) (y : List Char), atLineStart p = false → NoLT l →
      replaceFrom re rep 0 p (l ++ y) = l ++ replaceFrom re rep 0 (prevAfter p l) y := by
  induction l with
  | nil => intro p y _ _; rfl
  | cons c l ih =>
    intro p y hp hl
    show replaceFrom re rep 0 p (c :: (l ++ y)) = _
    rw [replaceFrom_none rep p c _ (h.1 p _ hp),
      ih (some c) y (hl c (List.mem_cons_self _ _)) (fun x hx => hl x (List.mem_cons_of_mem _ hx))]
    rfl

theorem replaceFrom_line_none {re : Re} (h : LineAnchored re) (rep : List Char)
    (p : Option Char) (l y : List Char) (hl : NoLT l) (hx : re.exec p (l ++ y) = none) :
    replaceFrom re rep 0 p (l ++ y) = l ++ replaceFrom re rep 0 (prevAfter p l) y := by
  cases l with
  | nil => rfl
  | cons c l =>
    show replaceFrom re rep 0 p (c :: (l ++ y)) = _
    have hx2 : re.exec p (c :: (l ++ y)) = none := hx
    rw [replaceFrom_none rep p c _ hx2,
      replaceFrom_copy h rep l (some c) y (hl c (List.mem_cons_self _ _))
        (fun x hx => hl x (List.mem_cons_of_mem _ hx))]
    rfl

theorem replaceFrom_match {re : Re} (rep : List Char) (p : Option Char) (x : List Char)
    (st : MatchState) (hx : re.exec p x = some st) (w : List Char) (hw : x = w ++ st.rest)
    (hlen : st.len = w.length) (hne : w ≠ []) :
    replaceFrom re rep 0 p x = rep ++ replaceFrom re rep 0 (prevAfter p w) st.rest := by
  cases w with
  | nil => exact absurd rfl hne
  | cons c w =>
    subst hw
    show replaceFrom re rep 0 p (c :: (w ++ st.rest)) = _
    have hx2 : re.exec p (c :: (w ++ st.rest)) = some st := hx
    simp only [replaceFrom, hx2, hlen, List.length_cons]
    rw [replaceFrom_skip]
    rfl

theorem line_induction {P : List Char → Prop} (h1 : ∀ l, NoLT l → P l)
    (h2 : ∀ l t r, NoLT l → isLineTerminator t = true → P r → P (l ++ t :: r)) :
    ∀ x, P x := by
  suffices hs : ∀ n x, x.length = n → P x from fun x => hs x.length x rfl
  intro n
  induction n using Nat.strong_induction_on with
  | _ n ih =>
    intro x hn
    obtain ⟨l, y, rfl, hl, hy⟩ := exists_first_line x
    rcases hy with rfl | ⟨t, r, rfl, ht⟩
    · rw [List.append_nil]; exact h1 l hl
    · refine h2 l t r hl ht (ih r.length ?_ r rfl)
      rw [← hn]
      simp only [List.length_append, List.length_cons]
      omega

/-! ## `mapLines` -/

theorem mapLinesAux_append (f : List Char → List Char) (l : List Char) :
    ∀ (acc y : List Char), NoLT l →
      mapLinesAux f acc (l ++ y) = mapLinesAux f (l.reverse ++ acc) y := by
  induction l with
  | nil => intro acc y _; rfl
  | cons c l ih =>
    intro acc y hl
    show mapLinesAux f acc (c :: (l ++ y)) = _
    rw [mapLinesAux, if_neg (by simp [hl c (List.mem_cons_self _ _)]),
      ih (c :: acc) y (fun x hx => hl x (List.mem_cons_of_mem _ hx))]
    simp

theorem mapLines_line (f : List Char → List Char) (l : List Char) (hl : NoLT l) :
    mapLines f l = f l := by
  have := mapLinesAux_append f l [] [] hl
  rw [List.append_nil] at this
  rw [mapLines, this]
  simp [mapLinesAux]

theorem mapLines_append (f : List Char → List Char) (l : List Char) (t : Char)
    (r : List Char) (hl : NoLT l) (ht : isLineTerminator t = true) :
    mapLines f (l ++ t :: r) = f l ++ t :: mapLines f r := by
  rw [mapLines, mapLinesAux_append f l [] (t :: r) hl, mapLinesAux, if_pos ht]
  simp [mapLines]

theorem mapLines_comp (f g : List Char → List Char) (hf : ∀ l, NoLT l → NoLT (f l))
    (x : List Char) : mapLines g (mapLines f x) = mapLines (fun l => g (f l)) x := by
  induction x using line_induction with
  | h1 l hl => rw [mapLines_line f l hl, mapLines_line g _ (hf l hl), mapLines_line _ l hl]
  | h2 l t r hl ht ih =>
    rw [mapLines_append f l t r hl ht, mapLines_append g _ t _ (hf l hl) ht, ih,
      mapLines_append _ l t r hl ht]

theorem mapLines_congr (f g : List Char → List Char) (h : ∀ l, NoLT l → f l = g l)
    (x : List Char) : mapLines f x = mapLines g x := by
  induction x using line_induction with
  | h1 l hl => rw [mapLines_line f l hl, mapLines_line g l hl, h l hl]
  | h2 l t r hl ht ih =>
    rw [mapLines_append f l t r hl ht, mapLines_append g l t r hl ht, ih, h l hl]

theorem lines_mapLines (f : List Char → List Char) (hf : ∀ l, NoLT l → NoLT (f l))
    (x : List Char) : lines (mapLines f x) = (lines x).map f := by
  induction x using line_induction with
  | h1 l hl => rw [mapLines_line f l hl, lines_of_noLT l hl, lines_of_noLT _ (hf l hl)]; rfl
  | h2 l t r hl ht ih =>
    rw [mapLines_append f l t r hl ht, lines_line_append _ t _ (hf l hl) ht, ih,
      lines_line_append l t r hl ht]
    rfl

/-! ## The replaces of lines 21-22 -/

theorem cons_not_prefix_cons {c d : Char} {u v : List Char} (h : c ≠ d) :
    ¬ (c :: u) <+: (d :: v) := by
  intro hp
  obtain ⟨t, ht⟩ := hp
  simp only [List.cons_append, List.cons.injEq] at ht
  exact h ht.1

theorem lineAnchored_bol_lit (L : List Char) (hne : L ≠ []) (hL : NoLT L) :
    LineAnchored (.seq .bol (.lit L)) := by
  constructor
  · intro prev x hp
    simp [Re.exec, Re.run, hp]
  · intro prev w rest h
    obtain ⟨u, v, rfl, ⟨rfl, _⟩, hv⟩ := h
    have hv2 : v = L := hv
    cases L with
    | nil => exact absurd rfl hne
    | cons c L => exact ⟨c, L, by rw [hv2]; rfl, hL c (List.mem_cons_self _ _)⟩

theorem exec_bol_lit_append (L : List Char) (p : Option Char) (y : List Char)
    (hp : atLineStart p = true) :
    (Re.seq .bol (.lit L)).exec p (L ++ y) = some ⟨prevAfter p L, y, L.length, none⟩ := by
  simp [Re.exec, Re.run, hp, matchLit_append]

theorem exec_bol_lit_none (L : List Char) (p : Option Char) (x : List Char)
    (h : ¬ L <+: x) : (Re.seq .bol (.lit L)).exec p x = none := by
  cases hx : (Re.seq .bol (.lit L)).exec p x with
  | none => rfl
  | some st =>
    obtain ⟨w, h1, ⟨u, v, rfl, ⟨rfl, _⟩, hv⟩, _, _⟩ := Re.exec_sound _ p x st hx
    have hv2 : v = L := hv
    exact absurd ⟨st.rest, by rw [h1, hv2]; rfl⟩ h

theorem replaceLineStart_neg {L R l : List Char} (h : ¬ L <+: l) :
    replaceLineStart L R l = l := by
  rw [replaceLineStart, if_neg h]

theorem replaceLineStart_append (L R v : List Char) :
    replaceLineStart L R (L ++ v) = R ++ v := by
  rw [replaceLineStart, if_pos (List.prefix_append L v), List.drop_left]

theorem NoLT_replaceLineStart {L R l : List Char} (hR : NoLT R) (hl : NoLT l) :
    NoLT (replaceLineStart L R l) := by
  unfold replaceLineStart
  split
  · exact NoLT_append hR (fun c hc => hl c (List.mem_of_mem_drop hc))
  · exact hl

/-- One line of the walk of `replace(/^L/gm, R)`, for a literal `L` on one line. -/
theorem replaceFrom_bol_lit_line (L R : List Char) (hne : L ≠ []) (hL : NoLT L)
    (p : Option Char) (hp : atLineStart p = true) (l y : List Char) (hl : NoLT l)
    (hy : AtEol y) :
    replaceFrom (.seq .bol (.lit L)) R 0 p (l ++ y)
      = replaceLineStart L R l ++ replaceFrom (.seq .bol (.lit L)) R 0 (prevAfter p l) y := by
  have hanch := lineAnchored_bol_lit L hne hL
  unfold replaceLineStart
  split
  · next hpre =>
    obtain ⟨v, rfl⟩ := hpre
    have hv : NoLT v := NoLT_of_append_right hl
    rw [List.append_assoc,
      replaceFrom_match R p _ _ (exec_bol_lit_append L p (v ++ y) hp) L rfl rfl hne,
      replaceFrom_copy hanch R v _ y (prevAfter_ne_nil_not_lineStart p L hne hL) hv,
      ← prevAfter_append, List.drop_left, List.append_assoc]
  · next hpre =>
    refine replaceFrom_line_none hanch R p l y hl (exec_bol_lit_none _ p _ ?_)
    rintro ⟨rest, hrest⟩
    obtain ⟨v, hv⟩ := prefix_of_line hL hy hrest.symm
    exact hpre ⟨v, hv.symm⟩

/-- The call `replace(/^L/gm, R)`, for a literal `L` on one line, rewrites every line
on its own. -/
theorem replaceFrom_bol_lit (L R : List Char) (hne : L ≠ []) (hL : NoLT L) :
    ∀ (x : List Char) (p : Option Char), atLineStart p = true →
      replaceFrom (.seq .bol (.lit L)) R 0 p x = mapLines (replaceLineStart L R) x := by
  have hanch := lineAnchored_bol_lit L hne hL
  intro x
  induction x using line_induction with
  | h1 l hl =>
    intro p hp
    have := replaceFrom_bol_lit_line L R hne hL p hp l [] hl (Or.inl rfl)
    rw [List.append_nil] at this
    rw [this, replaceFrom_nil hanch, List.append_nil, mapLines_line _ l hl]
  | h2 l t r hl ht ih =>
    intro p hp
    rw [replaceFrom_bol_lit_line L R hne hL p hp l (t :: r) hl (Or.inr ⟨t, r, rfl, ht⟩),
      replaceFrom_lt hanch R _ t r ht, ih (some t) ht, mapLines_append _ l t r hl ht]

theorem noLT_function : NoLT "function ".toList := by
  intro c hc
  revert c
  decide

theorem noLT_const : NoLT "const ".toList := by
  intro c hc
  revert c
  decide

theorem noLT_export_function : NoLT "export function ".toList := by
  intro c hc
  revert c
  decide

theorem noLT_export_const : NoLT "export const ".toList := by
  intro c hc
  revert c
  decide

/-- Lines 21-22 rewrite every line on its own, by `demoteLine`. -/
theorem demoteExports_eq_mapLines (x : List Char) :
    demoteExports x = mapLines demoteLine x := by
  unfold demoteExports replaceAll exportConstRegex exportFunctionRegex
  rw [replaceFrom_bol_lit _ _ (by decide) noLT_export_function x none rfl,
    replaceFrom_bol_lit _ _ (by decide) noLT_export_const _ none rfl,
    mapLines_comp _ _ (fun l hl => NoLT_replaceLineStart noLT_function hl)]
  rfl

theorem NoLT_demoteLine {l : List Char} (hl : NoLT l) : NoLT (demoteLine l) :=
  NoLT_replaceLineStart noLT_const (NoLT_replaceLineStart noLT_function hl)

/-- A demoted line starts with neither `export function ` nor `export const `. -/
theorem demoteLine_no_export (l : List Char) :
    ¬ "export function ".toList <+: demoteLine l ∧
      ¬ "export const ".toList <+: demoteLine l := by
  unfold demoteLine replaceLineStart
  by_cases h1 : "export function ".toList <+: l
  · obtain ⟨v, rfl⟩ := h1
    simp
  · by_cases h2 : "export const ".toList <+: l
    · obtain ⟨v, rfl⟩ := h2
      simp
    · rw [if_neg h1, if_neg h2]
      exact ⟨h1, h2⟩

theorem demoteLine_of_no_export (l : List Char) (h1 : ¬ "export function ".toList <+: l)
    (h2 : ¬ "export const ".toList <+: l) : demoteLine l = l := by
  rw [demoteLine, replaceLineStart_neg h1, replaceLineStart_neg h2]

theorem demoteLine_idem (l : List Char) : demoteLine (demoteLine l) = demoteLine l :=
  demoteLine_of_no_export _ (demoteLine_no_export l).1 (demoteLine_no_export l).2

/-! ## The import-statement pattern of line 19 -/

/-- The shape of a match of the import-statement pattern. -/
theorem importRegex_matches {p : Option Char} {w rest : List Char}
    (h : importRegex.Matches p w rest) :
    ∃ a b d, w = "import ".toList ++ a ++ " from ".toList ++ b ++ d ∧ NoLT a ∧ NoLT b ∧
      (∀ x ∈ d, isSpace x = true) ∧ atLineEnd rest = true ∧ atLineStart p = true := by
  obtain ⟨u1, v1, rfl, ⟨rfl, hbol⟩, u2, v2, rfl, hu2, u3, v3, rfl, hu3, u4, v4, rfl, hu4,
    u5, v5, rfl, hu5, u6, v6, rfl, hu6, u7, v7, rfl, hu7, rfl, heol⟩ := h
  have e2 : u2 = "import ".toList := hu2
  have e4 : u4 = " from ".toList := hu4
  have h3 : ∀ x ∈ u3, (!isLineTerminator x) = true := hu3
  have h5 : ∀ x ∈ u5, (!isLineTerminator x) = true := hu5
  have h7 : ∀ x ∈ u7, isSpace x = true := hu7
  have n6 : NoLT u6 := by
    rcases hu6 with rfl | hu6
    · simp [NoLT]
    · have e6 : u6 = ";".toList := hu6
      rw [e6]
      intro c hc
      revert c
      decide
  refine ⟨u3, u5 ++ u6, u7, by simp [e2, e4], fun x hx => by simpa using h3 x hx,
    NoLT_append (fun x hx => by simpa using h5 x hx) n6, h7, ?_, hbol⟩
  simpa using heol

theorem lineAnchored_importRegex : LineAnchored importRegex := by
  constructor
  · intro prev x hp
    simp [importRegex, Re.exec, Re.run, hp]
  · intro prev w rest h
    obtain ⟨a, b, d, rfl, _, _, _, _, _⟩ := importRegex_matches h
    exact ⟨'i', _, rfl, by decide⟩

theorem atLineEnd_of_AtEol {y : List Char} (h : AtEol y) : atLineEnd y = true := by
  rcases h with rfl | ⟨t, r, rfl, ht⟩
  · rfl
  · exact ht

theorem AtEol_of_atLineEnd {y : List Char} (h : atLineEnd y = true) : AtEol y := by
  cases y with
  | nil => exact Or.inl rfl
  | cons t r => exact Or.inr ⟨t, r, rfl, h⟩

theorem importRegex_matches_line (p : Option Char) (a b y : List Char)
    (hp : atLineStart p = true) (ha : NoLT a) (hb : NoLT b) (hy : atLineEnd y = true) :
    importRegex.Matches p ("import ".toList ++ a ++ " from ".toList ++ b) y := by
  refine ⟨[], "import ".toList ++ a ++ " from ".toList ++ b, rfl, ⟨rfl, hp⟩,
    "import ".toList, a ++ " from ".toList ++ b, by simp, rfl,
    a, " from ".toList ++ b, by simp, ?_,
    " from ".toList, b, rfl, rfl, b, [], by simp, ?_, [], [], rfl, Or.inl rfl,
    [], [], rfl, ?_, rfl, hy⟩
  · intro x hx
    show (!isLineTerminator x) = true
    simp [ha x hx]
  · intro x hx
    show (!isLineTerminator x) = true
    simp [hb x hx]
  · intro x hx
    simp at hx

/-- A line matches the import-statement pattern exactly when it reads `import `, any
text, ` from `, any text. -/
theorem isImportLine_iff (l : List Char) (hl : NoLT l) :
    isImportLine l = true ↔ ∃ a b, l = "import ".toList ++ a ++ " from ".toList ++ b := by
  unfold isImportLine
  rw [Re.exec_isSome_iff]
  constructor
  · rintro ⟨w, rest, rfl, h⟩
    obtain ⟨a, b, d, rfl, _, _, _, _, _⟩ := importRegex_matches h
    exact ⟨a, b ++ d ++ rest, by simp⟩
  · rintro ⟨a, b, rfl⟩
    refine ⟨_, [], (List.append_nil _).symm, importRegex_matches_line none a b [] rfl ?_ ?_ rfl⟩
    · exact NoLT_of_append_right (NoLT_of_append_left (NoLT_of_append_left hl))
    · exact NoLT_of_append_right hl

/-- At the start of a line, a match attempt of the import-statement pattern succeeds
exactly when the line matches the pattern. -/
theorem importRegex_exec_isSome (p : Option Char) (hp : atLineStart p = true)
    (l y : List Char) (hl : NoLT l) (hy : AtEol y) :
    (importRegex.exec p (l ++ y)).isSome = isImportLine l := by
  rw [Bool.eq_iff_iff, isImportLine_iff l hl, Re.exec_isSome_iff]
  constructor
  · rintro ⟨w, rest, hw, h⟩
    obtain ⟨a, b, d, rfl, ha, hb, _, _, _⟩ := importRegex_matches h
    have hu : NoLT ("import ".toList ++ a ++ " from ".toList) :=
      NoLT_append (NoLT_append (by intro c hc; revert c; decide) ha)
        (by intro c hc; revert c; decide)
    obtain ⟨v, hv⟩ := prefix_of_line (r := b ++ d ++ rest) hu hy (by rw [hw]; simp)
    exact ⟨a, v, hv⟩
  · rintro ⟨a, b, rfl⟩
    refine ⟨_, y, rfl, importRegex_matches_line p a b y hp ?_ ?_ (atLineEnd_of_AtEol hy)⟩
    · exact NoLT_of_append_right (NoLT_of_append_left (NoLT_of_append_left hl))
    · exact NoLT_of_append_right hl

/-- The extent of a match of the import-statement pattern at the start of line `l`:
the whole line and then a run of white space that stops at the end of a line. -/
theorem importRegex_exec_extent (p : Option Char) (l y : List Char) (hl : NoLT l)
    (hy : AtEol y) (st : MatchState) (h : importRegex.exec p (l ++ y) = some st) :
    ∃ w1, y = w1 ++ st.rest ∧ st.len = (l ++ w1).length ∧ st.prev = prevAfter p (l ++ w1) ∧
      (∀ x ∈ w1, isSpace x = true) ∧ AtEol st.rest := by
  obtain ⟨w, hw, hm, hlen, hprev⟩ := Re.exec_sound _ p _ st h
  obtain ⟨a, b, d, rfl, ha, hb, hd, hend, _⟩ := importRegex_matches hm
  have hu : NoLT ("import ".toList ++ a ++ " from ".toList ++ b) :=
    NoLT_append (NoLT_append (NoLT_append (by intro c hc; revert c; decide) ha)
      (by intro c hc; revert c; decide)) hb
  obtain ⟨v, hv⟩ := prefix_of_line (r := d ++ st.rest) hu hy (by rw [hw]; simp)
  have hvy : v ++ y = d ++ st.rest := by
    have := hw
    rw [hv] at this
    simpa using this
  rcases List.append_eq_append_iff.1 hvy with ⟨w1, hd1, hy1⟩ | ⟨c1, hv1, hr1⟩
  · refine ⟨w1, hy1, ?_, ?_, fun x hx => hd x (by rw [hd1]; exact List.mem_append_right _ hx),
      AtEol_of_atLineEnd hend⟩
    · rw [hlen, hv, hd1]; simp
    · rw [hprev, hv, hd1]; simp
  · cases c1 with
    | nil =>
      refine ⟨[], by simpa using hr1.symm, ?_, ?_, by simp, AtEol_of_atLineEnd hend⟩
      · rw [hlen, hv, hv1]; simp
      · rw [hprev, hv, hv1]; simp
    | cons c c1 =>
      have hc : isLineTerminator c = true := by
        rw [hr1] at hend
        exact hend
      have hc2 : isLineTerminator c = false :=
        hl c (by rw [hv, hv1]; simp)
      rw [hc] at hc2
      exact absurd hc2 (by simp)

/-! ## The replace of line 19 -/

theorem survivingLines_true_blank (B ls : List (List Char))
    (hB : ∀ b ∈ B, b.all isSpace = true) :
    survivingLines true (B ++ ls) = survivingLines true ls := by
  induction B with
  | nil => rfl
  | cons b B ih =>
    have hb : b.all isSpace = true := hB b (List.mem_cons_self _ _)
    have ih2 := ih (fun x hx => hB x (List.mem_cons_of_mem _ hx))
    show survivingLines true (b :: (B ++ ls)) = _
    rw [survivingLines]
    split
    · exact ih2
    · simp only [hb, Bool.and_self, if_true]
      exact ih2

theorem survivingLines_true_sublist (ls : List (List Char)) :
    (survivingLines true ls).Sublist (survivingLines false ls) := by
  induction ls with
  | nil => exact List.Sublist.refl _
  | cons l ls ih =>
    rw [survivingLines, survivingLines]
    split
    · exact List.Sublist.refl _
    · split
      · simp only [Bool.false_and, Bool.false_eq_true, if_false]
        exact List.Sublist.cons _ ih
      · simp only [Bool.false_and, Bool.false_eq_true, if_false]
        exact List.Sublist.refl _

theorem lines_all_space (w : List Char) (hw : ∀ c ∈ w, isSpace c = true) :
    ∀ l ∈ lines w, l.all isSpace = true := by
  induction w using line_induction with
  | h1 l hl =>
    intro b hb
    rw [lines_of_noLT l hl, List.mem_singleton] at hb
    rw [hb]
    exact List.all_eq_true.2 hw
  | h2 l t r hl ht ih =>
    intro b hb
    rw [lines_line_append l t r hl ht] at hb
    rcases List.mem_cons.1 hb with rfl | hb
    · exact List.all_eq_true.2 (fun c hc => hw c (List.mem_append_left _ hc))
    · exact ih (fun c hc => hw c (List.mem_append_right _ (List.mem_cons_of_mem _ hc))) b hb

/-- The lines covered by a match of the import-statement pattern: the import line and
then whitespace-only lines. -/
theorem lines_import_block (l w1 s : List Char) (hl : NoLT l) (hy : AtEol (w1 ++ s))
    (hw : ∀ x ∈ w1, isSpace x = true) :
    ∃ B, lines (l ++ w1) = l :: B ∧ ∀ b ∈ B, b.all isSpace = true := by
  cases w1 with
  | nil => exact ⟨[], by rw [List.append_nil, lines_of_noLT l hl], by simp⟩
  | cons c w1 =>
    have hc : isLineTerminator c = true := by
      rcases hy with h | ⟨t, r, h, ht⟩
      · simp at h
      · simp only [List.cons_append, List.cons.injEq] at h
        rw [h.1]; exact ht
    exact ⟨lines w1, lines_line_append l c w1 hl hc,
      lines_all_space w1 (fun x hx => hw x (List.mem_cons_of_mem _ hx))⟩

theorem isImportLine_nil : isImportLine [] = false := by decide

/-- The walk of line 19 from the start of a line: no line of the result matches the
import-statement pattern, the surviving lines of the text are lines of the result in
the same order, and every line of the result is empty or a line of the text. -/
theorem stripImports_walk :
    ∀ (n : Nat) (x : List Char), x.length = n → ∀ p, atLineStart p = true →
      (∀ l ∈ lines (replaceFrom importRegex [] 0 p x), isImportLine l = false) ∧
      (survivingLines false (lines x)).Sublist (lines (replaceFrom importRegex [] 0 p x)) ∧
      (∀ l ∈ lines (replaceFrom importRegex [] 0 p x), l = [] ∨ l ∈ lines x) := by
  intro n
  induction n using Nat.strong_induction_on with
  | _ n ih =>
    intro x hn p hp
    obtain ⟨l, y, rfl, hl, hy⟩ := exists_first_line x
    have hsome := importRegex_exec_isSome p hp l y hl hy
    cases himp : isImportLine l with
    | false =>
      rw [himp] at hsome
      have hnone : importRegex.exec p (l ++ y) = none := by
        cases hx : importRegex.exec p (l ++ y) with
        | none => rfl
        | some st => rw [hx] at hsome; exact absurd hsome (by simp)
      rw [replaceFrom_line_none lineAnchored_importRegex [] p l y hl hnone]
      rcases hy with rfl | ⟨t, r, rfl, ht⟩
      · rw [replaceFrom_nil lineAnchored_importRegex, List.append_nil, lines_of_noLT l hl]
        refine ⟨?_, ?_, ?_⟩
        · intro b hb
          rw [List.mem_singleton] at hb
          rw [hb]; exact himp
        · simp [survivingLines, himp]
        · intro b hb
          exact Or.inr hb
      · have hlen : r.length < n := by
          rw [← hn]
          simp only [List.length_append, List.length_cons]
          omega
        obtain ⟨i1, i2, i3⟩ := ih r.length hlen r rfl (some t) ht
        rw [replaceFrom_lt lineAnchored_importRegex [] _ t r ht,
          lines_line_append l t _ hl ht, lines_line_append l t r hl ht]
        refine ⟨?_, ?_, ?_⟩
        · intro b hb
          rcases List.mem_cons.1 hb with rfl | hb
          · exact himp
          · exact i1 b hb
        · rw [survivingLines, if_neg (by simp [himp])]
          simp only [Bool.false_and, Bool.false_eq_true, if_false]
          exact List.Sublist.cons₂ _ i2
        · intro b hb
          rcases List.mem_cons.1 hb with rfl | hb
          · exact Or.inr (List.mem_cons_self _ _)
          · rcases i3 b hb with h | h
            · exact Or.inl h
            · exact Or.inr (List.mem_cons_of_mem _ h)
    | true =>
      rw [himp] at hsome
      obtain ⟨st, hst⟩ := Option.isSome_iff_exists.1 hsome
      obtain ⟨w1, hy1, hlen1, _, hw1, hrest⟩ := importRegex_exec_extent p l y hl hy st hst
      have hlne : l ++ w1 ≠ [] := by
        intro h
        have hl0 : l = [] := (List.append_eq_nil.1 h).1
        rw [hl0, isImportLine_nil] at himp
        exact absurd himp (by simp)
      have hx : l ++ y = (l ++ w1) ++ st.rest := by rw [hy1, List.append_assoc]
      obtain ⟨B, hB1, hB2⟩ := lines_import_block l w1 st.rest hl (hy1 ▸ hy) hw1
      rw [replaceFrom_match [] p _ st hst (l ++ w1) hx hlen1 hlne, List.nil_append, hx]
      rcases hrest with h0 | ⟨t, r, h0, ht⟩
      · rw [h0, replaceFrom_nil lineAnchored_importRegex, List.append_nil, hB1]
        refine ⟨?_, ?_, ?_⟩
        · intro b hb
          have hb2 : b = [] := by simpa [lines] using hb
          rw [hb2]; exact isImportLine_nil
        · rw [survivingLines, if_pos himp]
          have := survivingLines_true_blank B [] hB2
          rw [List.append_nil] at this
          rw [this]
          exact List.nil_sublist _
        · intro b hb
          have hb2 : b = [] := by simpa [lines] using hb
          exact Or.inl hb2
      · have hlen : r.length < n := by
          rw [← hn, hx, h0]
          simp only [List.length_append, List.length_cons]
          omega
        obtain ⟨i1, i2, i3⟩ := ih r.length hlen r rfl (some t) ht
        rw [h0, replaceFrom_lt lineAnchored_importRegex [] _ t r ht, lines_cons_lt t _ ht,
          lines_append_lt (l ++ w1) t r ht, hB1]
        refine ⟨?_, ?_, ?_⟩
        · intro b hb
          rcases List.mem_cons.1 hb with rfl | hb
          · exact isImportLine_nil
          · exact i1 b hb
        · show (survivingLines false (l :: (B ++ lines r))).Sublist _
          rw [survivingLines, if_pos himp, survivingLines_true_blank B _ hB2]
          exact List.Sublist.cons _ ((survivingLines_true_sublist _).trans i2)
        · intro b hb
          rcases List.mem_cons.1 hb with rfl | hb
          · exact Or.inl rfl
          · rcases i3 b hb with h | h
            · exact Or.inl h
            · exact Or.inr (List.mem_append_right _ h)

/-! ## The declaration patterns of lines 27 and 36 -/

/-- Soundness of a capture group: the capture handed to the continuation is the text
the group has matched. -/
theorem Re.run_group_sound (q : Re) (k : Cont) (s r : MatchState)
    (h : (Re.group q).run k s = some r) :
    ∃ w rest, s.rest = w ++ rest ∧ q.Matches s.prev w rest ∧
      k ⟨prevAfter s.prev w, rest, s.len + w.length, some w⟩ = some r := by
  simp only [Re.run] at h
  obtain ⟨w, rest, cap, h1, h2, _, h4⟩ := q.run_sound _ s r h
  refine ⟨w, rest, h1, h2, ?_⟩
  simp only [h1, Nat.add_sub_cancel_left, List.take_left] at h4
  exact h4

/-- A name: a non-empty run of word characters. -/
theorem plus_word_matches {p : Option Char} {u rest : List Char}
    (h : (Re.plus .word).Matches p u rest) : u ≠ [] ∧ ∀ c ∈ u, isWord c = true := h

/-- The tail `\s*\(` of both declaration patterns. -/
theorem declTail_matches {p : Option Char} {v rest : List Char}
    (h : (Re.seq (.star .space) (.lit "(".toList)).Matches p v rest) :
    ∃ sp, v = sp ++ "(".toList ∧ ∀ c ∈ sp, isSpace c = true := by
  obtain ⟨sp, par, rfl, hsp, hpar⟩ := h
  have e : par = "(".toList := hpar
  exact ⟨sp, by rw [e], hsp⟩

/-- The shape of a successful match attempt of the pattern of line 27. -/
theorem functionRegex_exec {p : Option Char} {x : List Char} {r : MatchState}
    (h : functionRegex.exec p x = some r) :
    ∃ u sp, x = "function ".toList ++ u ++ sp ++ "(".toList ++ r.rest ∧ u ≠ [] ∧
      (∀ c ∈ u, isWord c = true) ∧ (∀ c ∈ sp, isSpace c = true) ∧ r.cap = some u ∧
      r.len = ("function ".toList ++ u ++ sp ++ "(".toList).length ∧
      atLineStart p = true := by
  unfold functionRegex Re.exec at h
  rw [Re.run] at h
  obtain ⟨w0, rest0, cap0, h01, ⟨rfl, hbol⟩, h03, h04⟩ := Re.run_sound .bol _ _ r h
  rw [h03 rfl, Re.run] at h04
  obtain ⟨w1, rest1, cap1, h11, h12, h13, h14⟩ := Re.run_sound (.lit _) _ _ r h04
  have e1 : w1 = "function ".toList := h12
  rw [h13 rfl, Re.run] at h14
  obtain ⟨u, rest2, h21, h22, h24⟩ := Re.run_group_sound _ _ _ r h14
  obtain ⟨v, rest3, cap3, h31, h32, h33, h34⟩ := Re.run_sound _ _ _ r h24
  obtain ⟨sp, rfl, hsp⟩ := declTail_matches h32
  have hr : r = _ := (Option.some.inj h34).symm
  simp only at h01 h11 h21 h31 hr
  refine ⟨u, sp, ?_, h22.1, h22.2, hsp, ?_, ?_, hbol⟩
  · rw [hr]
    simp only
    rw [List.nil_append] at h01
    rw [h01, h11, h21, h31, e1]
    simp
  · rw [hr]
    exact h33 rfl
  · rw [hr, e1]
    simp
    omega

/-- The names the pattern of line 36 accepts. -/
theorem bindingName_matches {p : Option Char} {u rest : List Char}
    (h : (Re.alt
        (.seq (.lit "__wb".toList) (.seq (.opt (.lit "g".toList))
          (.seq (.lit "_".toList) (.plus .word))))
        (.seq (.lit "__wbindgen_".toList) (.plus .word))).Matches p u rest) :
    (∃ g w, u = "__wb".toList ++ g ++ "_".toList ++ w ∧ (g = [] ∨ g = "g".toList) ∧
        w ≠ [] ∧ ∀ c ∈ w, isWord c = true) ∨
    (∃ w, u = "__wbindgen_".toList ++ w ∧ w ≠ [] ∧ ∀ c ∈ w, isWord c = true) := by
  rcases h with h | h
  · obtain ⟨u1, v1, rfl, hu1, u2, v2, rfl, hu2, u3, v3, rfl, hu3, hw⟩ := h
    have e1 : u1 = "__wb".toList := hu1
    have e3 : u3 = "_".toList := hu3
    have e2 : u2 = [] ∨ u2 = "g".toList := hu2
    exact Or.inl ⟨u2, v3, by rw [e1, e3]; simp, e2, hw.1, hw.2⟩
  · obtain ⟨u1, v1, rfl, hu1, hw⟩ := h
    have e1 : u1 = "__wbindgen_".toList := hu1
    exact Or.inr ⟨v1, by rw [e1], hw.1, hw.2⟩

/-- The shape of a successful match attempt of the pattern of line 36. -/
theorem bindingRegex_exec {p : Option Char} {x : List Char} {r : MatchState}
    (h : bindingRegex.exec p x = some r) :
    ∃ e u sp, x = e ++ "function ".toList ++ u ++ sp ++ "(".toList ++ r.rest ∧
      (e = [] ∨ e = "export ".toList) ∧
      ((∃ g w, u = "__wb".toList ++ g ++ "_".toList ++ w ∧ (g = [] ∨ g = "g".toList) ∧
          w ≠ [] ∧ ∀ c ∈ w, isWord c = true) ∨
        (∃ w, u = "__wbindgen_".toList ++ w ∧ w ≠ [] ∧ ∀ c ∈ w, isWord c = true)) ∧
      (∀ c ∈ sp, isSpace c = true) ∧ r.cap = some u ∧
      r.len = (e ++ "function ".toList ++ u ++ sp ++ "(".toList).length ∧
      atLineStart p = true := by
  unfold bindingRegex Re.exec at h
  rw [Re.run] at h
  obtain ⟨w0, rest0, cap0, h01, ⟨rfl, hbol⟩, h03, h04⟩ := Re.run_sound .bol _ _ r h
  rw [h03 rfl, Re.run] at h04
  obtain ⟨e, reste, cape, he1, he2, he3, he4⟩ := Re.run_sound (.opt (.lit _)) _ _ r h04
  have ee : e = [] ∨ e = "export ".toList := he2
  rw [he3 rfl, Re.run] at he4
  obtain ⟨w1, rest1, cap1, h11, h12, h13, h14⟩ := Re.run_sound (.lit _) _ _ r he4
  have e1 : w1 = "function ".toList := h12
  rw [h13 rfl, Re.run] at h14
  obtain ⟨u, rest2, h21, h22, h24⟩ := Re.run_group_sound _ _ _ r h14
  obtain ⟨v, rest3, cap3, h31, h32, h33, h34⟩ := Re.run_sound _ _ _ r h24
  obtain ⟨sp, rfl, hsp⟩ := declTail_matches h32
  have hr : r = _ := (Option.some.inj h34).symm
  simp only at h01 he1 h11 h21 h31 hr
  refine ⟨e, u, sp, ?_, ee, bindingName_matches h22, hsp, ?_, ?_, hbol⟩
  · rw [hr]
    simp only
    rw [List.nil_append] at h01
    rw [h01, he1, h11, h21, h31, e1]
    simp
  · rw [hr]
    exact h33 rfl
  · rw [hr, e1]
    simp
    omega

/-- A match of the pattern of line 27 is never empty, so the loop of lines 28-34 always
moves on. -/
theorem functionRegex_exec_len_pos {p : Option Char} {x : List Char} {r : MatchState}
    (h : functionRegex.exec p x = some r) : 0 < r.len := by
  obtain ⟨u, sp, _, _, _, _, _, hlen, _⟩ := functionRegex_exec h
  rw [hlen]
  simp

/-- A match of the pattern of line 36 is never empty, so the loop of lines 38-44 always
moves on. -/
theorem bindingRegex_exec_len_pos {p : Option Char} {x : List Char} {r : MatchState}
    (h : bindingRegex.exec p x = some r) : 0 < r.len := by
  obtain ⟨e, u, sp, _, _, _, _, _, hlen, _⟩ := bindingRegex_exec h
  rw [hlen]
  simp

theorem lineAnchored_functionRegex : LineAnchored functionRegex := by
  constructor
  · intro prev x hp
    simp [functionRegex, Re.exec, Re.run, hp]
  · intro prev w rest h
    obtain ⟨u1, v1, rfl, ⟨rfl, _⟩, u2, v2, rfl, hu2, _⟩ := h
    have e2 : u2 = "function ".toList := hu2
    exact ⟨'f', "unction ".toList ++ v2, by rw [e2]; rfl, by decide⟩

theorem lineAnchored_bindingRegex : LineAnchored bindingRegex := by
  constructor
  · intro prev x hp
    simp [bindingRegex, Re.exec, Re.run, hp]
  · intro prev w rest h
    obtain ⟨u1, v1, rfl, ⟨rfl, _⟩, u2, v2, rfl, hu2, u3, v3, rfl, hu3, _⟩ := h
    have e3 : u3 = "function ".toList := hu3
    rcases hu2 with rfl | hu2
    · exact ⟨'f', "unction ".toList ++ v3, by rw [e3]; rfl, by decide⟩
    · have e2 : u2 = "export ".toList := hu2
      exact ⟨'e', "xport ".toList ++ (u3 ++ v3), by rw [e2]; rfl, by decide⟩

/-! ## The walk of the `exec` loop -/

theorem scanFrom_none {re : Re} (p : Option Char) (c : Char) (cs : List Char)
    (h : re.exec p (c :: cs) = none) :
    scanFrom re 0 p (c :: cs) = scanFrom re 0 (some c) cs := by
  simp [scanFrom, h]

theorem scanFrom_lt {re : Re} (h : LineAnchored re) (p : Option Char) (t : Char)
    (r : List Char) (ht : isLineTerminator t = true) :
    scanFrom re 0 p (t :: r) = scanFrom re 0 (some t) r :=
  scanFrom_none p t r (h.exec_lt p t r ht)

theorem scanFrom_skip (re : Re) (w : List Char) :
    ∀ (p : Option Char) (y : List Char),
      scanFrom re w.length p (w ++ y) = scanFrom re 0 (prevAfter p w) y := by
  induction w with
  | nil => intro p y; rfl
  | cons c w ih =>
    intro p y
    show scanFrom re (w.length + 1) p (c :: (w ++ y)) = _
    rw [scanFrom, ih]
    rfl

theorem scanFrom_copy {re : Re} (h : LineAnchored re) (l : List Char) :
    ∀ (p : Option Char) (y : List Char), atLineStart p = false → NoLT l →
      scanFrom re 0 p (l ++ y) = scanFrom re 0 (prevAfter p l) y := by
  induction l with
  | nil => intro p y _ _; rfl
  | cons c l ih =>
    intro p y hp hl
    show scanFrom re 0 p (c :: (l ++ y)) = _
    rw [scanFrom_none p c _ (h.1 p _ hp),
      ih (some c) y (hl c (List.mem_cons_self _ _)) (fun x hx => hl x (List.mem_cons_of_mem _ hx))]
    rfl

theorem scanFrom_line_none {re : Re} (h : LineAnchored re) (p : Option Char)
    (l y : List Char) (hl : NoLT l) (hx : re.exec p (l ++ y) = none) :
    scanFrom re 0 p (l ++ y) = scanFrom re 0 (prevAfter p l) y := by
  cases l with
  | nil => rfl
  | cons c l =>
    show scanFrom re 0 p (c :: (l ++ y)) = _
    have hx2 : re.exec p (c :: (l ++ y)) = none := hx
    rw [scanFrom_none p c _ hx2,
      scanFrom_copy h l (some c) y (hl c (List.mem_cons_self _ _))
        (fun x hx => hl x (List.mem_cons_of_mem _ hx))]
    rfl

theorem scanFrom_match {re : Re} (p : Option Char) (x : List Char)
    (st : MatchState) (hx : re.exec p x = some st) (w : List Char) (hw : x = w ++ st.rest)
    (hlen : st.len = w.length) (hne : w ≠ []) :
    scanFrom re 0 p x = st.cap.getD [] :: scanFrom re 0 (prevAfter p w) st.rest := by
  cases w with
  | nil => exact absurd rfl hne
  | cons c w =>
    subst hw
    show scanFrom re 0 p (c :: (w ++ st.rest)) = _
    have hx2 : re.exec p (c :: (w ++ st.rest)) = some st := hx
    simp only [scanFrom, hx2, hlen, List.length_cons, Nat.add_sub_cancel]
    rw [scanFrom_skip]
    rfl

/-- Every name pushed by the loop is capture group 1 of a successful match attempt. -/
theorem scanFrom_mem (re : Re) (x : List Char) :
    ∀ (k : Nat) (p : Option Char) (n : List Char), n ∈ scanFrom re k p x →
      ∃ q y st, re.exec q y = some st ∧ st.cap.getD [] = n := by
  induction x with
  | nil =>
    intro k p n hn
    cases k <;> simp [scanFrom] at hn
  | cons c cs ih =>
    intro k p n hn
    cases k with
    | zero =>
      simp only [scanFrom] at hn
      split at hn
      · next st hst =>
        rcases List.mem_cons.1 hn with rfl | hn
        · exact ⟨p, c :: cs, st, hst, rfl⟩
        · exact ih _ _ n hn
      · exact ih _ _ n hn
    | succ k =>
      simp only [scanFrom] at hn
      exact ih _ _ n hn

/-- Every entry of `exportedFunctions` and of a scan with the pattern of line 27 is an
identifier. -/
theorem scanAll_function_isName (x n : List Char) (hn : n ∈ scanAll functionRegex x) :
    IsName n := by
  obtain ⟨q, y, st, hst, rfl⟩ := scanFrom_mem _ x 0 none n hn
  obtain ⟨u, sp, _, hu1, hu2, _, hcap, _, _⟩ := functionRegex_exec hst
  rw [hcap]
  exact ⟨hu1, hu2⟩

/-- Every entry of `bindingFunctions` is an identifier. -/
theorem scanAll_binding_isName (x n : List Char) (hn : n ∈ scanAll bindingRegex x) :
    IsName n := by
  obtain ⟨q, y, st, hst, rfl⟩ := scanFrom_mem _ x 0 none n hn
  obtain ⟨e, u, sp, _, _, hu, _, hcap, _, _⟩ := bindingRegex_exec hst
  rw [hcap]
  rcases hu with ⟨g, w, rfl, hg, hw1, hw2⟩ | ⟨w, rfl, hw1, hw2⟩
  · refine ⟨by simp, ?_⟩
    intro c hc
    simp only [Option.getD_some, List.mem_append] at hc
    rcases hc with ((hc | hc) | hc) | hc
    · revert c; decide
    · rcases hg with rfl | rfl
      · simp at hc
      · revert c; decide
    · revert c; decide
    · exact hw2 c hc
  · refine ⟨by simp, ?_⟩
    intro c hc
    simp only [Option.getD_some, List.mem_append] at hc
    rcases hc with hc | hc
    · revert c; decide
    · exact hw2 c hc

theorem isWord_not_lineTerminator {c : Char} (h : isWord c = true) :
    isLineTerminator c = false := by
  simp only [isWord, Bool.or_eq_true, Bool.and_eq_true, decide_eq_true_eq] at h
  simp only [isLineTerminator, Bool.or_eq_false_iff, decide_eq_false_iff_not]
  omega

theorem IsName.noLT {n : List Char} (h : IsName n) : NoLT n :=
  fun c hc => isWord_not_lineTerminator (h.2 c hc)

/-! ## Texts without a declaration -/

theorem function_prefix_of_demoteLine (a : List Char)
    (h : "function ".toList <+: demoteLine a) :
    "function ".toList <+: a ∨ "export function ".toList <+: a := by
  by_cases h1 : "export function ".toList <+: a
  · exact Or.inr h1
  · rw [demoteLine, replaceLineStart_neg h1] at h
    by_cases h2 : "export const ".toList <+: a
    · obtain ⟨v, rfl⟩ := h2
      rw [replaceLineStart_append] at h
      exact absurd h (cons_not_prefix_cons (c := 'f') (d := 'c') (by decide))
    · rw [replaceLineStart_neg h2] at h
      exact Or.inl h

theorem functionRegex_exec_none (p : Option Char) (l y : List Char) (hy : AtEol y)
    (h : ¬ "function ".toList <+: l) : functionRegex.exec p (l ++ y) = none := by
  cases hx : functionRegex.exec p (l ++ y) with
  | none => rfl
  | some st =>
    obtain ⟨u, sp, hx1, _⟩ := functionRegex_exec hx
    obtain ⟨v, hv⟩ := prefix_of_line (u := "function ".toList)
      (r := u ++ sp ++ "(".toList ++ st.rest) noLT_function hy (by rw [hx1]; simp)
    exact absurd ⟨v, hv.symm⟩ h

/-- The scan of line 27 finds nothing in a text none of whose lines begins with
`function `. -/
theorem scanFrom_function_nil :
    ∀ (x : List Char) (p : Option Char),
      (∀ l ∈ lines x, ¬ "function ".toList <+: l) → scanFrom functionRegex 0 p x = [] := by
  intro x
  induction x using line_induction with
  | h1 l hl =>
    intro p h
    rw [lines_of_noLT l hl] at h
    have hx := functionRegex_exec_none p l [] (Or.inl rfl) (h l (List.mem_singleton_self _))
    have := scanFrom_line_none lineAnchored_functionRegex p l [] hl hx
    rw [List.append_nil] at this
    rw [this]
    rfl
  | h2 l t r hl ht ih =>
    intro p h
    rw [lines_line_append l t r hl ht] at h
    have hx := functionRegex_exec_none p l (t :: r) (Or.inr ⟨t, r, rfl, ht⟩)
      (h l (List.mem_cons_self _ _))
    rw [scanFrom_line_none lineAnchored_functionRegex p l _ hl hx,
      scanFrom_lt lineAnchored_functionRegex _ t r ht]
    exact ih (some t) (fun b hb => h b (List.mem_cons_of_mem _ hb))

/-- A glue text none of whose lines begins with `function ` or `export function ` has
no exported function. -/
theorem exportedFunctions_nil (src : List Char)
    (h : ∀ l ∈ lines src,
      ¬ "function ".toList <+: l ∧ ¬ "export function ".toList <+: l) :
    exportedFunctions src = [] := by
  unfold exportedFunctions scanAll
  apply scanFrom_function_nil
  intro b hb
  rw [rewrittenGlue, demoteExports_eq_mapLines,
    lines_mapLines _ (fun l hl => NoLT_demoteLine hl)] at hb
  obtain ⟨a, ha, rfl⟩ := List.mem_map.1 hb
  intro hpre
  rcases (stripImports_walk src.length src rfl none rfl).2.2 a ha with rfl | ha2
  · revert hpre
    decide
  · rcases function_prefix_of_demoteLine a hpre with h1 | h1
    · exact (h a ha2).1 h1
    · exact (h a ha2).2 h1

/-! ## The import table -/

theorem importsObj_nil : importsObj [] = [] := rfl

theorem importsObj_singleton (n : List Char) : importsObj [n] = "    ".toList ++ n := by
  simp [importsObj, join, List.intercalate]

theorem importsObj_cons_cons (n m : List Char) (ns : List (List Char)) :
    importsObj (n :: m :: ns)
      = ("    ".toList ++ n ++ ",".toList) ++ '\n' :: importsObj (m :: ns) := by
  simp [importsObj, join, List.intercalate]

theorem noLT_member (n : List Char) (hn : NoLT n) : NoLT ("    ".toList ++ n) :=
  NoLT_append (by intro c hc; revert c; decide) hn

/-- The text `importsObj` has one line per name. -/
theorem lines_importsObj (names : List (List Char)) (hne : names ≠ [])
    (h : ∀ n ∈ names, NoLT n) : lines (importsObj names) = memberLines names := by
  induction names with
  | nil => exact absurd rfl hne
  | cons n ns ih =>
    have hn : NoLT n := h n (List.mem_cons_self _ _)
    cases ns with
    | nil => rw [importsObj_singleton, lines_of_noLT _ (noLT_member n hn)]; rfl
    | cons m ns =>
      rw [importsObj_cons_cons, lines_line_append _ '\n' _
        (NoLT_append (noLT_member n hn) (by intro c hc; revert c; decide)) (by decide),
        ih (by simp) (fun x hx => h x (List.mem_cons_of_mem _ hx))]
      rfl

/-! ## Import lines in the final text -/

theorem isImportLine_starts (l : List Char) (h : isImportLine l = true) :
    "import ".toList <+: l := by
  unfold isImportLine at h
  obtain ⟨w, rest, rfl, hm⟩ := (Re.exec_isSome_iff _ _ _).1 h
  obtain ⟨a, b, d, rfl, _⟩ := importRegex_matches hm
  exact ⟨a ++ " from ".toList ++ b ++ d ++ rest, by simp⟩

theorem isImportLine_cons (c : Char) (l : List Char) (hc : c ≠ 'i') :
    isImportLine (c :: l) = false := by
  cases h : isImportLine (c :: l) with
  | false => rfl
  | true => exact absurd (isImportLine_starts _ h) (cons_not_prefix_cons (c := 'i') (Ne.symm hc))

theorem NoImportLine_append {a b : List Char} (t : Char) (ht : isLineTerminator t = true)
    (ha : NoImportLine a) (hb : NoImportLine b) : NoImportLine (a ++ t :: b) := by
  intro l hl
  rw [lines_append_lt a t b ht] at hl
  rcases List.mem_append.1 hl with h | h
  · exact ha l h
  · exact hb l h

theorem NoImportLine_line_cons (c : Char) (l : List Char) (hc : c ≠ 'i')
    (hl : NoLT (c :: l)) : NoImportLine (c :: l) := by
  intro b hb
  rw [lines_of_noLT _ hl, List.mem_singleton] at hb
  rw [hb]
  exact isImportLine_cons c l hc

theorem NoImportLine_nil : NoImportLine [] := by
  intro b hb
  have hb2 : b = [] := by simpa [lines] using hb
  rw [hb2]
  exact isImportLine_nil

theorem alphabet_noLT : ∀ c ∈ alphabet, isLineTerminator c = false := by decide

theorem encChar_mem (n : Nat) : encChar n ∈ alphabet := by
  unfold encChar
  by_cases h : n < alphabet.length
  · rw [List.getD_eq_getElem _ _ h]
    exact List.getElem_mem h
  · rw [List.getD_eq_default _ _ (by omega)]
    decide

theorem encChar_noLT (n : Nat) : isLineTerminator (encChar n) = false :=
  alphabet_noLT _ (encChar_mem n)

/-- The base64 text has no line terminator. -/
theorem toBase64_noLT (bs : List Byte) : NoLT (toBase64 bs) := by
  induction bs using toBase64.induct with
  | case1 => simp [toBase64, NoLT]
  | case2 a =>
    intro c hc
    simp only [toBase64, List.mem_cons, List.mem_singleton, List.not_mem_nil, or_false] at hc
    rcases hc with rfl | rfl | rfl | rfl <;> first | exact encChar_noLT _ | decide
  | case3 a b =>
    intro c hc
    simp only [toBase64, List.mem_cons, List.mem_singleton, List.not_mem_nil, or_false] at hc
    rcases hc with rfl | rfl | rfl | rfl <;> first | exact encChar_noLT _ | decide
  | case4 a b c rest ih =>
    intro x hx
    simp only [toBase64, List.mem_cons] at hx
    rcases hx with rfl | rfl | rfl | rfl | hx
    · exact encChar_noLT _
    · exact encChar_noLT _
    · exact encChar_noLT _
    · exact encChar_noLT _
    · exact ih x hx

theorem demoteLine_cases (a : List Char) :
    demoteLine a = a ∨ (∃ v, demoteLine a = 'f' :: v) ∨ (∃ v, demoteLine a = 'c' :: v) := by
  by_cases h1 : "export function ".toList <+: a
  · obtain ⟨v, rfl⟩ := h1
    refine Or.inr (Or.inl ⟨"unction ".toList ++ v, ?_⟩)
    have hn : ¬ "export const ".toList <+: "function ".toList ++ v :=
      cons_not_prefix_cons (c := 'e') (d := 'f') (by decide)
    rw [demoteLine, replaceLineStart_append, replaceLineStart_neg hn]
    rfl
  · by_cases h2 : "export const ".toList <+: a
    · obtain ⟨v, rfl⟩ := h2
      refine Or.inr (Or.inr ⟨"onst ".toList ++ v, ?_⟩)
      rw [demoteLine, replaceLineStart_neg h1, replaceLineStart_append]
      rfl
    · exact Or.inl (demoteLine_of_no_export a h1 h2)

/-- No line of the rewritten glue matches the import-statement pattern. -/
theorem NoImportLine_rewrittenGlue (src : List Char) : NoImportLine (rewrittenGlue src) := by
  intro b hb
  rw [rewrittenGlue, demoteExports_eq_mapLines,
    lines_mapLines _ (fun l hl => NoLT_demoteLine hl)] at hb
  obtain ⟨a, ha, rfl⟩ := List.mem_map.1 hb
  rcases demoteLine_cases a with h | ⟨v, h⟩ | ⟨v, h⟩
  · rw [h]
    exact (stripImports_walk src.length src rfl none rfl).1 a ha
  · rw [h]
    exact isImportLine_cons _ _ (by decide)
  · rw [h]
    exact isImportLine_cons _ _ (by decide)

theorem memberLines_head (names : List (List Char)) :
    ∀ l ∈ memberLines names, ∃ v, l = ' ' :: v := by
  induction names with
  | nil => intro l hl; simp [memberLines] at hl
  | cons n ns ih =>
    cases ns with
    | nil =>
      intro l hl
      simp only [memberLines, List.mem_singleton] at hl
      exact ⟨"   ".toList ++ n, by rw [hl]; rfl⟩
    | cons m ns =>
      intro l hl
      simp only [memberLines, List.mem_cons] at hl
      rcases hl with rfl | hl
      · exact ⟨"   ".toList ++ n ++ ",".toList, rfl⟩
      · exact ih l (by simpa [memberLines] using hl)

theorem NoImportLine_importsObj (names : List (List Char)) (h : ∀ n ∈ names, NoLT n) :
    NoImportLine (importsObj names) := by
  by_cases hne : names = []
  · rw [hne]
    exact NoImportLine_nil
  · intro l hl
    rw [lines_importsObj names hne h] at hl
    obtain ⟨v, rfl⟩ := memberLines_head names l hl
    exact isImportLine_cons _ _ (by decide)

theorem join_noLT (sep : List Char) (hsep : NoLT sep) (names : List (List Char))
    (h : ∀ n ∈ names, NoLT n) : NoLT (join sep names) := by
  induction names with
  | nil => simp [join, NoLT, List.intercalate]
  | cons n ns ih =>
    have hn : NoLT n := h n (List.mem_cons_self _ _)
    cases ns with
    | nil => simpa [join, List.intercalate] using hn
    | cons m ns =>
      have ih2 := ih (fun x hx => h x (List.mem_cons_of_mem _ hx))
      have e : join sep (n :: m :: ns) = n ++ sep ++ join sep (m :: ns) := by
        simp [join, List.intercalate]
      rw [e]
      exact NoLT_append (NoLT_append hn hsep) ih2

theorem NoImportLine_exportStatements (names : List (List Char)) (h : ∀ n ∈ names, NoLT n) :
    NoImportLine (exportStatements names) := by
  unfold exportStatements
  split
  · have hl : NoLT ("export \x7b ".toList ++ join ", ".toList names ++ " \x7d".toList) :=
      NoLT_append (NoLT_append (by intro c hc; revert c; decide)
        (join_noLT _ (by intro c hc; revert c; decide) names h))
        (by intro c hc; revert c; decide)
    have := NoImportLine_append (a := []) '\n' (by decide) NoImportLine_nil
      (NoImportLine_line_cons 'e' _ (by decide) hl)
    exact this
  · exact NoImportLine_nil

theorem NoImportLine_finalCode (src : List Char) (wasmBinary : List Byte) :
    NoImportLine (finalCode src wasmBinary) := by
  have hh : header (toBase64 wasmBinary)
      = headerComment ++ '\n' :: (payloadLine (toBase64 wasmBinary) ++ '\n' :: ([] ++ ['\n'])) := by
    have e : ("// @ts-nocheck\n" ++
        "// Auto-generated from lib/rumina_bg.js and lib/rumina_bg.wasm\n" ++
        "// Do not edit manually\n" ++
        "\n" ++
        "// Inlined WASM binary (base64 encoded)\n" ++
        "const wasmBase64 = '").toList
        = headerComment ++ '\n' :: "const wasmBase64 = '".toList := by decide
    rw [header, e, payloadLine]
    simp
  have hp : initPrefix = '\n' :: (initPrefix.tail.dropLast ++ ['\n']) := by decide
  have hs : initSuffix = '\n' :: (initSuffix.tail.dropLast ++ ['\n']) := by decide
  have hfinal : finalCode src wasmBinary
      = headerComment ++ '\n' :: (payloadLine (toBase64 wasmBinary) ++ '\n' :: ([] ++ '\n' ::
          (rewrittenGlue src ++ '\n' :: (initPrefix.tail.dropLast ++ '\n' ::
            (importsObj (bindingFunctions src) ++ '\n' :: (initSuffix.tail.dropLast ++ '\n' ::
              exportStatements (exportedFunctions src))))))) := by
    rw [finalCode, hh, initCode]
    conv_lhs => rw [hp, hs]
    simp
  rw [hfinal]
  have hb : ∀ n ∈ bindingFunctions src, NoLT n :=
    fun n hn => (scanAll_binding_isName src n hn).noLT
  have he : ∀ n ∈ exportedFunctions src, NoLT n :=
    fun n hn => (scanAll_function_isName _ n hn).noLT
  refine NoImportLine_append _ (by decide) (by unfold NoImportLine; decide) ?_
  refine NoImportLine_append _ (by decide) ?_ ?_
  · have hl : NoLT ("const wasmBase64 = '".toList ++ toBase64 wasmBinary ++ "'".toList) :=
      NoLT_append (NoLT_append (by intro c hc; revert c; decide) (toBase64_noLT _))
        (by intro c hc; revert c; decide)
    exact NoImportLine_line_cons 'c' _ (by decide) hl
  refine NoImportLine_append _ (by decide) NoImportLine_nil ?_
  refine NoImportLine_append _ (by decide) (NoImportLine_rewrittenGlue src) ?_
  refine NoImportLine_append _ (by decide) (by unfold NoImportLine; decide) ?_
  refine NoImportLine_append _ (by decide) (NoImportLine_importsObj _ hb) ?_
  exact NoImportLine_append _ (by decide) (by unfold NoImportLine; decide)
    (NoImportLine_exportStatements _ he)

/-! ## Declarations, one per line -/

theorem isSpace_not_isWord {c : Char} (h : isSpace c = true) : isWord c = false := by
  simp only [isSpace, isLineTerminator, Bool.or_eq_true, Bool.and_eq_true,
    decide_eq_true_eq] at h
  simp only [isWord, Bool.or_eq_false_iff, Bool.and_eq_false_iff, decide_eq_false_iff_not]
  omega

/-- A run of characters of a class followed by a character outside the class splits a
text in one way only. -/
theorem span_unique (P : Char → Bool) :
    ∀ (a b x y : List Char) (c d : Char), (∀ z ∈ a, P z = true) → (∀ z ∈ b, P z = true) →
      P c = false → P d = false → a ++ c :: x = b ++ d :: y → a = b ∧ c = d ∧ x = y := by
  intro a
  induction a with
  | nil =>
    intro b x y c d _ hb hc _ h
    cases b with
    | nil =>
      simp only [List.nil_append, List.cons.injEq] at h
      exact ⟨rfl, h.1, h.2⟩
    | cons e b =>
      simp only [List.nil_append, List.cons_append, List.cons.injEq] at h
      have := hb e (List.mem_cons_self _ _)
      rw [← h.1, hc] at this
      exact absurd this (by simp)
  | cons e a ih =>
    intro b x y c d ha hb hc hd h
    cases b with
    | nil =>
      simp only [List.nil_append, List.cons_append, List.cons.injEq] at h
      have := ha e (List.mem_cons_self _ _)
      rw [h.1, hd] at this
      exact absurd this (by simp)
    | cons f b =>
      simp only [List.cons_append, List.cons.injEq] at h
      obtain ⟨h1, h2, h3⟩ := ih b x y c d (fun z hz => ha z (List.mem_cons_of_mem _ hz))
        (fun z hz => hb z (List.mem_cons_of_mem _ hz)) hc hd h.2
      exact ⟨by rw [h.1, h1], h2, h3⟩

/-- After a name and `(`, the tail `\s*\(` of a declaration pattern has matched the
`(` alone. -/
theorem name_paren_unique {n u sp rest rest1 : List Char} (hn : ∀ c ∈ n, isWord c = true)
    (hu : ∀ c ∈ u, isWord c = true) (hsp : ∀ c ∈ sp, isSpace c = true)
    (h : n ++ '(' :: rest = u ++ (sp ++ '(' :: rest1)) : u = n ∧ sp = [] ∧ rest1 = rest := by
  cases sp with
  | nil =>
    obtain ⟨h1, _, h3⟩ := span_unique isWord n u rest rest1 '(' '(' hn hu (by decide)
      (by decide) h
    exact ⟨h1.symm, rfl, h3.symm⟩
  | cons c sp =>
    have hc : isSpace c = true := hsp c (List.mem_cons_self _ _)
    obtain ⟨_, h2, _⟩ := span_unique isWord n u rest (sp ++ '(' :: rest1) '(' c hn hu
      (by decide) (isSpace_not_isWord hc) h
    rw [← h2] at hc
    exact absurd hc (by decide)

theorem prevAfter_snoc (p : Option Char) (w : List Char) (c : Char) :
    prevAfter p (w ++ [c]) = some c := by
  rw [prevAfter_append]
  rfl

/-- One step of the scan of line 27: at the start of a line, a declaration
`function name(` pushes the name, and the scan goes on after the `(`. -/
theorem scanFrom_function_decl (p : Option Char) (hp : atLineStart p = true)
    (n rest : List Char) (hn : IsName n) :
    scanFrom functionRegex 0 p ("function ".toList ++ n ++ '(' :: rest)
      = n :: scanFrom functionRegex 0 (some '(') rest := by
  have hm : functionRegex.Matches p ("function ".toList ++ n ++ "(".toList) rest :=
    ⟨[], _, rfl, ⟨rfl, hp⟩, "function ".toList, n ++ "(".toList, by simp, rfl,
      n, "(".toList, rfl, ⟨hn.1, hn.2⟩, [], "(".toList, rfl, by simp [Re.Matches], rfl⟩
  have hsome := (Re.exec_isSome_iff functionRegex p
    ("function ".toList ++ n ++ '(' :: rest)).2 ⟨_, rest, by simp, hm⟩
  obtain ⟨st, hst⟩ := Option.isSome_iff_exists.1 hsome
  obtain ⟨u, sp, hx, _, hu, hsp, hcap, hlen, _⟩ := functionRegex_exec hst
  have hx2 : n ++ '(' :: rest = u ++ (sp ++ '(' :: st.rest) := by
    have := hx
    simp only [List.append_assoc] at this
    have h2 := List.append_cancel_left this
    simpa using h2
  obtain ⟨rfl, rfl, hr⟩ := name_paren_unique hn.2 hu hsp hx2
  have hw : "function ".toList ++ u ++ '(' :: rest
      = ("function ".toList ++ u ++ ['(']) ++ st.rest := by
    rw [hr]; simp
  rw [scanFrom_match p _ st hst ("function ".toList ++ u ++ ['(']) hw
    (by rw [hlen]; simp) (by simp), hcap, prevAfter_snoc, hr]
  rfl

theorem IsBindingName.isName {u : List Char} (h : IsBindingName u) : IsName u := by
  rcases h with ⟨g, w, rfl, hg, hw1, hw2⟩ | ⟨w, rfl, hw1, hw2⟩
  · refine ⟨by simp, ?_⟩
    intro c hc
    simp only [List.mem_append] at hc
    rcases hc with ((hc | hc) | hc) | hc
    · revert c; decide
    · rcases hg with rfl | rfl
      · simp at hc
      · revert c; decide
    · revert c; decide
    · exact hw2 c hc
  · refine ⟨by simp, ?_⟩
    intro c hc
    simp only [List.mem_append] at hc
    rcases hc with hc | hc
    · revert c; decide
    · exact hw2 c hc

theorem bindingName_matches_of (p : Option Char) (u rest : List Char)
    (h : IsBindingName u) :
    (Re.alt
        (.seq (.lit "__wb".toList) (.seq (.opt (.lit "g".toList))
          (.seq (.lit "_".toList) (.plus .word))))
        (.seq (.lit "__wbindgen_".toList) (.plus .word))).Matches p u rest := by
  rcases h with ⟨g, w, rfl, hg, hw⟩ | ⟨w, rfl, hw⟩
  · refine Or.inl ⟨"__wb".toList, g ++ "_".toList ++ w, by simp, rfl,
      g, "_".toList ++ w, by simp, ?_, "_".toList, w, rfl, rfl, hw.1, hw.2⟩
    rcases hg with rfl | rfl
    · exact Or.inl rfl
    · exact Or.inr rfl
  · exact Or.inr ⟨"__wbindgen_".toList, w, rfl, rfl, hw.1, hw.2⟩

/-- One step of the scan of line 36: at the start of a line, a declaration
`function name(` of a binding name pushes the name, and the scan goes on after the
`(`. -/
theorem scanFrom_binding_decl (p : Option Char) (hp : atLineStart p = true)
    (n rest : List Char) (hn : IsBindingName n) :
    scanFrom bindingRegex 0 p ("function ".toList ++ n ++ '(' :: rest)
      = n :: scanFrom bindingRegex 0 (some '(') rest := by
  have hm : bindingRegex.Matches p ("function ".toList ++ n ++ "(".toList) rest :=
    ⟨[], _, rfl, ⟨rfl, hp⟩, [], "function ".toList ++ n ++ "(".toList, rfl, Or.inl rfl,
      "function ".toList, n ++ "(".toList, by simp, rfl,
      n, "(".toList, rfl, bindingName_matches_of _ n _ hn, [], "(".toList, rfl,
      by simp [Re.Matches], rfl⟩
  have hsome := (Re.exec_isSome_iff bindingRegex p
    ("function ".toList ++ n ++ '(' :: rest)).2 ⟨_, rest, by simp, hm⟩
  obtain ⟨st, hst⟩ := Option.isSome_iff_exists.1 hsome
  obtain ⟨e, u, sp, hx, he, hu, hsp, hcap, hlen, _⟩ := bindingRegex_exec hst
  have hu2 : IsName u := IsBindingName.isName hu
  rcases he with rfl | rfl
  · have hx2 : n ++ '(' :: rest = u ++ (sp ++ '(' :: st.rest) := by
      have := hx
      simp only [List.append_assoc, List.nil_append] at this
      have h2 := List.append_cancel_left this
      simpa using h2
    obtain ⟨rfl, rfl, hr⟩ := name_paren_unique (IsBindingName.isName hn).2 hu2.2 hsp hx2
    have hw : "function ".toList ++ u ++ '(' :: rest
        = ("function ".toList ++ u ++ ['(']) ++ st.rest := by
      rw [hr]; simp
    rw [scanFrom_match p _ st hst ("function ".toList ++ u ++ ['(']) hw
      (by rw [hlen]; simp) (by simp), hcap, prevAfter_snoc, hr]
    rfl
  · have : ('f' : Char) = 'e' := by
      have h0 := congrArg List.head? hx
      simp at h0
    exact absurd this (by decide)

theorem mapLines_eq_self (f : List Char → List Char) :
    ∀ (x : List Char), (∀ l ∈ lines x, f l = l) → mapLines f x = x := by
  intro x
  induction x using line_induction with
  | h1 l hl =>
    intro h
    rw [lines_of_noLT l hl] at h
    rw [mapLines_line f l hl, h l (List.mem_singleton_self _)]
  | h2 l t r hl ht ih =>
    intro h
    rw [lines_line_append l t r hl ht] at h
    rw [mapLines_append f l t r hl ht, h l (List.mem_cons_self _ _),
      ih (fun b hb => h b (List.mem_cons_of_mem _ hb))]

/-- Line 19 leaves a text without import lines as it is. -/
theorem replaceFrom_import_eq_self :
    ∀ (x : List Char) (p : Option Char), atLineStart p = true → NoImportLine x →
      replaceFrom importRegex [] 0 p x = x := by
  intro x
  induction x using line_induction with
  | h1 l hl =>
    intro p hp h
    have hi : isImportLine l = false := h l (by rw [lines_of_noLT l hl]; simp)
    have hsome := importRegex_exec_isSome p hp l [] hl (Or.inl rfl)
    rw [hi, List.append_nil] at hsome
    have hnone : importRegex.exec p l = none := by
      cases hx : importRegex.exec p l with
      | none => rfl
      | some st => rw [hx] at hsome; exact absurd hsome (by simp)
    have := replaceFrom_line_none lineAnchored_importRegex [] p l [] hl
      (by rw [List.append_nil]; exact hnone)
    rw [List.append_nil] at this
    rw [this, replaceFrom_nil lineAnchored_importRegex, List.append_nil]
  | h2 l t r hl ht ih =>
    intro p hp h
    have hlines := lines_line_append l t r hl ht
    have hi : isImportLine l = false := h l (by rw [hlines]; simp)
    have hsome := importRegex_exec_isSome p hp l (t :: r) hl (Or.inr ⟨t, r, rfl, ht⟩)
    rw [hi] at hsome
    have hnone : importRegex.exec p (l ++ t :: r) = none := by
      cases hx : importRegex.exec p (l ++ t :: r) with
      | none => rfl
      | some st => rw [hx] at hsome; exact absurd hsome (by simp)
    rw [replaceFrom_line_none lineAnchored_importRegex [] p l _ hl hnone,
      replaceFrom_lt lineAnchored_importRegex [] _ t r ht,
      ih (some t) ht (fun b hb => h b (by rw [hlines]; exact List.mem_cons_of_mem _ hb))]

theorem noLT_declaration (n : List Char) (hn : NoLT n) :
    NoLT ("function ".toList ++ n ++ "() \x7b\x7d".toList) :=
  NoLT_append (NoLT_append noLT_function hn) (by intro c hc; revert c; decide)

theorem lines_declarations (ns : List (List Char)) (h : ∀ n ∈ ns, NoLT n) :
    ∀ l ∈ lines (declarations ns), l = [] ∨ ∃ v, l = 'f' :: v := by
  induction ns with
  | nil =>
    intro l hl
    have : l = [] := by simpa [declarations, lines] using hl
    exact Or.inl this
  | cons n ns ih =>
    intro l hl
    rw [declarations, lines_line_append _ '\n' _
      (noLT_declaration n (h n (List.mem_cons_self _ _))) (by decide)] at hl
    rcases List.mem_cons.1 hl with rfl | hl
    · exact Or.inr ⟨"unction ".toList ++ n ++ "() \x7b\x7d".toList, by simp⟩
    · exact ih (fun x hx => h x (List.mem_cons_of_mem _ hx)) l hl

/-- Lines 19-22 leave a text of declarations as it is. -/
theorem rewrittenGlue_declarations (ns : List (List Char)) (h : ∀ n ∈ ns, NoLT n) :
    rewrittenGlue (declarations ns) = declarations ns := by
  have h1 : stripImports (declarations ns) = declarations ns := by
    apply replaceFrom_import_eq_self _ none rfl
    intro l hl
    rcases lines_declarations ns h l hl with rfl | ⟨v, rfl⟩
    · exact isImportLine_nil
    · exact isImportLine_cons _ _ (by decide)
  rw [rewrittenGlue, h1, demoteExports_eq_mapLines]
  apply mapLines_eq_self
  intro l hl
  rcases lines_declarations ns h l hl with rfl | ⟨v, rfl⟩
  · decide
  · exact demoteLine_of_no_export _ (cons_not_prefix_cons (c := 'e') (d := 'f') (by decide))
      (cons_not_prefix_cons (c := 'e') (d := 'f') (by decide))

theorem declarations_cons (n : List Char) (ns : List (List Char)) :
    declarations (n :: ns)
      = "function ".toList ++ n ++ '(' :: (") \x7b\x7d".toList ++ '\n' :: declarations ns) := by
  simp [declarations]

theorem scanFrom_function_declarations (ns : List (List Char)) (h : ∀ n ∈ ns, IsName n) :
    ∀ p, atLineStart p = true → scanFrom functionRegex 0 p (declarations ns) = ns := by
  induction ns with
  | nil => intro p _; rfl
  | cons n ns ih =>
    intro p hp
    rw [declarations_cons, scanFrom_function_decl p hp n _ (h n (List.mem_cons_self _ _)),
      scanFrom_copy lineAnchored_functionRegex _ (some '(') _ (by decide)
        (by intro c hc; revert c; decide),
      scanFrom_lt lineAnchored_functionRegex _ '\n' _ (by decide),
      ih (fun x hx => h x (List.mem_cons_of_mem _ hx)) (some '\n') (by decide)]

theorem scanFrom_binding_declarations (ns : List (List Char))
    (h : ∀ n ∈ ns, IsBindingName n) :
    ∀ p, atLineStart p = true → scanFrom bindingRegex 0 p (declarations ns) = ns := by
  induction ns with
  | nil => intro p _; rfl
  | cons n ns ih =>
    intro p hp
    rw [declarations_cons, scanFrom_binding_decl p hp n _ (h n (List.mem_cons_self _ _)),
      scanFrom_copy lineAnchored_bindingRegex _ (some '(') _ (by decide)
        (by intro c hc; revert c; decide),
      scanFrom_lt lineAnchored_bindingRegex _ '\n' _ (by decide),
      ih (fun x hx => h x (List.mem_cons_of_mem _ hx)) (some '\n') (by decide)]

/-! ## The four declarations of the ordering example -/

theorem demoteLine_export_function (v : List Char) :
    demoteLine ("export function ".toList ++ v) = "function ".toList ++ v := by
  have hn : ¬ "export const ".toList <+: "function ".toList ++ v :=
    cons_not_prefix_cons (c := 'e') (d := 'f') (by decide)
  rw [demoteLine, replaceLineStart_append, replaceLineStart_neg hn]

theorem demoteLine_function (v : List Char) :
    demoteLine ("function ".toList ++ v) = "function ".toList ++ v :=
  demoteLine_of_no_export _ (cons_not_prefix_cons (c := 'e') (d := 'f') (by decide))
    (cons_not_prefix_cons (c := 'e') (d := 'f') (by decide))

theorem isName_f1 : IsName "f1".toList := ⟨by decide, by decide⟩

theorem isName_f2 : IsName "f2".toList := ⟨by decide, by decide⟩

theorem isBindingName_wbg_foo : IsBindingName "__wbg_foo".toList :=
  Or.inl ⟨"g".toList, "foo".toList, by decide, Or.inr rfl, by decide, by decide⟩

theorem isBindingName_wbindgen_bar : IsBindingName "__wbindgen_bar".toList :=
  Or.inr ⟨"bar".toList, by decide, by decide, by decide⟩

/-- The pattern of line 36 does not match an exported declaration whose name does not
begin with an underscore. -/
theorem bindingRegex_exec_export_none (p : Option Char) (c : Char) (rest : List Char)
    (hc : c ≠ '_') : bindingRegex.exec p ("export function ".toList ++ c :: rest) = none := by
  cases hx : bindingRegex.exec p ("export function ".toList ++ c :: rest) with
  | none => rfl
  | some st =>
    obtain ⟨e, u, sp, hx1, he, hu, _⟩ := bindingRegex_exec hx
    rcases he with rfl | rfl
    · have h0 := congrArg List.head? hx1
      simp at h0
    · have hx2 : c :: rest = u ++ (sp ++ ("(".toList ++ st.rest)) := by
        have := hx1
        simp only [List.append_assoc] at this
        have e1 : "export function ".toList ++ c :: rest
            = "export ".toList ++ ("function ".toList ++ c :: rest) := by simp
        rw [e1] at this
        exact List.append_cancel_left (List.append_cancel_left this)
      have h0 := congrArg List.head? hx2
      rcases hu with ⟨g, w, rfl, _, _⟩ | ⟨w, rfl, _⟩
      · simp at h0
        exact absurd h0 hc
      · simp at h0
        exact absurd h0 hc

theorem rewrittenGlue_orderingText (b1 b2 b3 b4 : List Char) (h1 : NoLT b1) (h2 : NoLT b2)
    (h3 : NoLT b3) (h4 : NoLT b4) :
    rewrittenGlue (orderingText b1 b2 b3 b4)
      = "function f1(".toList ++ b1 ++ '\n' ::
          ("function __wbg_foo(".toList ++ b2 ++ '\n' ::
            ("function f2(".toList ++ b3 ++ '\n' ::
              ("function __wbindgen_bar(".toList ++ b4 ++ ['\n']))) := by
  have n1 : NoLT ("export function f1(".toList ++ b1) :=
    NoLT_append (by intro c hc; revert c; decide) h1
  have n2 : NoLT ("function __wbg_foo(".toList ++ b2) :=
    NoLT_append (by intro c hc; revert c; decide) h2
  have n3 : NoLT ("export function f2(".toList ++ b3) :=
    NoLT_append (by intro c hc; revert c; decide) h3
  have n4 : NoLT ("function __wbindgen_bar(".toList ++ b4) :=
    NoLT_append (by intro c hc; revert c; decide) h4
  have hlines : lines (orderingText b1 b2 b3 b4)
      = ["export function f1(".toList ++ b1, "function __wbg_foo(".toList ++ b2,
          "export function f2(".toList ++ b3, "function __wbindgen_bar(".toList ++ b4, []] := by
    rw [orderingText, lines_line_append _ _ _ n1 (by decide),
      lines_line_append _ _ _ n2 (by decide), lines_line_append _ _ _ n3 (by decide),
      lines_line_append _ _ _ n4 (by decide)]
    rfl
  have hstrip : stripImports (orderingText b1 b2 b3 b4) = orderingText b1 b2 b3 b4 := by
    apply replaceFrom_import_eq_self _ none rfl
    intro l hl
    rw [hlines] at hl
    simp only [List.mem_cons, List.mem_singleton, List.not_mem_nil, or_false] at hl
    rcases hl with rfl | rfl | rfl | rfl | rfl
    · exact isImportLine_cons 'e' _ (by decide)
    · exact isImportLine_cons 'f' _ (by decide)
    · exact isImportLine_cons 'e' _ (by decide)
    · exact isImportLine_cons 'f' _ (by decide)
    · exact isImportLine_nil
  have e1 : demoteLine ("export function f1(".toList ++ b1) = "function f1(".toList ++ b1 :=
    demoteLine_export_function ("f1(".toList ++ b1)
  have e2 : demoteLine ("function __wbg_foo(".toList ++ b2) = "function __wbg_foo(".toList ++ b2 :=
    demoteLine_function ("__wbg_foo(".toList ++ b2)
  have e3 : demoteLine ("export function f2(".toList ++ b3) = "function f2(".toList ++ b3 :=
    demoteLine_export_function ("f2(".toList ++ b3)
  have e4 : demoteLine ("function __wbindgen_bar(".toList ++ b4)
      = "function __wbindgen_bar(".toList ++ b4 :=
    demoteLine_function ("__wbindgen_bar(".toList ++ b4)
  have e5 : demoteLine [] = [] := by decide
  rw [rewrittenGlue, hstrip, demoteExports_eq_mapLines, orderingText,
    mapLines_append _ _ _ _ n1 (by decide), mapLines_append _ _ _ _ n2 (by decide),
    mapLines_append _ _ _ _ n3 (by decide), mapLines_append _ _ _ _ n4 (by decide),
    mapLines_line _ [] (by simp [NoLT]), e1, e2, e3, e4, e5]

theorem scanFrom_function_line (p : Option Char) (hp : atLineStart p = true)
    (n b rest : List Char) (hn : IsName n) (hb : NoLT b) :
    scanFrom functionRegex 0 p ("function ".toList ++ n ++ '(' :: (b ++ '\n' :: rest))
      = n :: scanFrom functionRegex 0 (some '\n') rest := by
  rw [scanFrom_function_decl p hp n _ hn,
    scanFrom_copy lineAnchored_functionRegex b (some '(') _ (by decide) hb,
    scanFrom_lt lineAnchored_functionRegex _ '\n' _ (by decide)]

theorem scanFrom_binding_line (p : Option Char) (hp : atLineStart p = true)
    (n b rest : List Char) (hn : IsBindingName n) (hb : NoLT b) :
    scanFrom bindingRegex 0 p ("function ".toList ++ n ++ '(' :: (b ++ '\n' :: rest))
      = n :: scanFrom bindingRegex 0 (some '\n') rest := by
  rw [scanFrom_binding_decl p hp n _ hn,
    scanFrom_copy lineAnchored_bindingRegex b (some '(') _ (by decide) hb,
    scanFrom_lt lineAnchored_bindingRegex _ '\n' _ (by decide)]

theorem scanFrom_binding_skip_line (p : Option Char) (c : Char) (l rest : List Char)
    (hc : c ≠ '_') (hl : NoLT ("export function ".toList ++ c :: l)) :
    scanFrom bindingRegex 0 p ("export function ".toList ++ c :: l ++ '\n' :: rest)
      = scanFrom bindingRegex 0 (some '\n') rest := by
  have hx : bindingRegex.exec p (("export function ".toList ++ c :: l) ++ '\n' :: rest) = none := by
    have := bindingRegex_exec_export_none p c (l ++ '\n' :: rest) hc
    simpa using this
  rw [scanFrom_line_none lineAnchored_bindingRegex p _ _ hl hx,
    scanFrom_lt lineAnchored_bindingRegex _ '\n' _ (by decide)]

theorem exportedFunctions_orderingText (b1 b2 b3 b4 : List Char) (h1 : NoLT b1)
    (h2 : NoLT b2) (h3 : NoLT b3) (h4 : NoLT b4) :
    exportedFunctions (orderingText b1 b2 b3 b4)
      = ["f1".toList, "__wbg_foo".toList, "f2".toList, "__wbindgen_bar".toList] := by
  have e : "function f1(".toList ++ b1 ++ '\n' ::
          ("function __wbg_foo(".toList ++ b2 ++ '\n' ::
            ("function f2(".toList ++ b3 ++ '\n' ::
              ("function __wbindgen_bar(".toList ++ b4 ++ ['\n'])))
      = "function ".toList ++ "f1".toList ++ '(' :: (b1 ++ '\n' ::
          ("function ".toList ++ "__wbg_foo".toList ++ '(' :: (b2 ++ '\n' ::
            ("function ".toList ++ "f2".toList ++ '(' :: (b3 ++ '\n' ::
              ("function ".toList ++ "__wbindgen_bar".toList ++ '(' :: (b4 ++ '\n' :: []))))))) := by
    simp
  rw [exportedFunctions, rewrittenGlue_orderingText b1 b2 b3 b4 h1 h2 h3 h4, e, scanAll,
    scanFrom_function_line none rfl _ b1 _ isName_f1 h1,
    scanFrom_function_line _ (by decide) _ b2 _ isBindingName_wbg_foo.isName h2,
    scanFrom_function_line _ (by decide) _ b3 _ isName_f2 h3,
    scanFrom_function_line _ (by decide) _ b4 _ isBindingName_wbindgen_bar.isName h4]
  rfl

theorem bindingFunctions_orderingText (b1 b2 b3 b4 : List Char) (h1 : NoLT b1)
    (h2 : NoLT b2) (h3 : NoLT b3) (h4 : NoLT b4) :
    bindingFunctions (orderingText b1 b2 b3 b4)
      = ["__wbg_foo".toList, "__wbindgen_bar".toList] := by
  have e : orderingText b1 b2 b3 b4
      = "export function ".toList ++ 'f' :: ("1(".toList ++ b1) ++ '\n' ::
          ("function ".toList ++ "__wbg_foo".toList ++ '(' :: (b2 ++ '\n' ::
            ("export function ".toList ++ 'f' :: ("2(".toList ++ b3) ++ '\n' ::
              ("function ".toList ++ "__wbindgen_bar".toList ++ '(' :: (b4 ++ '\n' :: []))))) := by
    simp [orderingText]
  have n1 : NoLT ("export function ".toList ++ 'f' :: ("1(".toList ++ b1)) :=
    NoLT_append (by intro c hc; revert c; decide)
      (NoLT_append (a := 'f' :: "1(".toList) (by intro c hc; revert c; decide) h1)
  have n3 : NoLT ("export function ".toList ++ 'f' :: ("2(".toList ++ b3)) :=
    NoLT_append (by intro c hc; revert c; decide)
      (NoLT_append (a := 'f' :: "2(".toList) (by intro c hc; revert c; decide) h3)
  rw [bindingFunctions, e, scanAll,
    scanFrom_binding_skip_line none 'f' _ _ (by decide) n1,
    scanFrom_binding_line _ (by decide) _ b2 _ isBindingName_wbg_foo h2,
    scanFrom_binding_skip_line _ 'f' _ _ (by decide) n3,
    scanFrom_binding_line _ (by decide) _ b4 _ isBindingName_wbindgen_bar h4]
  rfl

/-! ## Shape of the base64 text -/

theorem alphabet_plain : ∀ c ∈ alphabet, c ≠ quoteChar ∧ c ≠ backslashChar ∧ c ≠ '=' := by
  decide

/-- The base64 text is a run of digits followed by no, one or two `=`. -/
theorem toBase64_digits_pad (bs : List Byte) :
    ∃ digits pad, toBase64 bs = digits ++ pad ∧ (∀ c ∈ digits, c ∈ alphabet) ∧
      (pad = [] ∨ pad = ['='] ∨ pad = ['=', '=']) := by
  induction bs using toBase64.induct with
  | case1 => exact ⟨[], [], rfl, by simp, Or.inl rfl⟩
  | case2 a =>
    refine ⟨[encChar (a.val / 4), encChar (a.val % 4 * 16)], ['=', '='], rfl, ?_,
      Or.inr (Or.inr rfl)⟩
    intro c hc
    simp only [List.mem_cons, List.mem_singleton, List.not_mem_nil, or_false] at hc
    rcases hc with rfl | rfl <;> exact encChar_mem _
  | case3 a b =>
    refine ⟨[encChar (a.val / 4), encChar (a.val % 4 * 16 + b.val / 16),
      encChar (b.val % 16 * 4)], ['='], rfl, ?_, Or.inr (Or.inl rfl)⟩
    intro c hc
    simp only [List.mem_cons, List.mem_singleton, List.not_mem_nil, or_false] at hc
    rcases hc with rfl | rfl | rfl <;> exact encChar_mem _
  | case4 a b c rest ih =>
    obtain ⟨digits, pad, h1, h2, h3⟩ := ih
    refine ⟨encChar (a.val / 4) :: encChar (a.val % 4 * 16 + b.val / 16) ::
      encChar (b.val % 16 * 4 + c.val / 64) :: encChar (c.val % 64) :: digits, pad, ?_, ?_, h3⟩
    · simp [toBase64, h1]
    · intro x hx
      simp only [List.mem_cons] at hx
      rcases hx with rfl | rfl | rfl | rfl | hx
      · exact encChar_mem _
      · exact encChar_mem _
      · exact encChar_mem _
      · exact encChar_mem _
      · exact h2 x hx

theorem toBase64_length (bs : List Byte) :
    (toBase64 bs).length = 4 * ((bs.length + 2) / 3) := by
  induction bs using toBase64.induct with
  | case1 => rfl
  | case2 a => simp [toBase64]
  | case3 a b => simp [toBase64]
  | case4 a b c rest ih =>
    simp only [toBase64, List.length_cons, ih]
    omega

theorem header_eq (b64 : List Char) :
    header b64 = headerComment ++ '\n' :: (payloadLine b64 ++ '\n' :: ([] ++ ['\n'])) := by
  have e : ("// @ts-nocheck\n" ++
      "// Auto-generated from lib/rumina_bg.js and lib/rumina_bg.wasm\n" ++
      "// Do not edit manually\n" ++
      "\n" ++
      "// Inlined WASM binary (base64 encoded)\n" ++
      "const wasmBase64 = '").toList
      = headerComment ++ '\n' :: "const wasmBase64 = '".toList := by decide
  rw [header, e, payloadLine]
  simp

theorem noLT_payloadLine (b64 : List Char) (h : NoLT b64) : NoLT (payloadLine b64) :=
  NoLT_append (NoLT_append (by intro c hc; revert c; decide) h)
    (by intro c hc; revert c; decide)

theorem lines_header (b64 : List Char) (h : NoLT b64) :
    lines (header b64) = lines headerComment ++ [payloadLine b64, [], []] := by
  rw [header_eq, lines_append_lt _ '\n' _ (by decide),
    lines_line_append _ '\n' _ (noLT_payloadLine b64 h) (by decide)]
  rfl

/-! ## What lines 21-22 do to a line -/

theorem demoteLine_eq (l : List Char) :
    demoteLine l
      = if "export function ".toList <+: l ∨ "export const ".toList <+: l then l.drop 7
        else l := by
  by_cases h1 : "export function ".toList <+: l
  · rw [if_pos (Or.inl h1)]
    obtain ⟨v, rfl⟩ := h1
    rw [demoteLine_export_function]
    rfl
  · by_cases h2 : "export const ".toList <+: l
    · rw [if_pos (Or.inr h2)]
      obtain ⟨v, rfl⟩ := h2
      rw [demoteLine, replaceLineStart_neg h1, replaceLineStart_append]
      rfl
    · rw [if_neg (by tauto), demoteLine_of_no_export l h1 h2]

/-! ## The names the pattern of line 36 captures -/

theorem scanAll_binding_isBindingName (x n : List Char) (hn : n ∈ scanAll bindingRegex x) :
    IsBindingName n := by
  obtain ⟨q, y, st, hst, rfl⟩ := scanFrom_mem _ x 0 none n hn
  obtain ⟨e, u, sp, _, _, hu, _, hcap, _, _⟩ := bindingRegex_exec hst
  rw [hcap]
  rcases hu with ⟨g, w, rfl, hg, hw1, hw2⟩ | ⟨w, rfl, hw1, hw2⟩
  · exact Or.inl ⟨g, w, rfl, hg, hw1, hw2⟩
  · exact Or.inr ⟨w, rfl, hw1, hw2⟩

theorem IsBindingName.starts {n : List Char} (h : IsBindingName n) :
    "__wb_".toList <+: n ∨ "__wbg_".toList <+: n ∨ "__wbindgen_".toList <+: n := by
  rcases h with ⟨g, w, rfl, hg, _⟩ | ⟨w, rfl, _⟩
  · rcases hg with rfl | rfl
    · exact Or.inl ⟨w, by simp⟩
    · exact Or.inr (Or.inl ⟨w, by simp⟩)
  · exact Or.inr (Or.inr ⟨w, rfl⟩)

/-! ## Declarations at column 0 -/

theorem takeWhile_run (p : Char → Bool) (u : List Char) (c : Char) (r : List Char)
    (hu : ∀ x ∈ u, p x = true) (hc : p c = false) :
    (u ++ c :: r).takeWhile p = u ∧ (u ++ c :: r).dropWhile p = c :: r := by
  induction u with
  | nil => simp [List.takeWhile, List.dropWhile, hc]
  | cons d u ih =>
    have hd : p d = true := hu d (List.mem_cons_self _ _)
    obtain ⟨i1, i2⟩ := ih (fun x hx => hu x (List.mem_cons_of_mem _ hx))
    simp [List.takeWhile, List.dropWhile, hd, i1, i2]

theorem opensParen_of (sp rest : List Char) (hsp : ∀ c ∈ sp, isSpace c = true) :
    opensParen (sp ++ '(' :: rest) = true := by
  unfold opensParen
  rw [(takeWhile_run isSpace sp '(' rest hsp (by decide)).2]
  rfl

theorem opensParen_iff (z : List Char) :
    opensParen z = true ↔
      ∃ sp rest, z = sp ++ '(' :: rest ∧ ∀ c ∈ sp, isSpace c = true := by
  constructor
  · intro h
    unfold opensParen at h
    refine ⟨z.takeWhile isSpace, (z.dropWhile isSpace).tail, ?_, ?_⟩
    · cases hd : z.dropWhile isSpace with
      | nil => rw [hd] at h; simp at h
      | cons c r =>
        rw [hd] at h
        have hc : c = '(' := by simpa using h
        have := List.takeWhile_append_dropWhile isSpace z
        rw [hd, hc] at this
        rw [List.tail_cons]
        exact this.symm
    · intro c hc
      exact (List.mem_takeWhile_imp hc)
  · rintro ⟨sp, rest, rfl, hsp⟩
    exact opensParen_of sp rest hsp

theorem isSpace_ne_paren {c : Char} (h : isSpace c = true) : c ≠ '(' := by
  rintro rfl
  exact absurd h (by decide)

theorem declNameAfterKeyword_of (u sp rest : List Char) (hu : IsName u)
    (hsp : ∀ c ∈ sp, isSpace c = true) :
    declNameAfterKeyword (u ++ (sp ++ '(' :: rest)) = some u := by
  have hsplit : ∃ c r, sp ++ '(' :: rest = c :: r ∧ isWord c = false := by
    cases sp with
    | nil => exact ⟨'(', rest, rfl, by decide⟩
    | cons c sp =>
      exact ⟨c, sp ++ '(' :: rest, rfl, isSpace_not_isWord (hsp c (List.mem_cons_self _ _))⟩
  obtain ⟨c, r, hcr, hc⟩ := hsplit
  have ht := takeWhile_run isWord u c r hu.2 hc
  unfold declNameAfterKeyword
  rw [hcr, ht.1, ht.2, ← hcr, opensParen_of sp rest hsp, if_pos ⟨hu.1, rfl⟩]

theorem declNameAfterKeyword_some {x u : List Char} (h : declNameAfterKeyword x = some u) :
    ∃ sp rest, x = u ++ (sp ++ '(' :: rest) ∧ IsName u ∧ ∀ c ∈ sp, isSpace c = true := by
  unfold declNameAfterKeyword at h
  split at h
  · next hc =>
    have hu : x.takeWhile isWord = u := Option.some.inj h
    obtain ⟨sp, rest, hz, hsp⟩ := (opensParen_iff _).1 hc.2
    refine ⟨sp, rest, ?_, ⟨by rw [← hu]; exact hc.1, ?_⟩, hsp⟩
    · rw [← hz, ← hu]
      exact (List.takeWhile_append_dropWhile isWord x).symm
    · intro c hcu
      rw [← hu] at hcu
      exact List.mem_takeWhile_imp hcu
  · exact absurd h (by simp)

theorem declNameAt_false_some {x u : List Char} (h : declNameAt false x = some u) :
    ∃ sp rest, x = "function ".toList ++ u ++ (sp ++ '(' :: rest) ∧ IsName u ∧
      ∀ c ∈ sp, isSpace c = true := by
  unfold declNameAt at h
  split at h
  · next hp =>
    obtain ⟨v, rfl⟩ := hp
    have hd : ("function ".toList ++ v).drop 9 = v := rfl
    rw [hd] at h
    obtain ⟨sp, rest, rfl, hu, hsp⟩ := declNameAfterKeyword_some h
    exact ⟨sp, rest, by simp, hu, hsp⟩
  · simp at h

theorem declNameAt_function (ok : Bool) (v : List Char) :
    declNameAt ok ("function ".toList ++ v) = declNameAfterKeyword v := by
  unfold declNameAt
  rw [if_pos (List.prefix_append _ _)]
  have hd : ("function ".toList ++ v).drop 9 = v := rfl
  rw [hd]

theorem declNameAt_export_function (v : List Char) :
    declNameAt true ("export function ".toList ++ v) = declNameAfterKeyword v := by
  unfold declNameAt
  have hn : ¬ "function ".toList <+: "export function ".toList ++ v :=
    cons_not_prefix_cons (c := 'f') (d := 'e') (by decide)
  rw [if_neg hn, if_pos ⟨rfl, List.prefix_append _ _⟩]
  have hd : ("export function ".toList ++ v).drop 16 = v := rfl
  rw [hd]

theorem declNameAt_true_some {x u : List Char} (h : declNameAt true x = some u) :
    ∃ e sp rest, x = e ++ "function ".toList ++ u ++ (sp ++ '(' :: rest) ∧
      (e = [] ∨ e = "export ".toList) ∧ IsName u ∧ ∀ c ∈ sp, isSpace c = true := by
  by_cases hp : "function ".toList <+: x
  · obtain ⟨v, rfl⟩ := hp
    rw [declNameAt_function] at h
    obtain ⟨sp, rest, rfl, hu, hsp⟩ := declNameAfterKeyword_some h
    exact ⟨[], sp, rest, by simp, Or.inl rfl, hu, hsp⟩
  · by_cases hq : "export function ".toList <+: x
    · obtain ⟨v, rfl⟩ := hq
      rw [declNameAt_export_function] at h
      obtain ⟨sp, rest, rfl, hu, hsp⟩ := declNameAfterKeyword_some h
      exact ⟨"export ".toList, sp, rest, by simp, Or.inr rfl, hu, hsp⟩
    · unfold declNameAt at h
      rw [if_neg hp, if_neg (fun hc => hq hc.2)] at h
      exact absurd h (by simp)

theorem declNameAt_head (ok : Bool) (c : Char) (y : List Char) (h1 : c ≠ 'f')
    (h2 : c ≠ 'e') : declNameAt ok (c :: y) = none := by
  have hn1 : ¬ "function ".toList <+: c :: y :=
    cons_not_prefix_cons (c := 'f') (Ne.symm h1)
  have hn2 : ¬ "export function ".toList <+: c :: y :=
    cons_not_prefix_cons (c := 'e') (Ne.symm h2)
  unfold declNameAt
  rw [if_neg hn1, if_neg (fun hc => hn2 hc.2)]

theorem declNameAt_nil (ok : Bool) : declNameAt ok [] = none := by
  cases ok <;> decide

theorem isBindingName_iff (u : List Char) : isBindingName u = true ↔ IsBindingName u := by
  constructor
  · intro h
    simp only [isBindingName, Bool.and_eq_true, Bool.or_eq_true, decide_eq_true_eq,
      List.all_eq_true] at h
    obtain ⟨hw, h⟩ := h
    rcases h with (⟨⟨w, rfl⟩, hl⟩ | ⟨⟨w, rfl⟩, hl⟩) | ⟨⟨w, rfl⟩, hl⟩
    · refine Or.inl ⟨[], w, by simp, Or.inl rfl, ?_, fun c hc => hw c (by simp [hc])⟩
      intro hw0
      rw [hw0] at hl
      simp at hl
    · refine Or.inl ⟨"g".toList, w, by simp, Or.inr rfl, ?_, fun c hc => hw c (by simp [hc])⟩
      intro hw0
      rw [hw0] at hl
      simp at hl
    · refine Or.inr ⟨w, rfl, ?_, fun c hc => hw c (by simp [hc])⟩
      intro hw0
      rw [hw0] at hl
      simp at hl
  · intro h
    have hn := h.isName
    simp only [isBindingName, Bool.and_eq_true, Bool.or_eq_true, decide_eq_true_eq,
      List.all_eq_true]
    refine ⟨hn.2, ?_⟩
    rcases h with ⟨g, w, rfl, hg, hw1, _⟩ | ⟨w, rfl, hw1, _⟩
    · have hl : 0 < w.length := List.length_pos.2 hw1
      rcases hg with rfl | rfl
      · exact Or.inl (Or.inl ⟨⟨w, by simp⟩, by simp; omega⟩)
      · exact Or.inl (Or.inr ⟨⟨w, by simp⟩, by simp; omega⟩)
    · have hl : 0 < w.length := List.length_pos.2 hw1
      exact Or.inr ⟨⟨w, rfl⟩, by simp; omega⟩


/-! ## A match attempt of a declaration pattern, as a function of the text -/

theorem functionRegex_exec_isSome (p : Option Char) (hp : atLineStart p = true)
    (u sp rest : List Char) (hu : IsName u) (hsp : ∀ c ∈ sp, isSpace c = true) :
    (functionRegex.exec p ("function ".toList ++ u ++ (sp ++ '(' :: rest))).isSome = true := by
  have hm : functionRegex.Matches p ("function ".toList ++ u ++ (sp ++ "(".toList)) rest :=
    ⟨[], _, rfl, ⟨rfl, hp⟩, "function ".toList, u ++ (sp ++ "(".toList), by simp, rfl,
      u, sp ++ "(".toList, rfl, ⟨hu.1, hu.2⟩, sp, "(".toList, rfl, hsp, rfl⟩
  exact (Re.exec_isSome_iff functionRegex p _).2 ⟨_, rest, by simp, hm⟩

theorem bindingRegex_exec_isSome (p : Option Char) (hp : atLineStart p = true)
    (e u sp rest : List Char) (he : e = [] ∨ e = "export ".toList) (hu : IsBindingName u)
    (hsp : ∀ c ∈ sp, isSpace c = true) :
    (bindingRegex.exec p (e ++ "function ".toList ++ u ++ (sp ++ '(' :: rest))).isSome
      = true := by
  have hm : bindingRegex.Matches p (e ++ "function ".toList ++ u ++ (sp ++ "(".toList)) rest :=
    ⟨[], _, rfl, ⟨rfl, hp⟩, e, "function ".toList ++ u ++ (sp ++ "(".toList), by simp, he,
      "function ".toList, u ++ (sp ++ "(".toList), by simp, rfl,
      u, sp ++ "(".toList, rfl, bindingName_matches_of _ u _ hu, sp, "(".toList, rfl, hsp, rfl⟩
  exact (Re.exec_isSome_iff bindingRegex p _).2 ⟨_, rest, by simp, hm⟩

/-- At the start of a line, the pattern of line 27 matches exactly when the text reads
`function N`, optional white space and `(`, and capture group 1 is `N`. -/
theorem functionRegex_exec_eq (p : Option Char) (hp : atLineStart p = true) (x : List Char) :
    (functionRegex.exec p x).map capOf = declNameAt false x := by
  cases hx : functionRegex.exec p x with
  | some st =>
    obtain ⟨u, sp, h1, hu1, hu2, hsp, hcap, _, _⟩ := functionRegex_exec hx
    have e : x = "function ".toList ++ (u ++ (sp ++ '(' :: st.rest)) := by
      rw [h1]; simp
    rw [e, declNameAt_function, declNameAfterKeyword_of u sp _ ⟨hu1, hu2⟩ hsp]
    simp [capOf, hcap]
  | none =>
    cases hd : declNameAt false x with
    | none => rfl
    | some u =>
      obtain ⟨sp, rest, rfl, hu, hsp⟩ := declNameAt_false_some hd
      have := functionRegex_exec_isSome p hp u sp rest hu hsp
      rw [hx] at this
      exact absurd this (by simp)

/-- At the start of a line, the pattern of line 36 matches exactly when the text reads
`function N` or `export function N`, optional white space and `(`, with `N` a binding
name, and capture group 1 is `N`. -/
theorem bindingRegex_exec_eq (p : Option Char) (hp : atLineStart p = true) (x : List Char) :
    (bindingRegex.exec p x).map capOf = bindingNameAt x := by
  cases hx : bindingRegex.exec p x with
  | some st =>
    obtain ⟨e, u, sp, h1, he, hu, hsp, hcap, _, _⟩ := bindingRegex_exec hx
    have hub : IsBindingName u := hu
    have hd : declNameAt true x = some u := by
      rcases he with rfl | rfl
      · have e : x = "function ".toList ++ (u ++ (sp ++ '(' :: st.rest)) := by
          rw [h1]; simp
        rw [e, declNameAt_function, declNameAfterKeyword_of u sp _ hub.isName hsp]
      · have e : x = "export function ".toList ++ (u ++ (sp ++ '(' :: st.rest)) := by
          rw [h1]; simp
        rw [e, declNameAt_export_function, declNameAfterKeyword_of u sp _ hub.isName hsp]
    rw [bindingNameAt, hd]
    simp [capOf, hcap, Option.filter, (isBindingName_iff u).2 hub]
  | none =>
    cases hd : bindingNameAt x with
    | none => rfl
    | some u =>
      unfold bindingNameAt at hd
      cases hd2 : declNameAt true x with
      | none => rw [hd2] at hd; simp [Option.filter] at hd
      | some v =>
        rw [hd2] at hd
        simp only [Option.filter] at hd
        split at hd
        · next hb =>
          obtain ⟨e, sp, rest, rfl, he, _, hsp⟩ := declNameAt_true_some hd2
          have := bindingRegex_exec_isSome p hp e v sp rest he ((isBindingName_iff v).1 hb) hsp
          rw [hx] at this
          exact absurd this (by simp)
        · exact absurd hd (by simp)

/-! ## The `exec` loop finds the name at every column-0 position -/

theorem namesAtLineStarts_copy (A : List Char → Option (List Char)) (l : List Char) :
    ∀ (p : Option Char) (y : List Char), atLineStart p = false → NoLT l →
      namesAtLineStarts A p (l ++ y) = namesAtLineStarts A (prevAfter p l) y := by
  induction l with
  | nil => intro p y _ _; rfl
  | cons c l ih =>
    intro p y hp hl
    show namesAtLineStarts A p (c :: (l ++ y)) = _
    rw [namesAtLineStarts, hp,
      ih (some c) y (hl c (List.mem_cons_self _ _)) (fun x hx => hl x (List.mem_cons_of_mem _ hx))]
    rfl

theorem namesAtLineStarts_dead (A : List Char → Option (List Char)) (b : List Char) :
    ∀ (p : Option Char) (y : List Char), (∀ c ∈ b, ∀ z, A (c :: z) = none) →
      namesAtLineStarts A p (b ++ y) = namesAtLineStarts A (prevAfter p b) y := by
  induction b with
  | nil => intro p y _; rfl
  | cons c b ih =>
    intro p y hb
    show namesAtLineStarts A p (c :: (b ++ y)) = _
    rw [namesAtLineStarts, hb c (List.mem_cons_self _ _),
      ih (some c) y (fun x hx => hb x (List.mem_cons_of_mem _ hx))]
    simp [prevAfter]

/-- The loop over a pattern that is anchored at the start of a line, whose match
attempt at the start of a line is the function `A` of the text, and whose matches hide
no other column-0 position where `A` finds a name, pushes the names that `A` finds at
the column-0 positions of the text. -/
theorem scanFrom_eq_namesAtLineStarts (re : Re) (A : List Char → Option (List Char))
    (h1 : LineAnchored re)
    (h2 : ∀ p x, atLineStart p = true → (re.exec p x).map capOf = A x)
    (h3 : ∀ p x st, re.exec p x = some st →
      ∃ a b, x = a ++ b ++ st.rest ∧ st.len = (a ++ b).length ∧ a ≠ [] ∧ NoLT a ∧
        ∀ c ∈ b, ∀ z, A (c :: z) = none) :
    ∀ (n : Nat) (x : List Char), x.length = n →
      ∀ p, scanFrom re 0 p x = namesAtLineStarts A p x := by
  intro n
  induction n using Nat.strong_induction_on with
  | _ n ih =>
    intro x hn p
    cases x with
    | nil => rfl
    | cons c cs =>
      have hcs : cs.length < n := by rw [← hn]; simp
      cases hx : re.exec p (c :: cs) with
      | none =>
        rw [scanFrom_none p c cs hx, ih cs.length hcs cs rfl (some c), namesAtLineStarts]
        cases hp : atLineStart p with
        | false => simp
        | true =>
          have := h2 p (c :: cs) hp
          rw [hx] at this
          simp only [Option.map_none'] at this
          simp [← this]
      | some st =>
        have hp : atLineStart p = true := by
          cases hp : atLineStart p with
          | true => rfl
          | false =>
            have := h1.1 p (c :: cs) hp
            rw [hx] at this
            exact absurd this (by simp)
        obtain ⟨a, b, hab, hlen, hane, haLT, hb⟩ := h3 p (c :: cs) st hx
        have hA : A (c :: cs) = some (capOf st) := by
          have := h2 p (c :: cs) hp
          rw [hx] at this
          exact this.symm
        have hrest : st.rest.length < n := by
          rw [← hn, hab]
          have : 0 < a.length := List.length_pos.2 hane
          simp only [List.length_append]
          omega
        rw [scanFrom_match p (c :: cs) st hx (a ++ b) hab hlen (by simp [hane]),
          ih st.rest.length hrest st.rest rfl]
        cases a with
        | nil => exact absurd rfl hane
        | cons d a =>
          have hdc : c = d ∧ cs = a ++ b ++ st.rest := by
            simp only [List.cons_append, List.cons.injEq] at hab
            exact ⟨hab.1, by rw [hab.2]⟩
          obtain ⟨rfl, hcs2⟩ := hdc
          rw [namesAtLineStarts, hp, hA, hcs2, List.append_assoc,
            namesAtLineStarts_copy A a (some c) _ (haLT c (List.mem_cons_self _ _))
              (fun x hx => haLT x (List.mem_cons_of_mem _ hx)),
            namesAtLineStarts_dead A b _ _ hb]
          simp [capOf, prevAfter, prevAfter_append]

theorem isSpace_or_paren_not_keyword (ok : Bool) (sp : List Char)
    (hsp : ∀ c ∈ sp, isSpace c = true) :
    ∀ c ∈ sp ++ "(".toList, ∀ z, declNameAt ok (c :: z) = none := by
  intro c hc z
  rcases List.mem_append.1 hc with h | h
  · have hw := isSpace_not_isWord (hsp c h)
    refine declNameAt_head ok c z ?_ ?_
    · rintro rfl; exact absurd hw (by decide)
    · rintro rfl; exact absurd hw (by decide)
  · have : c = '(' := by simpa using h
    rw [this]
    exact declNameAt_head ok '(' z (by decide) (by decide)

/-- The loop of lines 28-34 pushes the name of every column-0 declaration
`function N(` of the text it scans. -/
theorem scanAll_function_eq (x : List Char) :
    scanAll functionRegex x = columnZeroDeclarations false x := by
  refine scanFrom_eq_namesAtLineStarts functionRegex (declNameAt false)
    lineAnchored_functionRegex (fun p x hp => functionRegex_exec_eq p hp x) ?_ x.length x rfl none
  intro p x st hx
  obtain ⟨u, sp, h1, hu1, hu2, hsp, _, hlen, _⟩ := functionRegex_exec hx
  refine ⟨"function ".toList ++ u, sp ++ "(".toList, by rw [h1]; simp, by rw [hlen]; simp,
    by simp, NoLT_append noLT_function (IsName.noLT ⟨hu1, hu2⟩),
    isSpace_or_paren_not_keyword false sp hsp⟩

theorem namesAtLineStarts_filter (A : List Char → Option (List Char))
    (q : List Char → Bool) (x : List Char) :
    ∀ p, namesAtLineStarts (fun z => (A z).filter q) p x
      = (namesAtLineStarts A p x).filter q := by
  induction x with
  | nil => intro p; rfl
  | cons c cs ih =>
    intro p
    rw [namesAtLineStarts, namesAtLineStarts, List.filter_append, ih]
    congr 1
    cases atLineStart p with
    | false => simp
    | true =>
      cases hA : A (c :: cs) with
      | none => simp [Option.filter]
      | some u =>
        cases hq : q u <;> simp [Option.filter, hq]

/-- The loop of lines 38-44 pushes the name of every column-0 declaration
`function N(` or `export function N(` whose name is a binding name. -/
theorem scanAll_binding_eq (x : List Char) :
    scanAll bindingRegex x = (columnZeroDeclarations true x).filter isBindingName := by
  rw [columnZeroDeclarations, ← namesAtLineStarts_filter]
  refine scanFrom_eq_namesAtLineStarts bindingRegex bindingNameAt
    lineAnchored_bindingRegex (fun p x hp => bindingRegex_exec_eq p hp x) ?_ x.length x rfl none
  intro p x st hx
  obtain ⟨e, u, sp, h1, he, hu, hsp, _, hlen, _⟩ := bindingRegex_exec hx
  have hub : IsBindingName u := hu
  refine ⟨e ++ "function ".toList ++ u, sp ++ "(".toList, by rw [h1]; simp,
    by rw [hlen]; simp, by simp, ?_, ?_⟩
  · refine NoLT_append (NoLT_append ?_ noLT_function) hub.isName.noLT
    rcases he with rfl | rfl
    · simp [NoLT]
    · intro c hc; revert c; decide
  · intro c hc z
    have := isSpace_or_paren_not_keyword true sp hsp c hc z
    simp [bindingNameAt, this, Option.filter]


/-! ## Declarations before and after lines 21-22 -/

theorem opensParen_cons_space (c : Char) (z : List Char) (hc : isSpace c = true) :
    opensParen (c :: z) = opensParen z := by
  simp [opensParen, List.dropWhile, hc]

theorem opensParen_cons_other (c : Char) (z : List Char) (hc : isSpace c = false) :
    opensParen (c :: z) = (c == '(') := by
  simp [opensParen, List.dropWhile, hc]

theorem opensParen_append (a b : List Char) :
    opensParen (a ++ b) = if a.all isSpace = true then opensParen b else opensParen a := by
  induction a with
  | nil => simp
  | cons c a ih =>
    cases hc : isSpace c with
    | true =>
      rw [List.cons_append, opensParen_cons_space c _ hc, ih, opensParen_cons_space c a hc]
      simp [hc]
    | false =>
      rw [List.cons_append, opensParen_cons_other c _ hc, opensParen_cons_other c a hc]
      simp [hc]

/-- When the texts `z` and `w` open a parenthesis alike, so do `a ++ z` and `a ++ w`. -/
theorem opensParen_append_congr (a z w : List Char) (h : opensParen z = opensParen w) :
    opensParen (a ++ z) = opensParen (a ++ w) := by
  rw [opensParen_append, opensParen_append, h]

theorem demoteLine_cases_head (l : List Char) :
    demoteLine l = l ∨
      ∃ v w c, l = 'e' :: v ∧ demoteLine l = c :: w ∧ isSpace c = false ∧ c ≠ '(' := by
  by_cases h1 : "export function ".toList <+: l
  · obtain ⟨v, rfl⟩ := h1
    exact Or.inr ⟨"xport function ".toList ++ v, "unction ".toList ++ v, 'f', rfl,
      by rw [demoteLine_export_function]; rfl, by decide, by decide⟩
  · by_cases h2 : "export const ".toList <+: l
    · obtain ⟨v, rfl⟩ := h2
      refine Or.inr ⟨"xport const ".toList ++ v, "onst ".toList ++ v, 'c', rfl, ?_,
        by decide, by decide⟩
      rw [demoteLine, replaceLineStart_neg h1, replaceLineStart_append]
      rfl
    · exact Or.inl (demoteLine_of_no_export l h1 h2)

/-- A line and the line after lines 21-22 open a parenthesis alike, whatever texts
follow them, as long as those texts open a parenthesis alike. -/
theorem opensParen_demoteLine (l z w : List Char) (h : opensParen z = opensParen w) :
    opensParen (demoteLine l ++ z) = opensParen (l ++ w) := by
  rcases demoteLine_cases_head l with hl | ⟨v, u, c, rfl, hd, hc1, hc2⟩
  · rw [hl]
    exact opensParen_append_congr l z w h
  · rw [hd, List.cons_append, List.cons_append, opensParen_cons_other c _ hc1,
      opensParen_cons_other 'e' _ (by decide)]
    have : (c == '(') = false := by simpa using hc2
    rw [this]
    rfl

theorem isSpace_of_lineTerminator {t : Char} (h : isLineTerminator t = true) :
    isSpace t = true := by
  simp [isSpace, h]

/-- A text and the text after lines 21-22 open a parenthesis alike. -/
theorem opensParen_mapLines_demoteLine (r : List Char) :
    opensParen (mapLines demoteLine r) = opensParen r := by
  induction r using line_induction with
  | h1 l hl =>
    rw [mapLines_line _ l hl]
    have := opensParen_demoteLine l [] [] rfl
    simpa using this
  | h2 l t r hl ht ih =>
    rw [mapLines_append _ l t r hl ht]
    refine opensParen_demoteLine l _ _ ?_
    rw [opensParen_cons_space t _ (isSpace_of_lineTerminator ht),
      opensParen_cons_space t _ (isSpace_of_lineTerminator ht), ih]

theorem takeWhile_word_line (v y : List Char) (hy : AtEol y) :
    (v ++ y).takeWhile isWord = v.takeWhile isWord ∧
      (v ++ y).dropWhile isWord = v.dropWhile isWord ++ y := by
  induction v with
  | nil =>
    rcases hy with rfl | ⟨t, r, rfl, ht⟩
    · simp
    · have hw : isWord t = false := isSpace_not_isWord (isSpace_of_lineTerminator ht)
      simp [List.takeWhile, List.dropWhile, hw]
  | cons c v ih =>
    cases hc : isWord c with
    | true => simp [List.takeWhile, List.dropWhile, hc, ih.1, ih.2]
    | false => simp [List.takeWhile, List.dropWhile, hc]

/-- The name read after the keyword depends on the text after the line only through
whether that text opens a parenthesis. -/
theorem declNameAfterKeyword_congr (v y w : List Char) (hy : AtEol y) (hw : AtEol w)
    (h : opensParen y = opensParen w) :
    declNameAfterKeyword (v ++ y) = declNameAfterKeyword (v ++ w) := by
  unfold declNameAfterKeyword
  rw [(takeWhile_word_line v y hy).1, (takeWhile_word_line v y hy).2,
    (takeWhile_word_line v w hw).1, (takeWhile_word_line v w hw).2,
    opensParen_append_congr _ y w h]

theorem declNameAt_line_none (ok : Bool) (l y : List Char) (hy : AtEol y)
    (h1 : ¬ "function ".toList <+: l) (h2 : ¬ "export function ".toList <+: l) :
    declNameAt ok (l ++ y) = none := by
  have n1 : ¬ "function ".toList <+: l ++ y := by
    rintro ⟨r, hr⟩
    obtain ⟨v, hv⟩ := prefix_of_line noLT_function hy hr.symm
    exact h1 ⟨v, hv.symm⟩
  have n2 : ¬ "export function ".toList <+: l ++ y := by
    rintro ⟨r, hr⟩
    obtain ⟨v, hv⟩ := prefix_of_line noLT_export_function hy hr.symm
    exact h2 ⟨v, hv.symm⟩
  unfold declNameAt
  rw [if_neg n1, if_neg (fun hc => n2 hc.2)]

/-- The declaration at the start of a line of the text after lines 21-22 is the
declaration, exported or not, at the start of the line before them. -/
theorem declNameAt_demoteLine (l y w : List Char) (hy : AtEol y) (hw : AtEol w)
    (h : opensParen y = opensParen w) :
    declNameAt false (demoteLine l ++ y) = declNameAt true (l ++ w) := by
  by_cases h1 : "export function ".toList <+: l
  · obtain ⟨v, rfl⟩ := h1
    rw [demoteLine_export_function, List.append_assoc, List.append_assoc,
      declNameAt_function, declNameAt_export_function]
    exact declNameAfterKeyword_congr v y w hy hw h
  · by_cases h2 : "function ".toList <+: l
    · obtain ⟨v, rfl⟩ := h2
      rw [demoteLine_function, List.append_assoc, List.append_assoc,
        declNameAt_function, declNameAt_function]
      exact declNameAfterKeyword_congr v y w hy hw h
    · rw [declNameAt_line_none true l w hw h2 h1]
      refine declNameAt_line_none false _ y hy ?_ (demoteLine_no_export l).1
      intro hc
      rcases function_prefix_of_demoteLine l hc with h | h
      · exact h2 h
      · exact h1 h

theorem declNameAt_true_eq_false (z : List Char) (h : ¬ "export function ".toList <+: z) :
    declNameAt true z = declNameAt false z := by
  unfold declNameAt
  by_cases h1 : "function ".toList <+: z
  · rw [if_pos h1, if_pos h1]
  · rw [if_neg h1, if_neg h1, if_neg (fun hc => h hc.2), if_neg (by simp)]

theorem declNameAt_true_demoteLine (l y w : List Char) (hy : AtEol y) (hw : AtEol w)
    (h : opensParen y = opensParen w) :
    declNameAt true (demoteLine l ++ y) = declNameAt true (l ++ w) := by
  rw [← declNameAt_demoteLine l y w hy hw h]
  apply declNameAt_true_eq_false
  rintro ⟨r, hr⟩
  obtain ⟨v, hv⟩ := prefix_of_line noLT_export_function hy hr.symm
  exact (demoteLine_no_export l).1 ⟨v, hv.symm⟩

theorem namesAtLineStarts_line (A : List Char → Option (List Char)) (hA : A [] = none)
    (p : Option Char) (hp : atLineStart p = true) (l : List Char) (hl : NoLT l) :
    namesAtLineStarts A p l = (A l).toList := by
  cases l with
  | nil => simp [namesAtLineStarts, hA]
  | cons c l =>
    have := namesAtLineStarts_copy A l (some c) [] (hl c (List.mem_cons_self _ _))
      (fun x hx => hl x (List.mem_cons_of_mem _ hx))
    rw [List.append_nil] at this
    rw [namesAtLineStarts, hp, this]
    cases prevAfter (some c) l <;> simp [namesAtLineStarts]

theorem namesAtLineStarts_line_lt (A : List Char → Option (List Char))
    (p : Option Char) (hp : atLineStart p = true) (l : List Char) (t : Char) (r : List Char)
    (hl : NoLT l) :
    namesAtLineStarts A p (l ++ t :: r)
      = (A (l ++ t :: r)).toList ++ namesAtLineStarts A (some t) r := by
  cases l with
  | nil => simp [namesAtLineStarts, hp]
  | cons c l =>
    show namesAtLineStarts A p (c :: (l ++ t :: r)) = _
    rw [namesAtLineStarts, hp,
      namesAtLineStarts_copy A l (some c) _ (hl c (List.mem_cons_self _ _))
        (fun x hx => hl x (List.mem_cons_of_mem _ hx)),
      namesAtLineStarts, prevAfter_not_lineStart (p := some c) (hl c (List.mem_cons_self _ _))
        (fun x hx => hl x (List.mem_cons_of_mem _ hx))]
    simp

/-- The column-0 declarations `function N(` of the text after lines 21-22 are the
column-0 declarations, exported or not, of the text before them. -/
theorem namesAtLineStarts_demote_false (x : List Char) :
    ∀ p, atLineStart p = true →
      namesAtLineStarts (declNameAt false) p (mapLines demoteLine x)
        = namesAtLineStarts (declNameAt true) p x := by
  induction x using line_induction with
  | h1 l hl =>
    intro p hp
    rw [mapLines_line _ l hl,
      namesAtLineStarts_line _ (declNameAt_nil false) p hp _ (NoLT_demoteLine hl),
      namesAtLineStarts_line _ (declNameAt_nil true) p hp l hl]
    have := declNameAt_demoteLine l [] [] (Or.inl rfl) (Or.inl rfl) rfl
    rw [List.append_nil, List.append_nil] at this
    rw [this]
  | h2 l t r hl ht ih =>
    intro p hp
    rw [mapLines_append _ l t r hl ht,
      namesAtLineStarts_line_lt _ p hp _ t _ (NoLT_demoteLine hl),
      namesAtLineStarts_line_lt _ p hp l t r hl, ih (some t) ht,
      declNameAt_demoteLine l (t :: mapLines demoteLine r) (t :: r)
        (Or.inr ⟨t, _, rfl, ht⟩) (Or.inr ⟨t, r, rfl, ht⟩)
        (by rw [opensParen_cons_space t _ (isSpace_of_lineTerminator ht),
          opensParen_cons_space t _ (isSpace_of_lineTerminator ht),
          opensParen_mapLines_demoteLine])]

/-- Lines 21-22 do not change the column-0 declarations, exported or not, of a
text. -/
theorem namesAtLineStarts_demote_true (x : List Char) :
    ∀ p, atLineStart p = true →
      namesAtLineStarts (declNameAt true) p (mapLines demoteLine x)
        = namesAtLineStarts (declNameAt true) p x := by
  induction x using line_induction with
  | h1 l hl =>
    intro p hp
    rw [mapLines_line _ l hl,
      namesAtLineStarts_line _ (declNameAt_nil true) p hp _ (NoLT_demoteLine hl),
      namesAtLineStarts_line _ (declNameAt_nil true) p hp l hl]
    have := declNameAt_true_demoteLine l [] [] (Or.inl rfl) (Or.inl rfl) rfl
    rw [List.append_nil, List.append_nil] at this
    rw [this]
  | h2 l t r hl ht ih =>
    intro p hp
    rw [mapLines_append _ l t r hl ht,
      namesAtLineStarts_line_lt _ p hp _ t _ (NoLT_demoteLine hl),
      namesAtLineStarts_line_lt _ p hp l t r hl, ih (some t) ht,
      declNameAt_true_demoteLine l (t :: mapLines demoteLine r) (t :: r)
        (Or.inr ⟨t, _, rfl, ht⟩) (Or.inr ⟨t, r, rfl, ht⟩)
        (by rw [opensParen_cons_space t _ (isSpace_of_lineTerminator ht),
          opensParen_cons_space t _ (isSpace_of_lineTerminator ht),
          opensParen_mapLines_demoteLine])]

/-- `exportedFunctions` is the list of the column-0 declarations, exported or not, of
the glue text after line 19. -/
theorem exportedFunctions_eq_declarations (src : List Char) :
    exportedFunctions src = columnZeroDeclarations true (stripImports src) := by
  rw [exportedFunctions, scanAll_function_eq, columnZeroDeclarations, rewrittenGlue,
    demoteExports_eq_mapLines, namesAtLineStarts_demote_false _ none rfl]
  rfl

theorem stripImports_eq_self (src : List Char) (h : NoImportLine src) :
    stripImports src = src :=
  replaceFrom_import_eq_self src none rfl h

/-- The scan of line 36 gives the same names on the rewritten glue as on the glue text
after line 19. -/
theorem scanAll_binding_rewrittenGlue (src : List Char) :
    scanAll bindingRegex (rewrittenGlue src) = scanAll bindingRegex (stripImports src) := by
  rw [scanAll_binding_eq, scanAll_binding_eq, columnZeroDeclarations, columnZeroDeclarations,
    rewrittenGlue, demoteExports_eq_mapLines, namesAtLineStarts_demote_true _ none rfl]


/-! ## Declarations before and after line 19 -/

theorem isImportLine_of_opensParen (l z : List Char) (h : opensParen (l ++ z) = true) :
    isImportLine l = false := by
  cases l with
  | nil => exact isImportLine_nil
  | cons c l =>
    refine isImportLine_cons c l ?_
    rintro rfl
    rw [List.cons_append, opensParen_cons_other 'i' _ (by decide)] at h
    exact absurd h (by decide)

theorem importRegex_exec_none (p : Option Char) (hp : atLineStart p = true)
    (l y : List Char) (hl : NoLT l) (hy : AtEol y) (h : isImportLine l = false) :
    importRegex.exec p (l ++ y) = none := by
  have hsome := importRegex_exec_isSome p hp l y hl hy
  rw [h] at hsome
  cases hx : importRegex.exec p (l ++ y) with
  | none => rfl
  | some st => rw [hx] at hsome; exact absurd hsome (by simp)

/-- Line 19 keeps a text that opens a parenthesis opening a parenthesis. -/
theorem opensParen_stripImports (r : List Char) :
    ∀ q, atLineStart q = true → opensParen r = true →
      opensParen (replaceFrom importRegex [] 0 q r) = true := by
  induction r using line_induction with
  | h1 l hl =>
    intro q hq h
    have hi : isImportLine l = false := by
      have h0 : opensParen (l ++ []) = true := by rw [List.append_nil]; exact h
      exact isImportLine_of_opensParen l [] h0
    have hx := importRegex_exec_none q hq l [] hl (Or.inl rfl) hi
    have := replaceFrom_line_none lineAnchored_importRegex [] q l [] hl hx
    rw [List.append_nil] at this
    rw [this, replaceFrom_nil lineAnchored_importRegex, List.append_nil]
    exact h
  | h2 l t r hl ht ih =>
    intro q hq h
    have hi : isImportLine l = false := isImportLine_of_opensParen l _ h
    have hx := importRegex_exec_none q hq l (t :: r) hl (Or.inr ⟨t, r, rfl, ht⟩) hi
    rw [replaceFrom_line_none lineAnchored_importRegex [] q l _ hl hx,
      replaceFrom_lt lineAnchored_importRegex [] _ t r ht]
    rw [opensParen_append] at h ⊢
    by_cases hs : l.all isSpace = true
    · rw [if_pos hs] at h ⊢
      rw [opensParen_cons_space t _ (isSpace_of_lineTerminator ht)] at h ⊢
      exact ih (some t) ht h
    · rw [if_neg hs] at h ⊢
      exact h

theorem declNameAfterKeyword_mono (v y w u : List Char) (hy : AtEol y) (hw : AtEol w)
    (h : opensParen y = true → opensParen w = true)
    (hd : declNameAfterKeyword (v ++ y) = some u) : declNameAfterKeyword (v ++ w) = some u := by
  unfold declNameAfterKeyword at hd ⊢
  rw [(takeWhile_word_line v y hy).1, (takeWhile_word_line v y hy).2] at hd
  rw [(takeWhile_word_line v w hw).1, (takeWhile_word_line v w hw).2]
  split at hd
  · next hc =>
    have hcond : opensParen (v.dropWhile isWord ++ w) = true := by
      have h2 := hc.2
      rw [opensParen_append] at h2 ⊢
      by_cases hs : (v.dropWhile isWord).all isSpace = true
      · rw [if_pos hs] at h2 ⊢
        exact h h2
      · rw [if_neg hs] at h2 ⊢
        exact h2
    rw [if_pos ⟨hc.1, hcond⟩]
    exact hd
  · exact absurd hd (by simp)

theorem declNameAt_true_mono (l y w u : List Char) (hy : AtEol y) (hw : AtEol w)
    (h : opensParen y = true → opensParen w = true)
    (hd : declNameAt true (l ++ y) = some u) : declNameAt true (l ++ w) = some u := by
  by_cases h1 : "function ".toList <+: l
  · obtain ⟨v, rfl⟩ := h1
    rw [List.append_assoc, declNameAt_function] at hd ⊢
    exact declNameAfterKeyword_mono v y w u hy hw h hd
  · by_cases h2 : "export function ".toList <+: l
    · obtain ⟨v, rfl⟩ := h2
      rw [List.append_assoc, declNameAt_export_function] at hd ⊢
      exact declNameAfterKeyword_mono v y w u hy hw h hd
    · rw [declNameAt_line_none true l y hy h1 h2] at hd
      exact absurd hd (by simp)

theorem toList_sublist_of_imp {a b : Option (List Char)}
    (h : ∀ u, a = some u → b = some u) : a.toList.Sublist b.toList := by
  cases a with
  | none => exact List.nil_sublist _
  | some u => rw [h u rfl]

theorem declNameAt_space (ok : Bool) (c : Char) (z : List Char) (hc : isSpace c = true) :
    declNameAt ok (c :: z) = none := by
  have hw := isSpace_not_isWord hc
  refine declNameAt_head ok c z ?_ ?_
  · rintro rfl; exact absurd hw (by decide)
  · rintro rfl; exact absurd hw (by decide)

/-- Every column-0 declaration of a text is still there, in the same order, after
line 19. -/
theorem namesAtLineStarts_stripImports :
    ∀ (n : Nat) (x : List Char), x.length = n → ∀ p, atLineStart p = true →
      (namesAtLineStarts (declNameAt true) p x).Sublist
        (namesAtLineStarts (declNameAt true) p (replaceFrom importRegex [] 0 p x)) := by
  intro n
  induction n using Nat.strong_induction_on with
  | _ n ih =>
    intro x hn p hp
    obtain ⟨l, y, rfl, hl, hy⟩ := exists_first_line x
    cases himp : isImportLine l with
    | false =>
      have hx := importRegex_exec_none p hp l y hl hy himp
      rw [replaceFrom_line_none lineAnchored_importRegex [] p l y hl hx]
      rcases hy with rfl | ⟨t, r, rfl, ht⟩
      · rw [replaceFrom_nil lineAnchored_importRegex]
      · have hlen : r.length < n := by
          rw [← hn]
          simp only [List.length_append, List.length_cons]
          omega
        rw [replaceFrom_lt lineAnchored_importRegex [] _ t r ht,
          namesAtLineStarts_line_lt _ p hp l t r hl,
          namesAtLineStarts_line_lt _ p hp l t _ hl]
        refine List.Sublist.append (toList_sublist_of_imp ?_) (ih r.length hlen r rfl (some t) ht)
        intro u hu
        refine declNameAt_true_mono l (t :: r) _ u (Or.inr ⟨t, r, rfl, ht⟩)
          (Or.inr ⟨t, _, rfl, ht⟩) ?_ hu
        intro ho
        rw [opensParen_cons_space t _ (isSpace_of_lineTerminator ht)] at ho ⊢
        exact opensParen_stripImports r (some t) ht ho
    | true =>
      have hsome := importRegex_exec_isSome p hp l y hl hy
      rw [himp] at hsome
      obtain ⟨st, hst⟩ := Option.isSome_iff_exists.1 hsome
      obtain ⟨w1, hy1, hlen1, _, hw1, hrest⟩ := importRegex_exec_extent p l y hl hy st hst
      obtain ⟨v, hv⟩ := isImportLine_starts l himp
      have hl1 : l = 'i' :: ("mport ".toList ++ v) := by rw [← hv]; rfl
      have hlne : l ++ w1 ≠ [] := by rw [hl1]; simp
      have hx : l ++ y = (l ++ w1) ++ st.rest := by rw [hy1, List.append_assoc]
      have hleft : namesAtLineStarts (declNameAt true) p ((l ++ w1) ++ st.rest)
          = namesAtLineStarts (declNameAt true) (prevAfter p (l ++ w1)) st.rest := by
        have hl2 : NoLT ("mport ".toList ++ v) := by
          intro c hc
          exact hl c (by rw [hl1]; exact List.mem_cons_of_mem _ hc)
        rw [hl1]
        show namesAtLineStarts (declNameAt true) p
          ('i' :: ((("mport ".toList ++ v) ++ w1) ++ st.rest)) = _
        rw [namesAtLineStarts, hp, declNameAt_head true 'i' _ (by decide) (by decide),
          List.append_assoc,
          namesAtLineStarts_copy _ _ (some 'i') _ (by decide) hl2,
          namesAtLineStarts_dead _ w1 _ _ (fun c hc z => declNameAt_space true c z (hw1 c hc))]
        simp [prevAfter, prevAfter_append]
      rw [replaceFrom_match [] p _ st hst (l ++ w1) hx hlen1 hlne, List.nil_append, hx, hleft]
      rcases hrest with h0 | ⟨t, r, h0, ht⟩
      · rw [h0]
        exact List.nil_sublist _
      · have hlen : r.length < n := by
          rw [← hn, hx, h0]
          simp only [List.length_append, List.length_cons]
          omega
        have hdead : ∀ q, namesAtLineStarts (declNameAt true) q (t :: r)
            = namesAtLineStarts (declNameAt true) (some t) r := by
          intro q
          have := namesAtLineStarts_dead (declNameAt true) [t] q r
            (fun c hc z => by
              have hc2 : c = t := by simpa using hc
              rw [hc2]
              exact declNameAt_space true t z (isSpace_of_lineTerminator ht))
          simpa [prevAfter] using this
        have hdead2 : ∀ q z, namesAtLineStarts (declNameAt true) q (t :: z)
            = namesAtLineStarts (declNameAt true) (some t) z := by
          intro q z
          have := namesAtLineStarts_dead (declNameAt true) [t] q z
            (fun c hc z => by
              have hc2 : c = t := by simpa using hc
              rw [hc2]
              exact declNameAt_space true t z (isSpace_of_lineTerminator ht))
          simpa [prevAfter] using this
        rw [h0, replaceFrom_lt lineAnchored_importRegex [] _ t r ht, hdead2, hdead2]
        exact ih r.length hlen r rfl (some t) ht

/-- Every column-0 declaration of the glue text, exported or not, is in
`exportedFunctions`, in the same order. -/
theorem declarations_sublist_exportedFunctions (src : List Char) :
    (columnZeroDeclarations true src).Sublist (exportedFunctions src) := by
  rw [exportedFunctions_eq_declarations]
  exact namesAtLineStarts_stripImports src.length src rfl none rfl

/-! ## The lines of the final text -/

theorem noLT_of_mem_lines (x : List Char) : ∀ l ∈ lines x, NoLT l := by
  induction x using line_induction with
  | h1 l hl =>
    intro b hb
    rw [lines_of_noLT l hl, List.mem_singleton] at hb
    rw [hb]
    exact hl
  | h2 l t r hl ht ih =>
    intro b hb
    rw [lines_line_append l t r hl ht, List.mem_cons] at hb
    rcases hb with rfl | hb
    · exact hl
    · exact ih b hb

/-- A line that neither matches the import-statement pattern nor is made of white
space only outlives line 19. -/
theorem mem_survivingLines (l : List Char) (h1 : isImportLine l = false)
    (h2 : l.all isSpace = false) :
    ∀ (ls : List (List Char)) (after : Bool), l ∈ ls → l ∈ survivingLines after ls := by
  intro ls
  induction ls with
  | nil => intro after h; simp at h
  | cons a ls ih =>
    intro after h
    rw [survivingLines]
    rcases List.mem_cons.1 h with rfl | h
    · rw [if_neg (by simp [h1]), if_neg (by simp [h2])]
      exact List.mem_cons_self _ _
    · split
      · exact ih _ h
      · split
        · exact ih _ h
        · exact List.mem_cons_of_mem _ (ih _ h)

/-- The final text, cut at the line terminators between its parts. -/
theorem finalCode_parts (src : List Char) (wasmBinary : List Byte) :
    finalCode src wasmBinary
      = headerComment ++ '\n' :: (payloadLine (toBase64 wasmBinary) ++ '\n' :: ([] ++ '\n' ::
          (rewrittenGlue src ++ '\n' :: (initPrefix.tail.dropLast ++ '\n' ::
            (importsObj (bindingFunctions src) ++ '\n' :: (initSuffix.tail.dropLast ++ '\n' ::
              exportStatements (exportedFunctions src))))))) := by
  have hp : initPrefix = '\n' :: (initPrefix.tail.dropLast ++ ['\n']) := by decide
  have hs : initSuffix = '\n' :: (initSuffix.tail.dropLast ++ ['\n']) := by decide
  rw [finalCode, header_eq, initCode]
  conv_lhs => rw [hp, hs]
  simp

theorem lines_finalCode (src : List Char) (wasmBinary : List Byte) :
    lines (finalCode src wasmBinary)
      = lines headerComment ++ (lines (payloadLine (toBase64 wasmBinary)) ++ (lines [] ++
          (lines (rewrittenGlue src) ++ (lines initPrefix.tail.dropLast ++
            (lines (importsObj (bindingFunctions src)) ++ (lines initSuffix.tail.dropLast ++
              lines (exportStatements (exportedFunctions src)))))))) := by
  rw [finalCode_parts, lines_append_lt _ '\n' _ (by decide), lines_append_lt _ '\n' _ (by decide),
    lines_append_lt _ '\n' _ (by decide), lines_append_lt _ '\n' _ (by decide),
    lines_append_lt _ '\n' _ (by decide), lines_append_lt _ '\n' _ (by decide),
    lines_append_lt _ '\n' _ (by decide)]

theorem not_import_word_cons (c : Char) (l : List Char) (hc : c ≠ 'i') :
    ¬ "import".toList <+: c :: l :=
  cons_not_prefix_cons (c := 'i') (Ne.symm hc)

theorem import_word_not_space (l : List Char) (h : "import".toList <+: l) :
    l.all isSpace = false := by
  obtain ⟨v, rfl⟩ := h
  rfl

/-- The lines of the rewritten glue that begin with the word `import` are lines of the
glue text that do not match the import-statement pattern. -/
theorem import_word_rewrittenGlue (src l : List Char) (hw : "import".toList <+: l) :
    l ∈ lines (rewrittenGlue src) ↔ l ∈ lines src ∧ isImportLine l = false := by
  have hwalk := stripImports_walk src.length src rfl none rfl
  have hne : l ≠ [] := by
    obtain ⟨v, rfl⟩ := hw
    simp
  have hd : demoteLine l = l :=
    demoteLine_of_no_export l
      (by obtain ⟨v, rfl⟩ := hw; exact cons_not_prefix_cons (by decide))
      (by obtain ⟨v, rfl⟩ := hw; exact cons_not_prefix_cons (by decide))
  rw [rewrittenGlue, demoteExports_eq_mapLines,
    lines_mapLines _ (fun l hl => NoLT_demoteLine hl)]
  constructor
  · intro hb
    obtain ⟨a, ha, hal⟩ := List.mem_map.1 hb
    have hal2 : a = l := by
      rcases demoteLine_cases a with h | ⟨v, h⟩ | ⟨v, h⟩
      · rw [← hal, h]
      · rw [h] at hal
        rw [← hal] at hw
        exact absurd hw (not_import_word_cons _ _ (by decide))
      · rw [h] at hal
        rw [← hal] at hw
        exact absurd hw (not_import_word_cons _ _ (by decide))
    rw [hal2] at ha
    refine ⟨?_, hwalk.1 l ha⟩
    rcases hwalk.2.2 l ha with h | h
    · exact absurd h hne
    · exact h
  · rintro ⟨hs, hi⟩
    refine List.mem_map.2 ⟨l, ?_, hd⟩
    exact hwalk.2.1.subset
      (mem_survivingLines l hi (import_word_not_space l hw) _ _ hs)

/-- The lines of the final text that begin with the word `import` are the lines of the
glue text that begin with it and do not match the import-statement pattern: the
header, the init block and the export statement have no such line. -/
theorem import_word_finalCode (src : List Char) (wasmBinary : List Byte) (l : List Char)
    (hw : "import".toList <+: l) :
    l ∈ lines (finalCode src wasmBinary) ↔ l ∈ lines src ∧ isImportLine l = false := by
  rw [← import_word_rewrittenGlue src l hw, lines_finalCode]
  have hb : ∀ n ∈ bindingFunctions src, NoLT n :=
    fun n hn => (scanAll_binding_isName src n hn).noLT
  have he : ∀ n ∈ exportedFunctions src, NoLT n :=
    fun n hn => (scanAll_function_isName _ n hn).noLT
  have h1 : ∀ b ∈ lines headerComment, ¬ "import".toList <+: b := by decide
  have h2 : ∀ b ∈ lines (payloadLine (toBase64 wasmBinary)), ¬ "import".toList <+: b := by
    intro b hb
    rw [lines_of_noLT _ (noLT_payloadLine _ (toBase64_noLT _)), List.mem_singleton] at hb
    rw [hb]
    exact not_import_word_cons _ _ (by decide)
  have h3 : ∀ b ∈ lines ([] : List Char), ¬ "import".toList <+: b := by decide
  have h4 : ∀ b ∈ lines initPrefix.tail.dropLast, ¬ "import".toList <+: b := by decide
  have h5 : ∀ b ∈ lines (importsObj (bindingFunctions src)), ¬ "import".toList <+: b := by
    intro b hb2
    by_cases hne : bindingFunctions src = []
    · rw [hne] at hb2
      revert b
      decide
    · rw [lines_importsObj _ hne hb] at hb2
      obtain ⟨v, rfl⟩ := memberLines_head _ b hb2
      exact not_import_word_cons _ _ (by decide)
  have h6 : ∀ b ∈ lines initSuffix.tail.dropLast, ¬ "import".toList <+: b := by decide
  have h7 : ∀ b ∈ lines (exportStatements (exportedFunctions src)),
      ¬ "import".toList <+: b := by
    intro b hb2
    unfold exportStatements at hb2
    split at hb2
    · have hl : NoLT ("export \x7b ".toList ++ join ", ".toList (exportedFunctions src) ++
          " \x7d".toList) :=
        NoLT_append (NoLT_append (by intro c hc; revert c; decide)
          (join_noLT _ (by intro c hc; revert c; decide) _ he))
          (by intro c hc; revert c; decide)
      have e : "\nexport \x7b ".toList ++ join ", ".toList (exportedFunctions src) ++
          " \x7d".toList
          = [] ++ '\n' :: ("export \x7b ".toList ++ join ", ".toList (exportedFunctions src) ++
              " \x7d".toList) := by
        simp
      rw [e, lines_append_lt _ '\n' _ (by decide), lines_of_noLT _ hl] at hb2
      rcases List.mem_append.1 hb2 with h | h
      · exact h3 b h
      · rw [List.mem_singleton] at h
        rw [h]
        exact not_import_word_cons _ _ (by decide)
    · exact h3 b hb2
  simp only [List.mem_append]
  constructor
  · rintro (h | h | h | h | h | h | h | h)
    · exact absurd hw (h1 l h)
    · exact absurd hw (h2 l h)
    · exact absurd hw (h3 l h)
    · exact h
    · exact absurd hw (h4 l h)
    · exact absurd hw (h5 l h)
    · exact absurd hw (h6 l h)
    · exact absurd hw (h7 l h)
  · intro h
    exact Or.inr (Or.inr (Or.inr (Or.inl h)))

theorem exportStatements_eq_nil (names : List (List Char))
    (h : exportStatements names = []) : names = [] := by
  cases names with
  | nil => rfl
  | cons n ns =>
    rw [exportStatements, if_pos (by simp)] at h
    simp at h

/-- With an import line, the column-0 declarations of the glue text need not be all of
`exportedFunctions`: those of `orderingMergeGlue` are `f1`, `__wbg_foo`, `f2`,
`__wbindgen_bar`, and `exportedFunctions` has `__wbg_f` after them. -/
theorem exportedFunctions_orderingMergeGlue :
    columnZeroDeclarations true orderingMergeGlue
      = ["f1".toList, "__wbg_foo".toList, "f2".toList, "__wbindgen_bar".toList] ∧
    exportedFunctions orderingMergeGlue
      = ["f1".toList, "__wbg_foo".toList, "f2".toList, "__wbindgen_bar".toList,
          "__wbg_f".toList] ∧
    bindingFunctions orderingMergeGlue = ["__wbg_foo".toList, "__wbindgen_bar".toList] := by
  decide

/-! ## The claims -/

/-- Claim C2, as stated, fails: for the glue text `orderingGlue`, whose line-initial
declarations are `export function f1(`, `function __wbg_foo(`, `export function f2(`,
`function __wbindgen_bar(`, the list `exportedFunctions` is not `[f1, f2]`. -/
theorem extraction_ordering_counterexample :
    ¬ (exportedFunctions orderingGlue = ["f1".toList, "f2".toList] ∧
       bindingFunctions orderingGlue = ["__wbg_foo".toList, "__wbindgen_bar".toList]) := by
  decide

/-- Claim C2, amended: for every glue text whose column-0 declarations, with or without
`export`, are `f1`, `__wbg_foo`, `f2`, `__wbindgen_bar` in this order, `bindingFunctions`
is `[__wbg_foo, __wbindgen_bar]`, and `exportedFunctions` holds all four names in text
order, the ones not exported included: the four are a subsequence of it, so it is not
`[f1, f2]`, and it is exactly the four when no line of the glue text matches the
import-statement pattern (with such a line it can have more names: `orderingMergeGlue`). -/
theorem extraction_ordering (src : List Char)
    (h : columnZeroDeclarations true src
      = ["f1".toList, "__wbg_foo".toList, "f2".toList, "__wbindgen_bar".toList]) :
    bindingFunctions src = ["__wbg_foo".toList, "__wbindgen_bar".toList] ∧
    ["f1".toList, "__wbg_foo".toList, "f2".toList, "__wbindgen_bar".toList].Sublist
      (exportedFunctions src) ∧
    exportedFunctions src ≠ ["f1".toList, "f2".toList] ∧
    (NoImportLine src → exportedFunctions src
      = ["f1".toList, "__wbg_foo".toList, "f2".toList, "__wbindgen_bar".toList]) := by
  have hs := declarations_sublist_exportedFunctions src
  rw [h] at hs
  refine ⟨?_, hs, ?_, ?_⟩
  · have hb : bindingFunctions src = (columnZeroDeclarations true src).filter isBindingName :=
      scanAll_binding_eq src
    rw [hb, h]
    decide
  · intro he
    rw [he] at hs
    have := hs.length_le
    simp at this
  · intro hn
    rw [exportedFunctions_eq_declarations, stripImports_eq_self src hn, h]

/-- Witness of claim C2, amended, on `orderingGlue`, which has the four declarations,
`f1` and `f2` with `export`, and no import line. -/
theorem extraction_ordering_witness :
    columnZeroDeclarations true orderingGlue
      = ["f1".toList, "__wbg_foo".toList, "f2".toList, "__wbindgen_bar".toList] ∧
    NoImportLine orderingGlue ∧
    bindingFunctions orderingGlue = ["__wbg_foo".toList, "__wbindgen_bar".toList] ∧
    exportedFunctions orderingGlue
      = ["f1".toList, "__wbg_foo".toList, "f2".toList, "__wbindgen_bar".toList] :=
  ⟨by decide, by unfold NoImportLine; decide,
   (extraction_ordering orderingGlue (by decide)).1,
   (extraction_ordering orderingGlue (by decide)).2.2.2 (by unfold NoImportLine; decide)⟩

/-- Claim C3, as stated, fails: the two blank lines after the import line of
`blankAfterImportGlue` do not match the import-statement pattern, and the lines that
do not match are not a subsequence of the lines of the result (one blank line is
gone). -/
theorem import_stripping_counterexample :
    ¬ ((lines blankAfterImportGlue).filter (fun l => !isImportLine l)).Sublist
        (lines (stripImports blankAfterImportGlue)) := by
  decide

/-- Claim C3, amended: after line 19, (i) no line of the result matches the
import-statement pattern, and (ii) the lines of the glue text, without the lines that
match the pattern and without the whitespace-only lines that directly follow such a
line, are lines of the result, unchanged and in the same order. -/
theorem import_stripping (src : List Char) :
    (∀ l ∈ lines (stripImports src), isImportLine l = false) ∧
    (survivingLines false (lines src)).Sublist (lines (stripImports src)) :=
  ⟨(stripImports_walk src.length src rfl none rfl).1,
   (stripImports_walk src.length src rfl none rfl).2.1⟩

/-- Claim C4: applying lines 21-22 twice gives the same text as applying them once,
and no line of the result begins with `export function ` or `export const `. -/
theorem export_demotion_idempotent (t : List Char) :
    demoteExports (demoteExports t) = demoteExports t ∧
    ∀ l ∈ lines (demoteExports t),
      ¬ "export function ".toList <+: l ∧ ¬ "export const ".toList <+: l := by
  constructor
  · rw [demoteExports_eq_mapLines, demoteExports_eq_mapLines,
      mapLines_comp _ _ (fun l hl => NoLT_demoteLine hl)]
    exact mapLines_congr _ _ (fun l _ => demoteLine_idem l) t
  · intro l hl
    rw [demoteExports_eq_mapLines, lines_mapLines _ (fun l hl => NoLT_demoteLine hl)] at hl
    obtain ⟨l0, _, rfl⟩ := List.mem_map.1 hl
    exact demoteLine_no_export l0

/-- Claim C5, as stated, fails: `mergeGlue` has no column-0 declaration `function N(` or
`export function N(`, yet `exportedFunctions` is `[__wbg_f]` and `finalCode` is not
`header + wasmBgJs + initCode`: it ends with the statement that exports `__wbg_f`. -/
theorem empty_export_omission_counterexample :
    columnZeroDeclarations true mergeGlue = [] ∧
    exportedFunctions mergeGlue = ["__wbg_f".toList] ∧
    finalCode mergeGlue scenarioBytes
      ≠ header (toBase64 scenarioBytes) ++ rewrittenGlue mergeGlue ++
          initCode (bindingFunctions mergeGlue) ∧
    "\nexport \x7b __wbg_f \x7d".toList <:+ finalCode mergeGlue scenarioBytes := by
  decide

/-- Claim C5, amended: `finalCode` is exactly `header + wasmBgJs + initCode`, with no
export statement after it, if and only if `exportedFunctions` is empty, that is, if and
only if the rewritten glue has no column-0 declaration `function N(`, that is, if and
only if the glue text after line 19 has no column-0 declaration `function N(` or
`export function N(`. This is so for a glue text that has no such declaration and no
line that matches the import-statement pattern, and for a glue text none of whose lines
begins with `function ` or `export function `. -/
theorem empty_export_omission (src : List Char) (wasmBinary : List Byte) :
    (exportedFunctions src = [] ↔ columnZeroDeclarations false (rewrittenGlue src) = []) ∧
    (exportedFunctions src = [] ↔ columnZeroDeclarations true (stripImports src) = []) ∧
    (NoImportLine src → columnZeroDeclarations true src = [] → exportedFunctions src = []) ∧
    ((∀ l ∈ lines src, ¬ "function ".toList <+: l ∧ ¬ "export function ".toList <+: l) →
      exportedFunctions src = []) ∧
    (exportedFunctions src = [] →
      exportStatements (exportedFunctions src) = [] ∧
      finalCode src wasmBinary
        = header (toBase64 wasmBinary) ++ rewrittenGlue src ++
            initCode (bindingFunctions src)) ∧
    (finalCode src wasmBinary
        = header (toBase64 wasmBinary) ++ rewrittenGlue src ++
            initCode (bindingFunctions src) →
      exportedFunctions src = []) := by
  have e1 : exportedFunctions src = columnZeroDeclarations false (rewrittenGlue src) :=
    scanAll_function_eq _
  refine ⟨by rw [e1], by rw [exportedFunctions_eq_declarations], ?_,
    exportedFunctions_nil src, ?_, ?_⟩
  · intro hn h
    rw [exportedFunctions_eq_declarations, stripImports_eq_self src hn, h]
  · intro h
    have he : exportStatements (exportedFunctions src) = [] := by
      rw [h]
      rfl
    exact ⟨he, by rw [finalCode, he, List.append_nil]⟩
  · intro h
    rw [finalCode] at h
    exact exportStatements_eq_nil _ (List.append_right_eq_self.1 h)

/-- Witness of claim C5, amended: `constantsGlue` has no import line and no
declaration; `noFunctionGlue` has an import line and no line that begins with
`function ` or `export function `; for both, `finalCode` is `header + wasmBgJs +
initCode`. -/
theorem empty_export_omission_witness :
    NoImportLine constantsGlue ∧ columnZeroDeclarations true constantsGlue = [] ∧
    finalCode constantsGlue scenarioBytes
      = header (toBase64 scenarioBytes) ++ rewrittenGlue constantsGlue ++
          initCode (bindingFunctions constantsGlue) ∧
    (∀ l ∈ lines noFunctionGlue,
      ¬ "function ".toList <+: l ∧ ¬ "export function ".toList <+: l) ∧
    exportStatements (exportedFunctions noFunctionGlue) = [] ∧
    finalCode noFunctionGlue scenarioBytes
      = header (toBase64 scenarioBytes) ++ rewrittenGlue noFunctionGlue ++
          initCode (bindingFunctions noFunctionGlue) :=
  ⟨by unfold NoImportLine; decide, by decide,
   ((empty_export_omission constantsGlue scenarioBytes).2.2.2.2.1
      ((empty_export_omission constantsGlue scenarioBytes).2.2.1
        (by unfold NoImportLine; decide) (by decide))).2,
   by decide,
   (empty_export_omission noFunctionGlue scenarioBytes).2.2.2.2.1
      ((empty_export_omission noFunctionGlue scenarioBytes).2.2.2.1 (by decide))⟩

/-- Claim C8: when `exportedFunctions` is not empty, `finalCode` is `header + wasmBgJs +
initCode` followed by exactly a line feed, `export { `, the names of
`exportedFunctions` in scan order joined by `, `, and ` }`. -/
theorem reexport_completeness (src : List Char) (wasmBinary : List Byte)
    (h : exportedFunctions src ≠ []) :
    finalCode src wasmBinary
      = header (toBase64 wasmBinary) ++ rewrittenGlue src ++ initCode (bindingFunctions src) ++
          ("\nexport \x7b ".toList ++ join ", ".toList (exportedFunctions src) ++ " \x7d".toList) ∧
    ("\nexport \x7b ".toList ++ join ", ".toList (exportedFunctions src) ++ " \x7d".toList)
      <:+ finalCode src wasmBinary := by
  have he : exportStatements (exportedFunctions src)
      = "\nexport \x7b ".toList ++ join ", ".toList (exportedFunctions src) ++ " \x7d".toList := by
    rw [exportStatements, if_pos (List.length_pos.2 h)]
  have hf : finalCode src wasmBinary
      = header (toBase64 wasmBinary) ++ rewrittenGlue src ++ initCode (bindingFunctions src) ++
          ("\nexport \x7b ".toList ++ join ", ".toList (exportedFunctions src) ++ " \x7d".toList) := by
    rw [finalCode, he]
  exact ⟨hf, by rw [hf]; exact List.suffix_append _ _⟩

/-- Witness of claim C8 on `smallGlue`: the export statement names `add` and
`__wbg_log`. -/
theorem reexport_completeness_witness :
    exportedFunctions smallGlue ≠ [] ∧
    finalCode smallGlue []
      = header (toBase64 []) ++ rewrittenGlue smallGlue ++ initCode (bindingFunctions smallGlue) ++
          ("\nexport \x7b ".toList ++ join ", ".toList (exportedFunctions smallGlue) ++
            " \x7d".toList) ∧
    ("\nexport \x7b ".toList ++ join ", ".toList (exportedFunctions smallGlue) ++ " \x7d".toList)
      <:+ finalCode smallGlue [] :=
  ⟨by decide, reexport_completeness smallGlue [] (by decide)⟩

/-- Claim C9: `initCode` is a fixed text, then the imports object, then a fixed text;
the imports object opens with its one namespace key `'./rumina_bg.js'`, holds
`importsObj` and closes; `importsObj` is empty when `bindingFunctions` is empty and
otherwise has one line per name of `bindingFunctions`, in scan order: four spaces and
the name, with a comma after every name but the last. -/
theorem import_table (src : List Char) :
    initCode (bindingFunctions src)
      = initHead ++ (importsOpen ++ importsObj (bindingFunctions src) ++ importsClose)
          ++ initTail ∧
    importsObj (bindingFunctions src)
      = join ",\n".toList ((bindingFunctions src).map (fun fn => "    ".toList ++ fn)) ∧
    (bindingFunctions src = [] → importsObj (bindingFunctions src) = []) ∧
    (bindingFunctions src ≠ [] →
      lines (importsObj (bindingFunctions src)) = memberLines (bindingFunctions src)) := by
  refine ⟨?_, rfl, ?_, ?_⟩
  · have h1 : initPrefix = initHead ++ importsOpen := by decide
    have h2 : initSuffix = importsClose ++ initTail := by decide
    rw [initCode, h1, h2]
    simp only [List.append_assoc]
  · intro h
    rw [h]
    rfl
  · intro h
    exact lines_importsObj _ h (fun n hn => (scanAll_binding_isName src n hn).noLT)

/-- Witness of claim C9 on `smallGlue`, whose only host binding is `__wbg_log`. -/
theorem import_table_witness :
    bindingFunctions smallGlue ≠ [] ∧
    lines (importsObj (bindingFunctions smallGlue)) = ["    __wbg_log".toList] := by
  have h := (import_table smallGlue).2.2.2 (by decide)
  exact ⟨by decide, h.trans (by decide)⟩

/-- Claim C7, as stated, fails: in the scenario `exportedFunctions` is not `[add]`,
and `finalCode` does not end with an export statement that names `add` alone. -/
theorem scenario_counterexample :
    ¬ (toBase64 scenarioBytes = "AGFzbQ==".toList ∧
       (lines (rewrittenGlue scenarioGlue)).head?
         = some "function add(a, b) \x7b return a + b; \x7d".toList ∧
       exportedFunctions scenarioGlue = ["add".toList] ∧
       bindingFunctions scenarioGlue = ["__wbg_log".toList] ∧
       lines (importsObj (bindingFunctions scenarioGlue)) = ["    __wbg_log".toList] ∧
       "\nexport \x7b add \x7d".toList <:+ finalCode scenarioGlue scenarioBytes) := by
  decide

/-- Claim C7, amended: in the scenario the base64 text is `AGFzbQ==`, the first line of
the rewritten glue is `function add(a, b) { return a + b; }`, `exportedFunctions` is
`[add, __wbg_log]`, `bindingFunctions` is `[__wbg_log]`, the import table has the one
member `__wbg_log`, and `finalCode` ends with `export { add, __wbg_log }`. -/
theorem scenario_pipeline :
    toBase64 scenarioBytes = "AGFzbQ==".toList ∧
    (lines (rewrittenGlue scenarioGlue)).head?
      = some "function add(a, b) \x7b return a + b; \x7d".toList ∧
    exportedFunctions scenarioGlue = ["add".toList, "__wbg_log".toList] ∧
    bindingFunctions scenarioGlue = ["__wbg_log".toList] ∧
    lines (importsObj (bindingFunctions scenarioGlue)) = ["    __wbg_log".toList] ∧
    "\nexport \x7b add, __wbg_log \x7d".toList <:+ finalCode scenarioGlue scenarioBytes := by
  decide

/-- Claim C6, as stated, fails: the lines `import './side.js';` and
`import{helper} from './helper.js';` of `sideEffectImportGlue` are import statements
that name a module path, the pattern of line 19 matches neither, and both are lines of
`finalCode`. -/
theorem self_containment_counterexample :
    ("import './side.js';".toList ∈ lines (finalCode sideEffectImportGlue scenarioBytes) ∧
      isImportStatement "import './side.js';".toList = true) ∧
    ("import\x7bhelper\x7d from './helper.js';".toList
        ∈ lines (finalCode sideEffectImportGlue scenarioBytes) ∧
      isImportStatement "import\x7bhelper\x7d from './helper.js';".toList = true) ∧
    ¬ (∀ l ∈ lines (finalCode sideEffectImportGlue scenarioBytes),
        isImportStatement l = false) := by
  decide

/-- Claim C6, amended: no line of `finalCode` matches the import-statement pattern of
line 19, that is, no line of it is `import `, any text, ` from `, any text; and the
lines of `finalCode` that begin with the word `import` are exactly the lines of the glue
text that begin with it and do not match the pattern: line 19 removes the lines that
match and leaves the other ones, and the header with the base64 text, the rewrites, the
init block and the export statement bring in none. -/
theorem self_containment (src : List Char) (wasmBinary : List Byte) :
    (∀ l ∈ lines (finalCode src wasmBinary), isImportLine l = false) ∧
    (∀ l ∈ lines (finalCode src wasmBinary),
      ∀ a b, l ≠ "import ".toList ++ a ++ " from ".toList ++ b) ∧
    (∀ l, "import".toList <+: l →
      (l ∈ lines (finalCode src wasmBinary) ↔ l ∈ lines src ∧ isImportLine l = false)) := by
  refine ⟨NoImportLine_finalCode src wasmBinary, ?_,
    fun l hw => import_word_finalCode src wasmBinary l hw⟩
  intro l hl a b hab
  have h := NoImportLine_finalCode src wasmBinary l hl
  have h2 := (isImportLine_iff l (noLT_of_mem_lines _ l hl)).2 ⟨a, b, hab⟩
  rw [h] at h2
  exact absurd h2 (by decide)

/-- Witness of claim C6, amended, on `noFunctionGlue`, which has an import line: the
line `export const answer = 42;` reaches `finalCode` as `const answer = 42;`, and it does
not match the pattern. -/
theorem self_containment_witness :
    "const answer = 42;".toList ∈ lines (finalCode noFunctionGlue scenarioBytes) ∧
    isImportLine "const answer = 42;".toList = false :=
  ⟨by decide, (self_containment noFunctionGlue scenarioBytes).1 _ (by decide)⟩

/-- Claim C10, as stated, fails: for `duplicateGlue`, which declares `__wbg_f` twice,
neither `exportedFunctions` nor `bindingFunctions` is a list of distinct names. -/
theorem name_sets_distinct_counterexample :
    ¬ (exportedFunctions duplicateGlue).Nodup ∧ ¬ (bindingFunctions duplicateGlue).Nodup := by
  decide

/-- Claim C10, amended: for every glue text, `exportedFunctions` and `bindingFunctions`
are lists of identifiers with one entry per declaration, in text order, repeated names
included: `exportedFunctions` is the list of the names of the column-0 declarations
`function N(` of the rewritten glue, which are the column-0 declarations `function N(`
and `export function N(` of the glue text after line 19, and `bindingFunctions` is the
list of the names of the column-0 declarations of the glue text that are binding names.
So a text that declares the names `ns`, one per line, gives `exportedFunctions = ns`,
and `bindingFunctions = ns` when the names are binding names. -/
theorem name_sets_in_order (src : List Char) (ns : List (List Char)) :
    (∀ n ∈ exportedFunctions src, IsName n) ∧
    (∀ n ∈ bindingFunctions src, IsName n) ∧
    exportedFunctions src = columnZeroDeclarations false (rewrittenGlue src) ∧
    exportedFunctions src = columnZeroDeclarations true (stripImports src) ∧
    bindingFunctions src = (columnZeroDeclarations true src).filter isBindingName ∧
    ((∀ n ∈ ns, IsName n) → exportedFunctions (declarations ns) = ns) ∧
    ((∀ n ∈ ns, IsBindingName n) → bindingFunctions (declarations ns) = ns) := by
  refine ⟨fun n hn => scanAll_function_isName _ n hn,
    fun n hn => scanAll_binding_isName src n hn, scanAll_function_eq _,
    exportedFunctions_eq_declarations src, scanAll_binding_eq src, ?_, ?_⟩
  · intro h
    rw [exportedFunctions, rewrittenGlue_declarations ns (fun n hn => (h n hn).noLT)]
    exact scanFrom_function_declarations ns h none rfl
  · intro h
    exact scanFrom_binding_declarations ns h none rfl

/-- Witness of claim C10, amended: the text that declares `__wbg_f` twice gives the
name twice in both lists. -/
theorem name_sets_in_order_witness :
    (∀ n ∈ ["__wbg_f".toList, "__wbg_f".toList], IsName n) ∧
    (∀ n ∈ ["__wbg_f".toList, "__wbg_f".toList], IsBindingName n) ∧
    exportedFunctions (declarations ["__wbg_f".toList, "__wbg_f".toList])
      = ["__wbg_f".toList, "__wbg_f".toList] ∧
    bindingFunctions (declarations ["__wbg_f".toList, "__wbg_f".toList])
      = ["__wbg_f".toList, "__wbg_f".toList] := by
  have hb : ∀ n ∈ ["__wbg_f".toList, "__wbg_f".toList], IsBindingName n := by
    intro n hn
    have hn2 : n = "__wbg_f".toList := by simpa using hn
    rw [hn2]
    exact Or.inl ⟨"g".toList, "f".toList, by decide, Or.inr rfl, by decide, by decide⟩
  have hi : ∀ n ∈ ["__wbg_f".toList, "__wbg_f".toList], IsName n :=
    fun n hn => (hb n hn).isName
  exact ⟨hi, hb, (name_sets_in_order [] ["__wbg_f".toList, "__wbg_f".toList]).2.2.2.2.2.1 hi,
    (name_sets_in_order [] ["__wbg_f".toList, "__wbg_f".toList]).2.2.2.2.2.2 hb⟩

/-- Claim C11, as stated, fails: the name `__wb_x` of `shortPrefixGlue` begins with
neither `__wbg_` nor `__wbindgen_`, and it is captured into `bindingFunctions`. -/
theorem reserved_prefixes_counterexample :
    "__wb_x".toList ∈ bindingFunctions shortPrefixGlue ∧
    ¬ "__wbg_".toList <+: "__wb_x".toList ∧ ¬ "__wbindgen_".toList <+: "__wb_x".toList := by
  decide

/-- Claim C11, amended: every name captured into `bindingFunctions` is `__wb`, an
optional `g`, `_` and an identifier, or `__wbindgen_` and an identifier; so it begins
with `__wb_`, `__wbg_` or `__wbindgen_`, and a name that begins with none of the three
is never captured. -/
theorem reserved_prefixes (src : List Char) :
    (∀ n ∈ bindingFunctions src, IsBindingName n) ∧
    (∀ n ∈ bindingFunctions src,
      "__wb_".toList <+: n ∨ "__wbg_".toList <+: n ∨ "__wbindgen_".toList <+: n) ∧
    (∀ n, ¬ "__wb_".toList <+: n → ¬ "__wbg_".toList <+: n → ¬ "__wbindgen_".toList <+: n →
      n ∉ bindingFunctions src) := by
  refine ⟨fun n hn => scanAll_binding_isBindingName src n hn,
    fun n hn => (scanAll_binding_isBindingName src n hn).starts, ?_⟩
  intro n h1 h2 h3 hn
  rcases (scanAll_binding_isBindingName src n hn).starts with h | h | h
  · exact h1 h
  · exact h2 h
  · exact h3 h

/-- Witness of claim C11, amended, on `shortPrefixGlue`: the captured name `__wb_x` is a
binding name, and `x` is not captured from a text that declares it. -/
theorem reserved_prefixes_witness :
    "__wb_x".toList ∈ bindingFunctions shortPrefixGlue ∧
    IsBindingName "__wb_x".toList ∧
    "x".toList ∉ bindingFunctions shortPrefixGlue :=
  ⟨by decide, (reserved_prefixes shortPrefixGlue).1 _ (by decide),
   (reserved_prefixes shortPrefixGlue).2.2 _ (by decide) (by decide) (by decide)⟩

/-- Claim C13: lines 21-22 rewrite every line on its own and keep the line terminators,
so the lines of the result are the lines of the text, one for one and in order; a line
that begins with `export function ` or `export const ` loses its first seven
characters, the `export `, and every other line is unchanged.  The text
`demotionSample` shows an indented `export`, an `export` in the middle of a line, and
`export class`, `export let`, `export default` and `export {` lines left as they are. -/
theorem export_demotion_line_initial (t : List Char) :
    demoteExports t = mapLines demoteLine t ∧
    lines (demoteExports t) = (lines t).map demoteLine ∧
    (lines (demoteExports t)).length = (lines t).length ∧
    (∀ l : List Char, demoteLine l
      = if "export function ".toList <+: l ∨ "export const ".toList <+: l then l.drop 7
        else l) ∧
    (∀ v : List Char, demoteLine ("export function ".toList ++ v) = "function ".toList ++ v) ∧
    (∀ v : List Char, demoteLine ("export const ".toList ++ v) = "const ".toList ++ v) ∧
    demoteExports demotionSample = demotionSampleResult := by
  have h2 : lines (demoteExports t) = (lines t).map demoteLine := by
    rw [demoteExports_eq_mapLines, lines_mapLines _ (fun l hl => NoLT_demoteLine hl)]
  refine ⟨demoteExports_eq_mapLines t, h2, by rw [h2, List.length_map], demoteLine_eq,
    demoteLine_export_function, ?_, by decide⟩
  intro v
  have hn : ¬ "export function ".toList <+: "export const ".toList ++ v := by
    rintro ⟨r, hr⟩
    have := congrArg (fun x => x.get? 7) hr
    simp at this
  rw [demoteLine, replaceLineStart_neg hn, replaceLineStart_append]

/-- Claim C14: the base64 text of `n` bytes has `4 * ceil(n / 3)` characters (none for
no bytes); it is a run of base64 digits followed by no, one or two `=`; it holds no
single quote, backslash or line terminator; and the line
`const wasmBase64 = '...'` is one line of `header`. -/
theorem encoded_payload_shape (bs : List Byte) :
    (toBase64 bs).length = 4 * ((bs.length + 2) / 3) ∧
    toBase64 [] = [] ∧
    (∃ digits pad, toBase64 bs = digits ++ pad ∧ (∀ c ∈ digits, c ∈ alphabet) ∧
      (pad = [] ∨ pad = ['='] ∨ pad = ['=', '='])) ∧
    (∀ c ∈ toBase64 bs, c ≠ quoteChar ∧ c ≠ backslashChar ∧ isLineTerminator c = false) ∧
    lines (header (toBase64 bs))
      = lines headerComment ++ [payloadLine (toBase64 bs), [], []] ∧
    payloadLine (toBase64 bs)
      = "const wasmBase64 = ".toList ++ quoteChar :: (toBase64 bs ++ [quoteChar]) := by
  refine ⟨toBase64_length bs, rfl, toBase64_digits_pad bs, ?_,
    lines_header _ (toBase64_noLT bs), ?_⟩
  · intro c hc
    obtain ⟨digits, pad, h1, h2, h3⟩ := toBase64_digits_pad bs
    have hp : ∀ x ∈ pad, x = '=' := by
      rcases h3 with rfl | rfl | rfl <;> simp
    rw [h1] at hc
    refine ⟨?_, ?_, toBase64_noLT bs c (by rw [h1]; exact hc)⟩
    · rcases List.mem_append.1 hc with h | h
      · exact (alphabet_plain c (h2 c h)).1
      · rw [hp c h]; decide
    · rcases List.mem_append.1 hc with h | h
      · exact (alphabet_plain c (h2 c h)).2.1
      · rw [hp c h]; decide
  · simp [payloadLine, quoteChar]

/-- Claim C12, as stated, fails: for `mergeGlue`, `exportedFunctions` holds the name
`__wbg_f` of a declaration that line 19 has put together, and the glue text itself has
no column-0 declaration `function N(` or `export function N(`. -/
theorem public_functions_definition_counterexample :
    ¬ (exportedFunctions mergeGlue = columnZeroDeclarations false (rewrittenGlue mergeGlue) ∧
       exportedFunctions mergeGlue = columnZeroDeclarations true mergeGlue) := by
  decide

/-- Claim C12, amended: `exportedFunctions` is the list, in text order and with one
entry per declaration, of the names of the column-0 declarations `function N(` of the
rewritten glue, whether or not they carried `export`; these are the names of the
column-0 declarations `function N(` and `export function N(` of the glue text after
line 19, which include, in order, those of the glue text itself, and are exactly those
when no line of the glue text matches the import-statement pattern. -/
theorem public_functions_definition (src : List Char) :
    exportedFunctions src = columnZeroDeclarations false (rewrittenGlue src) ∧
    exportedFunctions src = columnZeroDeclarations true (stripImports src) ∧
    (columnZeroDeclarations true src).Sublist (exportedFunctions src) ∧
    (NoImportLine src → exportedFunctions src = columnZeroDeclarations true src) := by
  refine ⟨scanAll_function_eq _, exportedFunctions_eq_declarations src,
    declarations_sublist_exportedFunctions src, ?_⟩
  intro h
  rw [exportedFunctions_eq_declarations, stripImports_eq_self src h]

/-- Witness of claim C12, amended, on `smallGlue`, which has no import line. -/
theorem public_functions_definition_witness :
    NoImportLine smallGlue ∧
    exportedFunctions smallGlue = columnZeroDeclarations true smallGlue :=
  ⟨by unfold NoImportLine; decide,
   (public_functions_definition smallGlue).2.2.2 (by unfold NoImportLine; decide)⟩

/-- Claim C15, as stated, fails: for `mergeGlue`, `bindingFunctions` is empty and
`exportedFunctions` filtered to the binding names is `[__wbg_f]`. -/
theorem host_bindings_filter_counterexample :
    bindingFunctions mergeGlue ≠ (exportedFunctions mergeGlue).filter isBindingName := by
  decide

/-- Claim C15, amended: `bindingFunctions` is the list of the column-0 declarations,
exported or not, of the glue text, filtered, order kept, to the names that match
`__wbg?_\w+` or `__wbindgen_\w+`; it is a subsequence of `exportedFunctions` filtered
to those names, so every name of it is a column-0 function of the rewritten glue and
is in the export list; and it is equal to `exportedFunctions` filtered to those names
when no line of the glue text matches the import-statement pattern. -/
theorem host_bindings_filter (src : List Char) :
    (∀ u, isBindingName u = true ↔ IsBindingName u) ∧
    bindingFunctions src = (columnZeroDeclarations true src).filter isBindingName ∧
    (bindingFunctions src).Sublist ((exportedFunctions src).filter isBindingName) ∧
    (∀ n ∈ bindingFunctions src,
      n ∈ columnZeroDeclarations false (rewrittenGlue src) ∧ n ∈ exportedFunctions src) ∧
    (NoImportLine src →
      bindingFunctions src = (exportedFunctions src).filter isBindingName) := by
  have h1 : bindingFunctions src = (columnZeroDeclarations true src).filter isBindingName :=
    scanAll_binding_eq src
  have h2 : (bindingFunctions src).Sublist ((exportedFunctions src).filter isBindingName) := by
    rw [h1]
    exact (declarations_sublist_exportedFunctions src).filter _
  refine ⟨isBindingName_iff, h1, h2, ?_, ?_⟩
  · intro n hn
    have hm : n ∈ exportedFunctions src := (List.mem_filter.1 (h2.subset hn)).1
    exact ⟨by rw [← scanAll_function_eq]; exact hm, hm⟩
  · intro h
    rw [h1, exportedFunctions_eq_declarations, stripImports_eq_self src h]

/-- Witness of claim C15, amended, on `smallGlue`, which has no import line: the host
binding `__wbg_log` is the one binding name of `exportedFunctions`. -/
theorem host_bindings_filter_witness :
    NoImportLine smallGlue ∧
    "__wbg_log".toList ∈ bindingFunctions smallGlue ∧
    "__wbg_log".toList ∈ exportedFunctions smallGlue ∧
    bindingFunctions smallGlue = (exportedFunctions smallGlue).filter isBindingName :=
  ⟨by unfold NoImportLine; decide, by decide,
   ((host_bindings_filter smallGlue).2.2.2.1 _ (by decide)).2,
   (host_bindings_filter smallGlue).2.2.2.2 (by unfold NoImportLine; decide)⟩

/-- Claim C16, as stated, fails: for `mergeGlue`, the scan of line 36 finds nothing in
the glue text and finds `__wbg_f` in the rewritten glue. -/
theorem binding_scan_snapshot_counterexample :
    scanAll bindingRegex mergeGlue ≠ scanAll bindingRegex (rewrittenGlue mergeGlue) := by
  decide

/-- Claim C16, amended: the scan of line 36 gives the same names on the rewritten glue
as on the glue text after line 19 (lines 21-22 add, remove and reorder nothing); the
names it gives on the glue text are, in order, among those it gives on the rewritten
glue; and it gives the same names on both when no line of the glue text matches the
import-statement pattern. -/
theorem binding_scan_snapshot (src : List Char) :
    scanAll bindingRegex (rewrittenGlue src) = scanAll bindingRegex (stripImports src) ∧
    (bindingFunctions src).Sublist (scanAll bindingRegex (rewrittenGlue src)) ∧
    (NoImportLine src → scanAll bindingRegex (rewrittenGlue src) = bindingFunctions src) := by
  refine ⟨scanAll_binding_rewrittenGlue src, ?_, ?_⟩
  · rw [scanAll_binding_rewrittenGlue, bindingFunctions, scanAll_binding_eq,
      scanAll_binding_eq]
    exact (namesAtLineStarts_stripImports src.length src rfl none rfl).filter _
  · intro h
    rw [scanAll_binding_rewrittenGlue, stripImports_eq_self src h]
    rfl

/-- Witness of claim C16, amended, on `smallGlue`, which has no import line. -/
theorem binding_scan_snapshot_witness :
    NoImportLine smallGlue ∧
    scanAll bindingRegex (rewrittenGlue smallGlue) = bindingFunctions smallGlue :=
  ⟨by unfold NoImportLine; decide,
   (binding_scan_snapshot smallGlue).2.2 (by unfold NoImportLine; decide)⟩

end SyncWasm
